import Mathlib

/-!
# Row reduction (`RowData`, `Rref`): embedding and verification

A shallow embedding of `src/RowData.cpp` and `src/Rref.cpp`.

* `double` entries are exact rationals (`ℚ`): every statement below is about the
  algorithm in exact arithmetic.
* A `double*` row buffer of `W` entries is a `List ℚ`; `std::vector<RowData>` is a
  `List RowData`; `rows[i]` is `rowAt rows i`.
* `std::sort` is a parameter `srt`: the C++ standard fixes only that the result is a
  permutation of the input in which no later element compares less than an earlier one
  (`IsSort`).  `insertionSortRows` is one such function, used to evaluate the model.
* `Rref::solve` is a `while (true)` loop: `Rref.solve` takes a bound on the number of
  loop iterations and returns `none` when the bound is reached.
* `Rref::firstNonZeroRow` is not initialised by the constructors and is read by the first
  call of `Rref::setRowInfo`; its indeterminate value is the parameter `fnz0`, a natural
  number (`0` for an object with static storage duration).  A negative value would make
  that first loop index the vector before its first element; this is not modelled.
  `Rref::zeroMatrix` is not initialised either, but is assigned before it is read.
* Index and size variables of type `int` are `Nat` or `Int` without wrap-around: they
  range over row and column positions of a matrix held in memory.
* The text constructor is modelled on the tokenised lines of the file; opening and
  reading the stream and `std::regex` tokenising are not modelled.

The definitions that embed the source come first, then the vocabulary of the statements
and of the proofs, then the lemmas, and in the last section one theorem per claim.
-/

/-! ## Exceptions -/

/-- The exceptions thrown by the constructors: one constructor per `throw` site, and one for
the allocation of a row. -/
inductive Error where
  /-- Thrown as `std::invalid_argument`, message "empty row" (both `RowData` constructors). -/
  | emptyRow
  /-- Thrown as `std::invalid_argument`, message "One row isn't proper length". -/
  | rowLength
  /-- Thrown as `std::invalid_argument`, message "null matrix". -/
  | nullMatrix
  /-- Thrown as `std::invalid_argument`, message "invalid size". -/
  | invalidSize
  /-- Thrown as `std::ifstream::failure`, message "No data". -/
  | noData
  /-- Thrown as `std::bad_array_new_length` by `new double[W]` when `W` is negative. -/
  | badArrayNewLength
deriving DecidableEq

/-- Whether the exception is a `std::invalid_argument`. -/
def Error.isInvalidArgument : Error → Bool
  | .emptyRow => true
  | .rowLength => true
  | .nullMatrix => true
  | .invalidSize => true
  | .noData => false
  | .badArrayNewLength => false

/-! ## `RowData` (src/RowData.cpp) -/

/-- The class `RowData`: width, the `W` entries, pivot index and zero-row flag. -/
structure RowData where
  W : Nat
  data : List ℚ
  pivotIndex : Int
  zeroRow : Bool
deriving DecidableEq

/-- `RowData::operator[]`: the entry `data[i]` (reads outside the buffer give `0` here). -/
def RowData.elem (r : RowData) (i : Int) : ℚ := r.data.getD i.toNat 0

/-- The `for` loop of `RowData::setRowInfo`, at index `i` with `n` iterations left. -/
def RowData.setRowInfoLoop (r : RowData) : Nat → Nat → RowData
  | 0, _ => r
  | n + 1, i =>
    if r.elem i ≠ 0 ∨ (i : Int) = (r.W : Int) - 1 then
      if r.elem i = 0 then { r with zeroRow := true, pivotIndex := -1 }
      else { r with pivotIndex := i }
    else RowData.setRowInfoLoop r n (i + 1)

/-- `RowData::setRowInfo`. -/
def RowData.setRowInfo (r : RowData) : RowData := r.setRowInfoLoop r.W 0

/-- `RowData::operator bool`. -/
def RowData.toBool (r : RowData) : Bool := !r.zeroRow

/-- `RowData::operator<`. -/
def RowData.lt (a that : RowData) : Bool :=
  if (!a.toBool && !that.toBool) || !that.toBool then false
  else !a.toBool || decide (a.pivotIndex < that.pivotIndex)

/-- `RowData::operator*=`. -/
def RowData.mulAssign (r : RowData) (operand : ℚ) : RowData :=
  { r with data := r.data.map (fun e => e * operand) }

/-- `RowData::operator+=`. -/
def RowData.addAssign (r that : RowData) : RowData :=
  { r with data := r.data.mapIdx (fun i e => e + that.elem i) }

/-- `RowData::operator/=`. -/
def RowData.divAssign (r : RowData) (operand : ℚ) : RowData := r.mulAssign (1 / operand)

/-- `RowData::elementaryAdd`: the scalar is computed from the old entries, then the row is
scaled, then `r2` is added. -/
def RowData.elementaryAdd (r r2 : RowData) (index : Int) : RowData :=
  (r.mulAssign ((r2.elem index * -1) / r.elem index)).addAssign r2

/-- `RowData::RowData(double*, int)`; an absent buffer is `none`.  With a negative `W` the
allocation `new double[W]` throws.  `pivotIndex` is indeterminate before `setRowInfo`, which
always assigns it when `W ≥ 1`. -/
def RowData.ofBuffer (row : Option (List ℚ)) (W : Int) : Except Error RowData :=
  match row with
  | none => .error .emptyRow
  | some d =>
    if W = 0 then .error .emptyRow
    else if W < 0 then .error .badArrayNewLength
    else .ok (RowData.setRowInfo
      { W := W.toNat, data := d.take W.toNat, pivotIndex := 0, zeroRow := false })

/-- `RowData::RowData(std::vector<std::string>&, int)`; `atof` is `std::atof`. -/
def RowData.ofTokens (atof : String → ℚ) (numbers : List String) (W : Int) :
    Except Error RowData :=
  if (numbers.length : Int) = 0 then .error .emptyRow
  else if (numbers.length : Int) ≠ W then .error .rowLength
  else .ok (RowData.setRowInfo
    { W := W.toNat, data := numbers.map atof, pivotIndex := 0, zeroRow := false })

/-! ## `Rref` (src/Rref.cpp) -/

/-- The class `Rref`. -/
structure Rref where
  W : Nat
  H : Nat
  firstNonZeroRow : Nat
  zeroMatrix : Bool
  rows : List RowData
deriving DecidableEq

/-- The element `rows[i]` of the vector. -/
def rowAt (rows : List RowData) (i : Nat) : RowData := rows.getD i ⟨0, [], -1, true⟩

/-- The loop `for (i = lo; i < lo + n; i++) s = body i s`. -/
def forUp {σ : Type} (body : Nat → σ → σ) : Nat → Nat → σ → σ
  | 0, _, s => s
  | n + 1, i, s => forUp body n (i + 1) (body i s)

/-- The loop of `Rref::isRef`, at index `i` with `n` iterations left. -/
def Rref.isRefLoop (m : Rref) : Nat → Nat → Int → Bool
  | 0, _, _ => true
  | n + 1, i, prevPivot =>
    if i = m.firstNonZeroRow then m.isRefLoop n (i + 1) (rowAt m.rows i).pivotIndex
    else if (rowAt m.rows i).pivotIndex ≤ prevPivot then false
    else m.isRefLoop n (i + 1) (rowAt m.rows i).pivotIndex

/-- `Rref::isRef`. -/
def Rref.isRef (m : Rref) : Bool :=
  m.isRefLoop (m.H - m.firstNonZeroRow) m.firstNonZeroRow (-1)

/-- The last loop of `Rref::setRowInfo`: the value of `i` when the loop is left. -/
def Rref.scanLoop (rows : List RowData) : Nat → Nat → Nat
  | 0, i => i
  | n + 1, i => if (rowAt rows i).toBool then i else Rref.scanLoop rows n (i + 1)

/-- `Rref::setRowInfo`, with `srt` for `std::sort`. -/
def Rref.setRowInfo (srt : List RowData → List RowData) (m : Rref) : Rref :=
  let rows1 := forUp (fun i rows => rows.set i (rowAt rows i).setRowInfo)
    (m.H - m.firstNonZeroRow) m.firstNonZeroRow m.rows
  let rows2 := srt rows1
  let i := Rref.scanLoop rows2 m.H 0
  { m with
    rows := rows2
    firstNonZeroRow := if i < m.H then i else m.firstNonZeroRow
    zeroMatrix := decide (i = m.H) }

/-- The loop of `Rref::doAnRefPass`, entered with the loop variable equal to the second
argument. -/
def Rref.doAnRefPassLoop (fnz : Nat) : Nat → List RowData → List RowData
  | 0, rows => rows
  | i + 1, rows =>
    if fnz < i + 1 then
      let pivot1 := (rowAt rows (i + 1)).pivotIndex
      Rref.doAnRefPassLoop fnz i
        (if pivot1 = (rowAt rows i).pivotIndex then
          rows.set (i + 1) ((rowAt rows (i + 1)).elementaryAdd (rowAt rows i) pivot1)
        else rows)
    else rows

/-- `Rref::doAnRefPass`. -/
def Rref.doAnRefPass (m : Rref) : Rref :=
  { m with rows := Rref.doAnRefPassLoop m.firstNonZeroRow (m.H - 1) m.rows }

/-- The body of the inner loop of `Rref::toRref`. -/
def Rref.clearAbove (i : Nat) (index : Int) (j : Nat) (rows : List RowData) : List RowData :=
  if (rowAt rows j).elem index ≠ 0 then
    rows.set j ((rowAt rows j).elementaryAdd (rowAt rows i) index)
  else rows

/-- The body of the first outer loop of `Rref::toRref`. -/
def Rref.clearColumn (fnz : Nat) (i : Nat) (rows : List RowData) : List RowData :=
  forUp (Rref.clearAbove i (rowAt rows i).pivotIndex) (i - fnz) fnz rows

/-- The body of the second loop of `Rref::toRref`. -/
def Rref.normalise (i : Nat) (rows : List RowData) : List RowData :=
  rows.set i ((rowAt rows i).divAssign ((rowAt rows i).elem (rowAt rows i).pivotIndex))

/-- `Rref::toRref`. -/
def Rref.toRref (m : Rref) : Rref :=
  let n := m.H - m.firstNonZeroRow
  { m with
    rows := forUp Rref.normalise n m.firstNonZeroRow
      (forUp (Rref.clearColumn m.firstNonZeroRow) n m.firstNonZeroRow m.rows) }

/-- `Rref::solve`, bounded to `fuel` iterations of its `while (true)` loop. -/
def Rref.solve (srt : List RowData → List RowData) : Nat → Rref → Option Rref
  | 0, _ => none
  | fuel + 1, m =>
    if m.zeroMatrix then some m
    else if !m.isRef then Rref.solve srt fuel (Rref.setRowInfo srt m.doAnRefPass)
    else some m.toRref

/-- `Rref::getMatrix`: a copy of the first `W` entries of each of the `H` rows. -/
def Rref.getMatrix (m : Rref) : List (List ℚ) :=
  (List.range m.H).map (fun i => (rowAt m.rows i).data.take m.W)

/-- The loop of `Rref::Rref(double**, int, int)` that pushes `RowData(matrix[i], W)`. -/
def Rref.pushRows (matrix : List (Option (List ℚ))) (W : Int) :
    Nat → Nat → List RowData → Except Error (List RowData)
  | 0, _, rows => .ok rows
  | n + 1, i, rows =>
    match RowData.ofBuffer (matrix.getD i none) W with
    | .error e => .error e
    | .ok r => Rref.pushRows matrix W n (i + 1) (rows ++ [r])

/-- `Rref::Rref(double**, int, int)` up to and including its call of `setRowInfo()`: the
object on which `solve()` is then called, or the exception thrown.  An absent `matrix` or
row pointer is `none`. -/
def Rref.load (srt : List RowData → List RowData) (fnz0 : Nat)
    (matrix : Option (List (Option (List ℚ)))) (W H : Int) : Except Error Rref :=
  match matrix with
  | none => .error .nullMatrix
  | some mat =>
    if W ≤ 0 ∨ H ≤ 0 then .error .invalidSize
    else
      match Rref.pushRows mat W H.toNat 0 [] with
      | .error e => .error e
      | .ok rows => .ok (Rref.setRowInfo srt ⟨W.toNat, H.toNat, fnz0, false, rows⟩)

/-- `Rref::Rref(double**, int, int)`.  The result is `none` when `solve` does not return
within `fuel` iterations, `some (.error e)` when the constructor throws `e`, and
`some (.ok m)` when it returns the object `m`. -/
def Rref.ofBuffer (srt : List RowData → List RowData) (fuel fnz0 : Nat)
    (matrix : Option (List (Option (List ℚ)))) (W H : Int) : Option (Except Error Rref) :=
  match Rref.load srt fnz0 matrix W H with
  | .error e => some (.error e)
  | .ok m => (Rref.solve srt fuel m).map .ok

/-- `Rref::solve` together with the number of calls of `doAnRefPass` and the number of
calls of `toRref` it makes. -/
def Rref.solveCount (srt : List RowData → List RowData) : Nat → Rref → Option (Rref × Nat × Nat)
  | 0, _ => none
  | fuel + 1, m =>
    if m.zeroMatrix then some (m, 0, 0)
    else if !m.isRef then
      (Rref.solveCount srt fuel (Rref.setRowInfo srt m.doAnRefPass)).map
        (fun x => (x.1, x.2.1 + 1, x.2.2))
    else some (m.toRref, 0, 1)

/-- The reading loop of `Rref::Rref(std::string)` over the tokenised lines; the second
argument is the member `W`, which is `-1` until the first line has been read. -/
def Rref.readLines (atof : String → ℚ) :
    List (List String) → Int → List RowData → Except Error (Int × List RowData)
  | [], W, rows => .ok (W, rows)
  | tokens :: rest, W, rows =>
    let W1 := if W = -1 then (tokens.length : Int) else W
    match RowData.ofTokens atof tokens W1 with
    | .error e => .error e
    | .ok r => Rref.readLines atof rest W1 (rows ++ [r])

/-- `Rref::Rref(std::string)` on the tokenised lines of the file (stream failures are not
modelled). -/
def Rref.ofLines (srt : List RowData → List RowData) (fuel fnz0 : Nat)
    (atof : String → ℚ) (lines : List (List String)) : Option (Except Error Rref) :=
  match Rref.readLines atof lines (-1) [] with
  | .error e => some (.error e)
  | .ok (W, rows) =>
    if rows.length = 0 then some (.error .noData)
    else
      (Rref.solve srt fuel
        (Rref.setRowInfo srt ⟨W.toNat, rows.length, fnz0, false, rows⟩)).map .ok

/-! ## `std::sort` -/

/-- What the C++ standard guarantees of `std::sort` with `operator<`: the result is a
permutation of the input and no element compares less than an element before it. -/
structure IsSort (srt : List RowData → List RowData) : Prop where
  perm : ∀ l, List.Perm (srt l) l
  sorted : ∀ l, List.Pairwise (fun a b => RowData.lt b a = false) (srt l)

/-- Insertion sort with `operator<`, one function that `std::sort` may be. -/
def insertionSortRows (l : List RowData) : List RowData :=
  List.insertionSort (fun a b => RowData.lt b a = false) l

/-- The valid buffer holding the matrix `M`: every row pointer present. -/
def bufferOf (M : List (List ℚ)) : Option (List (Option (List ℚ))) := some (M.map some)

/-! ## Specification vocabulary -/

/-- Column `p` holds the first nonzero entry of the row `d`. -/
def IsLead (d : List ℚ) (p : Nat) : Prop := d.getD p 0 ≠ 0 ∧ ∀ c, c < p → d.getD c 0 = 0

/-- Every entry of the row `d` is zero. -/
def AllZero (d : List ℚ) : Prop := ∀ c, d.getD c 0 = 0

/-- A rectangular `H × W` matrix with `W, H ≥ 1`: a valid input of the constructor. -/
def ValidMatrix (M : List (List ℚ)) (W H : Nat) : Prop :=
  0 < W ∧ 0 < H ∧ M.length = H ∧ ∀ r ∈ M, r.length = W

/-- The metadata of a row of width `W` agrees with its entries. -/
structure RowData.Fresh (W : Nat) (r : RowData) : Prop where
  width : r.W = W
  len : r.data.length = W
  zero : r.zeroRow = true → r.pivotIndex = -1 ∧ AllZero r.data
  lead : r.zeroRow = false → ∃ p : Nat, r.pivotIndex = p ∧ IsLead r.data p

/-- A row of width `W` whose zero flag, when set, is right (the pivot index may be stale). -/
structure RowData.Semi (W : Nat) (r : RowData) : Prop where
  width : r.W = W
  len : r.data.length = W
  zero : r.zeroRow = true → r.pivotIndex = -1 ∧ AllZero r.data

/-! ## Invariants and auxiliary definitions -/

/-- The rows after the first loop of `Rref::setRowInfo`. -/
def Rref.refreshed (m : Rref) : List RowData :=
  forUp (fun i rows => rows.set i (rowAt rows i).setRowInfo)
    (m.H - m.firstNonZeroRow) m.firstNonZeroRow m.rows

/-- The state in which `Rref::setRowInfo` ends when `std::sort` leaves the rows `rows2`. -/
def Rref.afterSort (m : Rref) (rows2 : List RowData) : Rref :=
  { m with
    rows := rows2
    firstNonZeroRow :=
      if Rref.scanLoop rows2 m.H 0 < m.H then Rref.scanLoop rows2 m.H 0 else m.firstNonZeroRow
    zeroMatrix := decide (Rref.scanLoop rows2 m.H 0 = m.H) }

/-- What `Rref::setRowInfo` needs of the state it is called in: `H` rows of width `W`,
no row wrongly flagged as zero, and fresh metadata on the rows it does not rescan. -/
structure Rref.Pre (W H : Nat) (m : Rref) : Prop where
  hW : 0 < W
  eqW : m.W = W
  eqH : m.H = H
  len : m.rows.length = H
  semi : ∀ i, i < H → (rowAt m.rows i).Semi W
  fresh : ∀ i, i < m.firstNonZeroRow → i < H → (rowAt m.rows i).Fresh W

/-- What `Rref::setRowInfo` establishes: fresh metadata, sorted rows, and `zeroMatrix`,
`firstNonZeroRow` as documented. -/
structure Rref.Good (W H : Nat) (m : Rref) : Prop where
  hW : 0 < W
  eqW : m.W = W
  eqH : m.H = H
  len : m.rows.length = H
  fresh : ∀ i, i < H → (rowAt m.rows i).Fresh W
  sorted : ∀ i j, i < j → j < H → (rowAt m.rows i).pivotIndex ≤ (rowAt m.rows j).pivotIndex
  zeroM : m.zeroMatrix = true → ∀ i, i < H → (rowAt m.rows i).zeroRow = true
  fnz_lt : m.zeroMatrix = false → m.firstNonZeroRow < H
  below : m.zeroMatrix = false →
    ∀ i, i < m.firstNonZeroRow → (rowAt m.rows i).zeroRow = true
  above : m.zeroMatrix = false →
    ∀ i, m.firstNonZeroRow ≤ i → i < H → (rowAt m.rows i).zeroRow = false

/-- The first `k` nonzero rows have pairwise distinct pivot columns, stated on the multiset
of pivot indices: a pivot column shared by two rows has at least `k` rows with a smaller
nonnegative pivot index. -/
def Settled (rows : List RowData) (k : Nat) : Prop :=
  ∀ x : Int, 0 ≤ x → 2 ≤ rows.countP (fun r => decide (r.pivotIndex = x)) →
    k ≤ rows.countP (fun r => decide (0 ≤ r.pivotIndex ∧ r.pivotIndex < x))

/-- A row as a vector: its entries, `0` beyond its width. -/
def rowVec (d : List ℚ) : ℕ → ℚ := fun c => d.getD c 0

/-- The row space of a matrix: the span of its rows. -/
def rowSpace (L : List (List ℚ)) : Submodule ℚ (ℕ → ℚ) :=
  Submodule.span ℚ {v | ∃ d ∈ L, v = rowVec d}

/-- The row space of the matrix held in a vector of rows. -/
def rowsSpace (s : List RowData) : Submodule ℚ (ℕ → ℚ) := rowSpace (s.map RowData.data)

/-- The row at index `j` is rewritten by the pass from the state `m`. -/
def Rref.Hit (m : Rref) (j : Nat) : Prop :=
  m.firstNonZeroRow < j ∧
    (rowAt m.rows j).pivotIndex = (rowAt m.rows (j - 1)).pivotIndex

/-- Echelon shape of a vector of rows: `H` rows of `W` entries, all-zero rows below index
`fnz`, and from `fnz` on the row `j` has its first nonzero entry in column `p j`, recorded
in `pivotIndex`, with `p` strictly increasing. -/
structure Ech (W H fnz : Nat) (p : Nat → Nat) (s : List RowData) : Prop where
  len : s.length = H
  dlen : ∀ j, j < H → (rowAt s j).data.length = W
  piv : ∀ j, fnz ≤ j → j < H → (rowAt s j).pivotIndex = p j
  lead : ∀ j, fnz ≤ j → j < H → IsLead (rowAt s j).data (p j)
  zero : ∀ j, j < fnz → AllZero (rowAt s j).data
  mono : ∀ a b, fnz ≤ a → a < b → b < H → p a < p b

/-- Invariant of the first loop nest of `Rref::toRref`: the pivot columns of the rows
before `i` are cleared above, and the pivot column of row `i` is cleared in the rows
before `j`. -/
structure ClearInv (W H fnz : Nat) (p : Nat → Nat) (i j : Nat) (t : List RowData) : Prop where
  ech : Ech W H fnz p t
  cleared : ∀ a b, fnz ≤ a → a < b → b < i → (rowAt t a).data.getD (p b) 0 = 0
  col : ∀ a, fnz ≤ a → a < j → (rowAt t a).data.getD (p i) 0 = 0

/-- Reduced echelon shape: echelon shape, every pivot entry `1`, and every other entry of a
pivot column `0`. -/
structure Reduced (W H fnz : Nat) (p : Nat → Nat) (s : List RowData) : Prop where
  ech : Ech W H fnz p s
  one : ∀ j, fnz ≤ j → j < H → (rowAt s j).data.getD (p j) 0 = 1
  col : ∀ i j, i < H → fnz ≤ j → j < H → i ≠ j → (rowAt s i).data.getD (p j) 0 = 0

/-- What `solve` returns from the state `m`: the same row space, and either the all-zero
matrix untouched or a matrix in reduced echelon shape. -/
structure Solved (W H : Nat) (m r : Rref) : Prop where
  eqW : r.W = W
  eqH : r.H = H
  space : rowsSpace r.rows = rowsSpace m.rows
  shape : (r.zeroMatrix = true ∧ r.Good W H) ∨
    (r.zeroMatrix = false ∧ r.firstNonZeroRow < H ∧
      ∃ p, Reduced W H r.firstNonZeroRow p r.rows)

/-- The row object `RowData(row, W)` built from a present buffer `d`. -/
def freshRow (W : Nat) (d : List ℚ) : RowData :=
  RowData.setRowInfo { W := W, data := d.take W, pivotIndex := 0, zeroRow := false }

/-- The reduced echelon shape of a matrix given as a list of rows: `H` rows of `W` entries,
the rows below index `f` all zero, and from `f` on the row `j` has its first nonzero entry,
equal to `1`, in column `p j`, with `p` strictly increasing and every other entry of the
column `p j` equal to `0`. -/
structure Canon (W H f : Nat) (p : Nat → Nat) (O : List (List ℚ)) : Prop where
  len : O.length = H
  width : ∀ j, j < H → (O.getD j []).length = W
  zero : ∀ j, j < f → AllZero (O.getD j [])
  lead : ∀ j, f ≤ j → j < H → IsLead (O.getD j []) (p j)
  one : ∀ j, f ≤ j → j < H → (O.getD j []).getD (p j) 0 = 1
  col : ∀ i j, i < H → f ≤ j → j < H → i ≠ j → (O.getD i []).getD (p j) 0 = 0
  mono : ∀ a b, f ≤ a → a < b → b < H → p a < p b

/-- Whether a vector of rows satisfies the postcondition of `std::sort`. -/
def sortedRows (l : List RowData) : Bool :=
  decide (l.Pairwise (fun a b => RowData.lt b a = false))

/-- The vectors `std::sort` may leave from `l`: the sorted permutations of `l`. -/
def sortOutcomes (l : List RowData) : List (List RowData) :=
  l.permutations'.filter sortedRows

/-- Every result `Rref::solve` may return within `fuel` iterations, over all behaviours of
`std::sort`. -/
def Rref.solveAll : Nat → Rref → List (Option Rref)
  | 0, _ => [none]
  | fuel + 1, m =>
    if m.zeroMatrix then [some m]
    else if !m.isRef then
      (sortOutcomes m.doAnRefPass.refreshed).flatMap
        (fun rows2 => Rref.solveAll fuel (m.doAnRefPass.afterSort rows2))
    else [some m.toRref]

/-- The matrices the constructor may return for `M` within `f0` iterations of `solve`, over
all behaviours of `std::sort`, when no sorted arrangement of the input is all zero. -/
def outcomes (f0 W H : Nat) (M : List (List ℚ)) : List (Option (List (List ℚ))) :=
  (sortOutcomes (M.map (freshRow W))).flatMap (fun rows2 =>
    if Rref.scanLoop rows2 H 0 < H then
      (Rref.solveAll f0 ((⟨W, H, 0, false, M.map (freshRow W)⟩ : Rref).afterSort rows2)).map
        (fun o => o.map Rref.getMatrix)
    else [none])

/-! ## Further members of `RowData` and the vocabulary of the later claims -/

/-- `RowData::operator>`. -/
def RowData.gt (a that : RowData) : Bool :=
  if (!a.toBool && !that.toBool) || !a.toBool then false
  else !that.toBool || decide (a.pivotIndex > that.pivotIndex)

/-- `RowData::operator==`. -/
def RowData.eq (a that : RowData) : Bool :=
  if (!a.toBool && that.toBool) || (a.toBool && !that.toBool) then false
  else (!a.toBool && !that.toBool) || decide (a.pivotIndex = that.pivotIndex)

/-- `RowData::operator!=`. -/
def RowData.ne (a that : RowData) : Bool := !(a.eq that)

/-- `RowData::operator>=`. -/
def RowData.ge (a that : RowData) : Bool := a.gt that || a.eq that

/-- The argument `e < 1E-3 ? 0 : e` that `RowData::print` hands to `printf` for the entry
`e`; the literal `1E-3` is read as the rational `1/1000`. -/
def RowData.shown (e : ℚ) : ℚ := if e < 1 / 1000 then 0 else e

/-- `RowData::print`: the row after the call, and the values handed to `printf`, in
order. -/
def RowData.print (r : RowData) : RowData × List ℚ := (r, r.data.map RowData.shown)

/-- `Rref::printMatrix`: the object after the call, and the values handed to `printf`, row
by row. -/
def Rref.printMatrix (m : Rref) : Rref × List (List ℚ) :=
  (m, m.rows.map (fun e => e.print.2))

/-- The number of adjacent pairs of rows after `firstNonZeroRow` that share a pivot
index. -/
def dupPairs (m : Rref) : Nat :=
  ((List.range m.H).filter (fun j => decide (m.firstNonZeroRow < j ∧
    (rowAt m.rows j).pivotIndex = (rowAt m.rows (j - 1)).pivotIndex))).length

/-- `RowData::operator[]` with the index checked: `none` outside `[0, W)`. -/
def RowData.elemChecked (r : RowData) (i : Int) : Option ℚ :=
  if 0 ≤ i ∧ i < r.W then some (r.elem i) else none

/-- `RowData::operator/=` with the divisor checked: `none` for a division by zero. -/
def RowData.divAssignChecked (r : RowData) (operand : ℚ) : Option RowData :=
  if operand ≠ 0 then some (r.divAssign operand) else none

/-- `RowData::elementaryAdd` with the reads `r2[index]`, `(*this)[index]` and the division
by `(*this)[index]` checked. -/
def RowData.elementaryAddChecked (r r2 : RowData) (index : Int) : Option RowData :=
  match r2.elemChecked index, r.elemChecked index with
  | some _, some d => if d ≠ 0 then some (r.elementaryAdd r2 index) else none
  | _, _ => none

/-- The loop `for (i = lo; i < lo + n; i++)` whose body may fail. -/
def forUpChecked {σ : Type} (body : Nat → σ → Option σ) : Nat → Nat → σ → Option σ
  | 0, _, s => some s
  | n + 1, i, s =>
    match body i s with
    | none => none
    | some s1 => forUpChecked body n (i + 1) s1

/-- The loop of `Rref::doAnRefPass` with `elementaryAdd` checked. -/
def Rref.doAnRefPassLoopChecked (fnz : Nat) : Nat → List RowData → Option (List RowData)
  | 0, rows => some rows
  | i + 1, rows =>
    if fnz < i + 1 then
      if (rowAt rows (i + 1)).pivotIndex = (rowAt rows i).pivotIndex then
        match (rowAt rows (i + 1)).elementaryAddChecked (rowAt rows i)
            (rowAt rows (i + 1)).pivotIndex with
        | none => none
        | some r => Rref.doAnRefPassLoopChecked fnz i (rows.set (i + 1) r)
      else Rref.doAnRefPassLoopChecked fnz i rows
    else some rows

/-- `Rref::doAnRefPass` with `elementaryAdd` checked. -/
def Rref.doAnRefPassChecked (m : Rref) : Option Rref :=
  (Rref.doAnRefPassLoopChecked m.firstNonZeroRow (m.H - 1) m.rows).map
    (fun rows => { m with rows := rows })

/-- The body of the inner loop of `Rref::toRref`, with the read `rows[j][index]` and
`elementaryAdd` checked. -/
def Rref.clearAboveChecked (i : Nat) (index : Int) (j : Nat) (rows : List RowData) :
    Option (List RowData) :=
  match (rowAt rows j).elemChecked index with
  | none => none
  | some e =>
    if e ≠ 0 then
      ((rowAt rows j).elementaryAddChecked (rowAt rows i) index).map (fun r => rows.set j r)
    else some rows

/-- The body of the first outer loop of `Rref::toRref`, checked. -/
def Rref.clearColumnChecked (fnz : Nat) (i : Nat) (rows : List RowData) :
    Option (List RowData) :=
  forUpChecked (Rref.clearAboveChecked i (rowAt rows i).pivotIndex) (i - fnz) fnz rows

/-- The body of the second loop of `Rref::toRref`, with the read of the pivot entry and the
division checked. -/
def Rref.normaliseChecked (i : Nat) (rows : List RowData) : Option (List RowData) :=
  match (rowAt rows i).elemChecked (rowAt rows i).pivotIndex with
  | none => none
  | some d => ((rowAt rows i).divAssignChecked d).map (fun r => rows.set i r)

/-- `Rref::toRref`, checked. -/
def Rref.toRrefChecked (m : Rref) : Option Rref :=
  match forUpChecked (Rref.clearColumnChecked m.firstNonZeroRow)
      (m.H - m.firstNonZeroRow) m.firstNonZeroRow m.rows with
  | none => none
  | some rows1 =>
    (forUpChecked Rref.normaliseChecked (m.H - m.firstNonZeroRow) m.firstNonZeroRow rows1).map
      (fun rows2 => { m with rows := rows2 })

/-- `Rref::solve`, checked: `none` when the bound on iterations is reached, `some none`
when a row operation reads outside a row or divides by zero, `some (some m)` when `solve`
returns with the object in state `m`. -/
def Rref.solveChecked (srt : List RowData → List RowData) : Nat → Rref → Option (Option Rref)
  | 0, _ => none
  | fuel + 1, m =>
    if m.zeroMatrix then some (some m)
    else if !m.isRef then
      match m.doAnRefPassChecked with
      | none => some none
      | some m1 => Rref.solveChecked srt fuel (Rref.setRowInfo srt m1)
    else some m.toRrefChecked

/-- The object on which `solve` is called for the valid buffer of `M`, with insertion sort
for `std::sort` and `0` for the indeterminate `firstNonZeroRow`. -/
def stateOf (M : List (List ℚ)) (W H : Nat) : Rref :=
  Rref.setRowInfo insertionSortRows ⟨W, H, 0, false, M.map (freshRow W)⟩

/-! ## Basic facts -/

theorem rowAt_set (rows : List RowData) (i j : Nat) (a : RowData) :
    rowAt (rows.set i a) j = if i = j ∧ i < rows.length then a else rowAt rows j := by
  unfold rowAt
  rw [List.getD_eq_getElem?_getD, List.getD_eq_getElem?_getD, List.getElem?_set]
  by_cases h : i = j
  · subst h
    by_cases h2 : i < rows.length
    · simp [h2]
    · simp [h2, List.getElem?_eq_none (Nat.le_of_not_lt h2)]
  · simp [h]

theorem rowAt_mem (rows : List RowData) (i : Nat) (h : i < rows.length) :
    rowAt rows i ∈ rows := by
  unfold rowAt
  rw [List.getD_eq_getElem _ _ h]
  exact List.getElem_mem h

theorem rowAt_eq_getElem (rows : List RowData) (i : Nat) (h : i < rows.length) :
    rowAt rows i = rows[i] := by
  unfold rowAt
  rw [List.getD_eq_getElem _ _ h]

theorem forUp_inv {σ : Type} (body : Nat → σ → σ) (P : Nat → σ → Prop) :
    ∀ (n lo : Nat) (s : σ), P lo s →
      (∀ i s, lo ≤ i → i < lo + n → P i s → P (i + 1) (body i s)) →
      P (lo + n) (forUp body n lo s) := by
  intro n
  induction n with
  | zero => intro lo s h _; simpa [forUp] using h
  | succ n ih =>
    intro lo s h hstep
    have h1 : P (lo + 1) (body lo s) := hstep lo s (le_refl _) (by omega) h
    have := ih (lo + 1) (body lo s) h1 (fun i s hi hlt hp => hstep i s (by omega) (by omega) hp)
    simpa [forUp, Nat.add_assoc, Nat.add_comm 1 n] using this

theorem elem_natCast (r : RowData) (c : Nat) : r.elem (c : Int) = r.data.getD c 0 := by
  simp [RowData.elem]

theorem allZero_or_lead (d : List ℚ) : AllZero d ∨ ∃ p, IsLead d p := by
  by_cases h : ∃ p, d.getD p 0 ≠ 0
  · right
    classical
    refine ⟨Nat.find h, Nat.find_spec h, ?_⟩
    intro c hc
    by_contra hne
    exact Nat.find_min h hc hne
  · left
    intro c
    by_contra hne
    exact h ⟨c, hne⟩

theorem IsLead.lt_length {d : List ℚ} {p : Nat} (h : IsLead d p) : p < d.length := by
  by_contra hge
  apply h.1
  rw [List.getD_eq_getElem?_getD, List.getElem?_eq_none (by omega)]
  rfl

theorem IsLead.unique {d : List ℚ} {p q : Nat} (hp : IsLead d p) (hq : IsLead d q) : p = q := by
  rcases Nat.lt_trichotomy p q with h | h | h
  · exact absurd (hq.2 p h) hp.1
  · exact h
  · exact absurd (hp.2 q h) hq.1

theorem IsLead.not_allZero {d : List ℚ} {p : Nat} (hp : IsLead d p) : ¬ AllZero d :=
  fun h => hp.1 (h p)

theorem setRowInfoLoop_zero (r : RowData) :
    ∀ n i, i + n = r.W → 0 < n → (∀ c, i ≤ c → c < r.W → r.data.getD c 0 = 0) →
      r.setRowInfoLoop n i = { r with zeroRow := true, pivotIndex := -1 } := by
  intro n
  induction n with
  | zero => intro i _ h; omega
  | succ n ih =>
    intro i hi _ hz
    have h0 : r.elem (i : Int) = 0 := by rw [elem_natCast]; exact hz i (le_refl _) (by omega)
    unfold RowData.setRowInfoLoop
    by_cases hlast : (i : Int) = (r.W : Int) - 1
    · rw [if_pos (Or.inr hlast), if_pos h0]
    · simp only [h0, hlast, ne_eq, not_true_eq_false, or_self, if_false]
      have hn : 0 < n := by omega
      exact ih (i + 1) (by omega) hn (fun c hc hlt => hz c (by omega) hlt)

theorem setRowInfoLoop_lead (r : RowData) (p : Nat) :
    ∀ n i, i + n = r.W → i ≤ p → p < r.W → r.data.getD p 0 ≠ 0 →
      (∀ c, i ≤ c → c < p → r.data.getD c 0 = 0) →
      r.setRowInfoLoop n i = { r with pivotIndex := p } := by
  intro n
  induction n with
  | zero => intro i _ _ _ _ _; omega
  | succ n ih =>
    intro i hi hip hp hne hz
    unfold RowData.setRowInfoLoop
    by_cases hi0 : r.elem (i : Int) = 0
    · have hne_ip : i ≠ p := by
        rintro rfl
        rw [elem_natCast] at hi0
        exact hne hi0
      have hlast : ¬ (i : Int) = (r.W : Int) - 1 := by omega
      simp only [hi0, hlast, ne_eq, not_true_eq_false, or_self, if_false]
      exact ih (i + 1) (by omega) (by omega) hp hne (fun c hc hlt => hz c (by omega) hlt)
    · have hip2 : i = p := by
        by_contra hne2
        apply hi0
        rw [elem_natCast]
        exact hz i (le_refl _) (by omega)
      subst hip2
      simp [hi0]

theorem setRowInfo_of_allZero (r : RowData) (hW : 0 < r.W)
    (hz : AllZero r.data) : r.setRowInfo = { r with zeroRow := true, pivotIndex := -1 } :=
  setRowInfoLoop_zero r r.W 0 (by omega) hW (fun c _ _ => hz c)

theorem setRowInfo_of_lead (r : RowData) (p : Nat) (hlen : r.data.length = r.W)
    (hp : IsLead r.data p) : r.setRowInfo = { r with pivotIndex := p } :=
  setRowInfoLoop_lead r p r.W 0 (by omega) (Nat.zero_le _) (hlen ▸ hp.lt_length) hp.1
    (fun c _ hlt => hp.2 c hlt)

theorem setRowInfo_fresh {W : Nat} (hW : 0 < W) (r : RowData) (h : r.Semi W) :
    r.setRowInfo.Fresh W ∧ r.setRowInfo.data = r.data := by
  rcases allZero_or_lead r.data with hz | ⟨p, hp⟩
  · rw [setRowInfo_of_allZero r (h.width ▸ hW) hz]
    exact ⟨⟨h.width, h.len, fun _ => ⟨rfl, hz⟩, fun hc => by simp at hc⟩, rfl⟩
  · rw [setRowInfo_of_lead r p (h.len.trans h.width.symm) hp]
    refine ⟨⟨h.width, h.len, fun hc => ?_, fun _ => ⟨p, rfl, hp⟩⟩, rfl⟩
    exact absurd (h.zero hc).2 hp.not_allZero

theorem setRowInfo_of_fresh {W : Nat} (hW : 0 < W) (r : RowData) (h : r.Fresh W) :
    r.setRowInfo = r := by
  cases hz : r.zeroRow with
  | true =>
    obtain ⟨hp, ha⟩ := h.zero hz
    rw [setRowInfo_of_allZero r (h.width ▸ hW) ha]
    cases r; simp_all
  | false =>
    obtain ⟨p, hp, hl⟩ := h.lead hz
    rw [setRowInfo_of_lead r p (h.len.trans h.width.symm) hl]
    cases r; simp_all

theorem RowData.Fresh.semi {W : Nat} {r : RowData} (h : r.Fresh W) : r.Semi W :=
  ⟨h.width, h.len, h.zero⟩

/-! ## Row operations, entry by entry -/

theorem mulAssign_getD (r : RowData) (k : ℚ) (c : Nat) :
    (r.mulAssign k).data.getD c 0 = r.data.getD c 0 * k := by
  simp only [RowData.mulAssign, List.getD_eq_getElem?_getD, List.getElem?_map]
  cases r.data[c]? <;> simp

theorem addAssign_getD (r that : RowData) (c : Nat) (hc : c < r.data.length) :
    (r.addAssign that).data.getD c 0 = r.data.getD c 0 + that.data.getD c 0 := by
  simp only [RowData.addAssign, List.getD_eq_getElem?_getD, List.getElem?_mapIdx,
    List.getElem?_eq_getElem hc, Option.map_some', Option.getD_some, elem_natCast]

theorem addAssign_getD_ge (r that : RowData) (c : Nat) (hc : r.data.length ≤ c) :
    (r.addAssign that).data.getD c 0 = 0 := by
  simp only [RowData.addAssign, List.getD_eq_getElem?_getD, List.getElem?_mapIdx,
    List.getElem?_eq_none hc, Option.map_none', Option.getD_none]

@[simp] theorem mulAssign_length (r : RowData) (k : ℚ) :
    (r.mulAssign k).data.length = r.data.length := by
  simp [RowData.mulAssign]

@[simp] theorem addAssign_length (r that : RowData) :
    (r.addAssign that).data.length = r.data.length := by
  simp [RowData.addAssign]

@[simp] theorem elementaryAdd_length (r r2 : RowData) (idx : Int) :
    (r.elementaryAdd r2 idx).data.length = r.data.length := by
  simp [RowData.elementaryAdd]

@[simp] theorem elementaryAdd_W (r r2 : RowData) (idx : Int) :
    (r.elementaryAdd r2 idx).W = r.W := rfl

@[simp] theorem elementaryAdd_pivotIndex (r r2 : RowData) (idx : Int) :
    (r.elementaryAdd r2 idx).pivotIndex = r.pivotIndex := rfl

@[simp] theorem elementaryAdd_zeroRow (r r2 : RowData) (idx : Int) :
    (r.elementaryAdd r2 idx).zeroRow = r.zeroRow := rfl

@[simp] theorem divAssign_length (r : RowData) (k : ℚ) :
    (r.divAssign k).data.length = r.data.length := by
  simp [RowData.divAssign]

@[simp] theorem divAssign_W (r : RowData) (k : ℚ) : (r.divAssign k).W = r.W := rfl

@[simp] theorem divAssign_pivotIndex (r : RowData) (k : ℚ) :
    (r.divAssign k).pivotIndex = r.pivotIndex := rfl

@[simp] theorem divAssign_zeroRow (r : RowData) (k : ℚ) :
    (r.divAssign k).zeroRow = r.zeroRow := rfl

theorem divAssign_getD (r : RowData) (k : ℚ) (c : Nat) :
    (r.divAssign k).data.getD c 0 = r.data.getD c 0 * (1 / k) := by
  simp only [RowData.divAssign, mulAssign_getD]

/-- The entries of `k * r1 + r2 -> r1`, with `k = -r2[index] / r1[index]`. -/
theorem elementaryAdd_getD (r r2 : RowData) (idx : Int) (c : Nat)
    (hlen : r2.data.length = r.data.length) :
    (r.elementaryAdd r2 idx).data.getD c 0
      = r.data.getD c 0 * ((r2.elem idx * -1) / r.elem idx) + r2.data.getD c 0 := by
  unfold RowData.elementaryAdd
  by_cases hc : c < r.data.length
  · rw [addAssign_getD _ _ _ (by simpa using hc), mulAssign_getD]
  · have hc1 : r.data.length ≤ c := Nat.le_of_not_lt hc
    rw [addAssign_getD_ge _ _ _ (by simpa using hc1)]
    have h1 : r.data.getD c 0 = 0 := by
      rw [List.getD_eq_getElem?_getD, List.getElem?_eq_none hc1]; rfl
    have h2 : r2.data.getD c 0 = 0 := by
      rw [List.getD_eq_getElem?_getD, List.getElem?_eq_none (hlen ▸ hc1)]; rfl
    rw [h1, h2]; simp

/-! ## Loops that update one row per iteration -/

theorem forall_mem_of_rowAt {P : RowData → Prop} (rows : List RowData)
    (h : ∀ i, i < rows.length → P (rowAt rows i)) : ∀ r ∈ rows, P r := by
  intro r hr
  obtain ⟨i, hi, rfl⟩ := List.mem_iff_getElem.mp hr
  rw [← rowAt_eq_getElem rows i hi]
  exact h i hi

theorem forUp_set (f : RowData → RowData) (rows : List RowData) (n lo : Nat) :
    (forUp (fun i rows => rows.set i (f (rowAt rows i))) n lo rows).length = rows.length ∧
    ∀ j, rowAt (forUp (fun i rows => rows.set i (f (rowAt rows i))) n lo rows) j
      = if lo ≤ j ∧ j < lo + n ∧ j < rows.length then f (rowAt rows j) else rowAt rows j := by
  have := forUp_inv (fun i rows => rows.set i (f (rowAt rows i)))
    (fun i s => s.length = rows.length ∧
      ∀ j, rowAt s j = if lo ≤ j ∧ j < i ∧ j < rows.length then f (rowAt rows j)
        else rowAt rows j) n lo rows
    ⟨rfl, fun j => by
      have : ¬ (lo ≤ j ∧ j < lo ∧ j < rows.length) := by omega
      rw [if_neg this]⟩
    (fun i s hi _ hP => by
      obtain ⟨hl, hP⟩ := hP
      refine ⟨by simpa using hl, fun j => ?_⟩
      rw [rowAt_set, hP i, hP j, hl]
      by_cases hij : i = j
      · subst hij
        by_cases hlen : i < rows.length
        · have h1 : ¬ (lo ≤ i ∧ i < i ∧ i < rows.length) := by omega
          have h2 : lo ≤ i ∧ i < i + 1 ∧ i < rows.length := by omega
          simp [h1, h2, hlen]
        · have h1 : ¬ (lo ≤ i ∧ i < i ∧ i < rows.length) := by omega
          have h2 : ¬ (lo ≤ i ∧ i < i + 1 ∧ i < rows.length) := by omega
          simp [h1, h2, hlen]
      · have h3 : (lo ≤ j ∧ j < i + 1 ∧ j < rows.length) ↔ (lo ≤ j ∧ j < i ∧ j < rows.length) := by
          omega
        simp [hij, h3])
  exact this

theorem scanLoop_spec (rows : List RowData) :
    ∀ n i, i ≤ Rref.scanLoop rows n i ∧ Rref.scanLoop rows n i ≤ i + n ∧
      (∀ j, i ≤ j → j < Rref.scanLoop rows n i → (rowAt rows j).zeroRow = true) ∧
      (Rref.scanLoop rows n i < i + n → (rowAt rows (Rref.scanLoop rows n i)).zeroRow = false) := by
  intro n
  induction n with
  | zero =>
    intro i
    simp only [Rref.scanLoop]
    exact ⟨le_refl _, le_refl _, fun j h1 h2 => by omega, fun h => by omega⟩
  | succ n ih =>
    intro i
    unfold Rref.scanLoop
    by_cases h : (rowAt rows i).toBool = true
    · rw [if_pos h]
      refine ⟨le_refl _, by omega, fun j h1 h2 => by omega, fun _ => ?_⟩
      simpa [RowData.toBool] using h
    · rw [if_neg h]
      obtain ⟨h1, h2, h3, h4⟩ := ih (i + 1)
      refine ⟨by omega, by omega, fun j hj1 hj2 => ?_, fun hlt => h4 (by omega)⟩
      by_cases hji : j = i
      · subst hji; simpa [RowData.toBool] using h
      · exact h3 j (by omega) hj2

/-! ## The row order on rows with fresh metadata -/

theorem RowData.Fresh.pivot_nonneg {W : Nat} {r : RowData} (h : r.Fresh W) (hz : r.zeroRow = false) :
    0 ≤ r.pivotIndex := by
  obtain ⟨p, hp, _⟩ := h.lead hz
  omega

theorem RowData.Fresh.pivot_of_zero {W : Nat} {r : RowData} (h : r.Fresh W) (hz : r.zeroRow = true) :
    r.pivotIndex = -1 := (h.zero hz).1

theorem RowData.Fresh.zeroRow_iff {W : Nat} {r : RowData} (h : r.Fresh W) :
    r.zeroRow = true ↔ r.pivotIndex = -1 := by
  constructor
  · exact h.pivot_of_zero
  · intro hp
    cases hz : r.zeroRow with
    | true => rfl
    | false => have := h.pivot_nonneg hz; omega

theorem lt_false_iff {W : Nat} {a b : RowData} (ha : a.Fresh W) (hb : b.Fresh W) :
    RowData.lt b a = false ↔ a.pivotIndex ≤ b.pivotIndex := by
  unfold RowData.lt RowData.toBool
  cases hza : a.zeroRow <;> cases hzb : b.zeroRow
  · simp
  · have h1 := ha.pivot_nonneg hza
    have h2 := hb.pivot_of_zero hzb
    simp; omega
  · have h1 := ha.pivot_of_zero hza
    have h2 := hb.pivot_nonneg hzb
    simp; omega
  · have h1 := ha.pivot_of_zero hza
    have h2 := hb.pivot_of_zero hzb
    simp; omega

/-! ## `Rref::setRowInfo` -/

theorem setRowInfo_eq (srt : List RowData → List RowData) (m : Rref) :
    Rref.setRowInfo srt m = m.afterSort (srt m.refreshed) := rfl

theorem refreshed_spec {W H : Nat} {m : Rref} (h : m.Pre W H) :
    m.refreshed.length = H ∧
    ∀ j, j < H → (rowAt m.refreshed j).Fresh W ∧
      (rowAt m.refreshed j).data = (rowAt m.rows j).data := by
  obtain ⟨hlen, hpt⟩ := forUp_set RowData.setRowInfo m.rows (m.H - m.firstNonZeroRow)
    m.firstNonZeroRow
  refine ⟨by rw [Rref.refreshed, hlen, h.len], fun j hj => ?_⟩
  rw [Rref.refreshed, hpt j]
  by_cases hc : m.firstNonZeroRow ≤ j ∧ j < m.firstNonZeroRow + (m.H - m.firstNonZeroRow) ∧
      j < m.rows.length
  · rw [if_pos hc]
    exact setRowInfo_fresh h.hW _ (h.semi j hj)
  · rw [if_neg hc]
    have hlt : j < m.firstNonZeroRow := by
      have := h.eqH; have := h.len; omega
    exact ⟨h.fresh j hlt hj, rfl⟩

theorem refreshed_of_fresh {W : Nat} {m : Rref} (hW : 0 < W)
    (hf : ∀ i, i < m.rows.length → (rowAt m.rows i).Fresh W) : m.refreshed = m.rows := by
  obtain ⟨hlen, hpt⟩ := forUp_set RowData.setRowInfo m.rows (m.H - m.firstNonZeroRow)
    m.firstNonZeroRow
  apply List.ext_getElem (by rw [Rref.refreshed, hlen])
  intro j h1 h2
  rw [← rowAt_eq_getElem _ _ h1, ← rowAt_eq_getElem _ _ h2, Rref.refreshed, hpt j]
  split_ifs
  · exact setRowInfo_of_fresh hW _ (hf j h2)
  · rfl

theorem rowAt_of_perm {l1 l2 : List RowData} (hp : l1.Perm l2) {P : RowData → Prop}
    (h : ∀ i, i < l2.length → P (rowAt l2 i)) : ∀ i, i < l1.length → P (rowAt l1 i) := by
  intro i hi
  have hmem : rowAt l1 i ∈ l2 := hp.subset (rowAt_mem l1 i hi)
  exact forall_mem_of_rowAt l2 h _ hmem

theorem afterSort_good {W H : Nat} {m : Rref} {rows2 : List RowData} (hW : 0 < W)
    (eqW : m.W = W) (eqH : m.H = H) (hlen : rows2.length = H)
    (hfresh : ∀ i, i < H → (rowAt rows2 i).Fresh W)
    (hsorted : rows2.Pairwise (fun a b => RowData.lt b a = false)) :
    (m.afterSort rows2).Good W H := by
  have hs : ∀ i j, i < j → j < H →
      (rowAt rows2 i).pivotIndex ≤ (rowAt rows2 j).pivotIndex := by
    intro i j hij hj
    have := (List.pairwise_iff_getElem.mp hsorted) i j (by omega) (by omega) hij
    rw [← rowAt_eq_getElem, ← rowAt_eq_getElem] at this
    exact (lt_false_iff (hfresh i (by omega)) (hfresh j hj)).mp this
  obtain ⟨_, h2, h3, h4⟩ := scanLoop_spec rows2 m.H 0
  simp only [Nat.zero_add, eqH] at h2 h3 h4
  refine ⟨hW, eqW, eqH, hlen, hfresh, hs, ?_, ?_, ?_, ?_⟩
  · intro hz i hi
    simp only [Rref.afterSort, decide_eq_true_eq, eqH] at hz
    exact h3 i (Nat.zero_le _) (by omega)
  · intro hz
    simp only [Rref.afterSort, decide_eq_false_iff_not, eqH] at hz ⊢
    have : Rref.scanLoop rows2 H 0 < H := by omega
    rw [if_pos this]; exact this
  · intro hz i hi
    simp only [Rref.afterSort, decide_eq_false_iff_not, eqH] at hz hi ⊢
    have : Rref.scanLoop rows2 H 0 < H := by omega
    rw [if_pos this] at hi
    exact h3 i (Nat.zero_le _) hi
  · intro hz i hi hiH
    simp only [Rref.afterSort, decide_eq_false_iff_not, eqH] at hz hi ⊢
    have hlt : Rref.scanLoop rows2 H 0 < H := by omega
    rw [if_pos hlt] at hi
    have hnz := h4 hlt
    rcases Nat.eq_or_lt_of_le hi with heq | hlt2
    · rw [← heq]; exact hnz
    · have hle := hs _ i hlt2 hiH
      have h0 := (hfresh _ hlt).pivot_nonneg hnz
      cases hzi : (rowAt rows2 i).zeroRow with
      | false => rfl
      | true => have := (hfresh i hiH).pivot_of_zero hzi; omega

theorem setRowInfo_good {srt : List RowData → List RowData} (hs : IsSort srt) {W H : Nat}
    {m : Rref} (h : m.Pre W H) :
    (Rref.setRowInfo srt m).Good W H ∧
    ((Rref.setRowInfo srt m).rows.map RowData.data).Perm (m.rows.map RowData.data) := by
  obtain ⟨hlen, hpt⟩ := refreshed_spec h
  have hperm := hs.perm m.refreshed
  have hlen2 : (srt m.refreshed).length = H := by rw [hperm.length_eq, hlen]
  refine ⟨?_, ?_⟩
  · rw [setRowInfo_eq]
    refine afterSort_good h.hW h.eqW h.eqH hlen2 ?_ (hs.sorted _)
    intro i hi
    exact rowAt_of_perm (P := fun r => r.Fresh W) hperm
      (fun j hj => (hpt j (by omega)).1) i (by omega)
  · have h1 : m.refreshed.map RowData.data = m.rows.map RowData.data := by
      apply List.ext_getElem (by simp [hlen, h.len])
      intro j h1 h2
      simp only [List.length_map] at h1 h2
      simp only [List.getElem_map]
      rw [← rowAt_eq_getElem _ _ h1, ← rowAt_eq_getElem _ _ h2]
      exact (hpt j (by omega)).2
    rw [setRowInfo_eq, ← h1]
    exact hperm.map _

/-! ## `Rref::isRef` and `Rref::doAnRefPass` -/

theorem isRefLoop_iff (m : Rref) :
    ∀ n i prev, m.firstNonZeroRow < i →
      (m.isRefLoop n i prev = true ↔
        ∀ j, i ≤ j → j < i + n →
          (if j = i then prev else (rowAt m.rows (j - 1)).pivotIndex)
            < (rowAt m.rows j).pivotIndex) := by
  intro n
  induction n with
  | zero =>
    intro i prev _
    simp only [Rref.isRefLoop, true_iff]
    intro j h1 h2; omega
  | succ n ih =>
    intro i prev hi
    unfold Rref.isRefLoop
    have hne : ¬ i = m.firstNonZeroRow := by omega
    rw [if_neg hne]
    by_cases hle : (rowAt m.rows i).pivotIndex ≤ prev
    · rw [if_pos hle]
      simp only [Bool.false_eq_true, false_iff, not_forall]
      refine ⟨i, le_refl _, by omega, ?_⟩
      rw [if_pos rfl]; omega
    · rw [if_neg hle, ih (i + 1) _ (by omega)]
      constructor
      · intro h j hj1 hj2
        by_cases hji : j = i
        · subst hji; rw [if_pos rfl]; omega
        · rw [if_neg hji]
          have := h j (by omega) (by omega)
          by_cases hj3 : j = i + 1
          · subst hj3; simpa using this
          · rw [if_neg hj3] at this; exact this
      · intro h j hj1 hj2
        have := h j (by omega) (by omega)
        rw [if_neg (by omega)] at this
        by_cases hj3 : j = i + 1
        · subst hj3; simpa using this
        · rw [if_neg hj3]; exact this

theorem isRef_iff (m : Rref) (h : m.firstNonZeroRow < m.H) :
    m.isRef = true ↔
      ∀ j, m.firstNonZeroRow < j → j < m.H →
        (rowAt m.rows (j - 1)).pivotIndex < (rowAt m.rows j).pivotIndex := by
  unfold Rref.isRef
  obtain ⟨n, hn⟩ : ∃ n, m.H - m.firstNonZeroRow = n + 1 := ⟨m.H - m.firstNonZeroRow - 1, by omega⟩
  rw [hn]
  unfold Rref.isRefLoop
  rw [if_pos rfl, isRefLoop_iff m n _ _ (by omega)]
  constructor
  · intro hh j hj1 hj2
    have := hh j (by omega) (by omega)
    by_cases hj3 : j = m.firstNonZeroRow + 1
    · subst hj3; simpa using this
    · rw [if_neg hj3] at this; exact this
  · intro hh j hj1 hj2
    have := hh j (by omega) (by omega)
    by_cases hj3 : j = m.firstNonZeroRow + 1
    · subst hj3; simpa using this
    · rw [if_neg hj3]; exact this

theorem doAnRefPassLoop_spec (fnz : Nat) :
    ∀ i rows,
      (Rref.doAnRefPassLoop fnz i rows).length = rows.length ∧
      ∀ j, rowAt (Rref.doAnRefPassLoop fnz i rows) j =
        if fnz < j ∧ j ≤ i ∧ j < rows.length ∧
            (rowAt rows j).pivotIndex = (rowAt rows (j - 1)).pivotIndex then
          (rowAt rows j).elementaryAdd (rowAt rows (j - 1)) (rowAt rows j).pivotIndex
        else rowAt rows j := by
  intro i
  induction i with
  | zero =>
    intro rows
    refine ⟨rfl, fun j => ?_⟩
    simp only [Rref.doAnRefPassLoop]
    rw [if_neg (by omega)]
  | succ i ih =>
    intro rows
    unfold Rref.doAnRefPassLoop
    by_cases hf : fnz < i + 1
    · rw [if_pos hf]
      by_cases hp : (rowAt rows (i + 1)).pivotIndex = (rowAt rows i).pivotIndex
      · simp only [hp, if_true]
        obtain ⟨hl, hpt⟩ := ih (rows.set (i + 1)
          ((rowAt rows (i + 1)).elementaryAdd (rowAt rows i) (rowAt rows i).pivotIndex))
        refine ⟨by rw [hl]; simp, fun j => ?_⟩
        rw [hpt j]
        simp only [List.length_set, rowAt_set]
        by_cases hj : j = i + 1
        · subst hj
          by_cases hlen : i + 1 < rows.length
          · rw [if_neg (by omega), if_pos ⟨rfl, hlen⟩, if_pos ⟨hf, le_refl _, hlen, by simpa using hp⟩]
            simp [hp]
          · rw [if_neg (by omega), if_neg (by omega), if_neg (by omega)]
        · have e1 : ¬ (i + 1 = j ∧ i + 1 < rows.length) := by omega
          have e2 : ¬ (i + 1 = j - 1 ∧ i + 1 < rows.length) ∨ ¬ (j ≤ i) := by omega
          rw [if_neg e1]
          by_cases hji : j ≤ i
          · have e3 : ¬ (i + 1 = j - 1 ∧ i + 1 < rows.length) := by omega
            rw [if_neg e3]
            have : (fnz < j ∧ j ≤ i + 1 ∧ j < rows.length ∧
                (rowAt rows j).pivotIndex = (rowAt rows (j - 1)).pivotIndex) ↔
              (fnz < j ∧ j ≤ i ∧ j < rows.length ∧
                (rowAt rows j).pivotIndex = (rowAt rows (j - 1)).pivotIndex) := by
              constructor <;> (rintro ⟨a, b, c, d⟩; exact ⟨a, by omega, c, d⟩)
            simp only [this]
          · rw [if_neg (by omega), if_neg (by omega)]
      · simp only [hp, if_false]
        obtain ⟨hl, hpt⟩ := ih rows
        refine ⟨hl, fun j => ?_⟩
        rw [hpt j]
        by_cases hj : j = i + 1
        · subst hj
          rw [if_neg (by omega), if_neg]
          rintro ⟨_, _, _, h4⟩
          exact hp (by simpa using h4)
        · have : (fnz < j ∧ j ≤ i + 1 ∧ j < rows.length ∧
              (rowAt rows j).pivotIndex = (rowAt rows (j - 1)).pivotIndex) ↔
            (fnz < j ∧ j ≤ i ∧ j < rows.length ∧
              (rowAt rows j).pivotIndex = (rowAt rows (j - 1)).pivotIndex) := by
            constructor <;> (rintro ⟨a, b, c, d⟩; exact ⟨a, by omega, c, d⟩)
          simp only [this]
    · rw [if_neg hf]
      refine ⟨rfl, fun j => ?_⟩
      rw [if_neg (by omega)]

/-! ## Counting rows by index -/

theorem rowAt_cons_zero (x : RowData) (t : List RowData) : rowAt (x :: t) 0 = x := rfl

theorem rowAt_cons_succ (x : RowData) (t : List RowData) (i : Nat) :
    rowAt (x :: t) (i + 1) = rowAt t i := rfl

theorem countP_le_of_range (P : RowData → Bool) :
    ∀ (L : List RowData) (a b : Nat),
      (∀ idx, idx < L.length → P (rowAt L idx) = true → a ≤ idx ∧ idx < b) →
      L.countP P ≤ b - a := by
  intro L
  induction L with
  | nil => intro a b _; simp
  | cons x t ih =>
    intro a b h
    have ht := ih (a - 1) (b - 1) (fun idx hidx hP => by
      have := h (idx + 1) (by simpa using hidx) (by rw [rowAt_cons_succ]; exact hP)
      omega)
    rw [List.countP_cons]
    by_cases hx : P x = true
    · have := h 0 (by simp) (by rw [rowAt_cons_zero]; exact hx)
      rw [if_pos hx]; omega
    · rw [if_neg hx]; omega

theorem le_countP_of_range (P : RowData → Bool) :
    ∀ (L : List RowData) (a b : Nat), b ≤ L.length →
      (∀ idx, a ≤ idx → idx < b → P (rowAt L idx) = true) →
      b - a ≤ L.countP P := by
  intro L
  induction L with
  | nil => intro a b hb _; simp at hb; omega
  | cons x t ih =>
    intro a b hb h
    rw [List.countP_cons]
    by_cases hb0 : b = 0
    · omega
    · have ht := ih (a - 1) (b - 1) (by simp at hb; omega) (fun idx h1 h2 => by
        have := h (idx + 1) (by omega) (by omega)
        rwa [rowAt_cons_succ] at this)
      by_cases ha : a = 0
      · have hx : P x = true := by
          have := h 0 (by omega) (by omega)
          rwa [rowAt_cons_zero] at this
        rw [if_pos hx]; omega
      · split_ifs <;> omega

theorem Settled.zero (rows : List RowData) : Settled rows 0 := fun _ _ _ => Nat.zero_le _

theorem Settled.perm {l1 l2 : List RowData} (hp : l1.Perm l2) {k : Nat} (h : Settled l2 k) :
    Settled l1 k := by
  intro x hx hc
  rw [hp.countP_eq] at hc ⊢
  exact h x hx hc

/-- In a sorted state, the first `k` adjacent pairs of nonzero rows are strictly ordered. -/
theorem Settled.strict {W H : Nat} {m : Rref} (hg : m.Good W H) (hz : m.zeroMatrix = false)
    {k : Nat} (hs : Settled m.rows k) :
    ∀ j, m.firstNonZeroRow < j → j < H → j ≤ m.firstNonZeroRow + k →
      (rowAt m.rows (j - 1)).pivotIndex < (rowAt m.rows j).pivotIndex := by
  intro j hj1 hj2 hj3
  by_contra hcon
  have hle := hg.sorted (j - 1) j (by omega) hj2
  have heq : (rowAt m.rows (j - 1)).pivotIndex = (rowAt m.rows j).pivotIndex := by omega
  have hnn : 0 ≤ (rowAt m.rows j).pivotIndex :=
    (hg.fresh j hj2).pivot_nonneg (hg.above hz j (by omega) hj2)
  have h2 : 2 ≤ m.rows.countP
      (fun r => decide (r.pivotIndex = (rowAt m.rows j).pivotIndex)) := by
    have := le_countP_of_range (fun r => decide (r.pivotIndex = (rowAt m.rows j).pivotIndex))
      m.rows (j - 1) (j + 1) (by rw [hg.len]; omega) (fun idx h1 h2 => by
        have : idx = j - 1 ∨ idx = j := by omega
        rcases this with h | h
        · rw [h]; simpa using heq
        · rw [h]; simp)
    omega
  have h3 := hs _ hnn h2
  have h4 := countP_le_of_range
    (fun r => decide (0 ≤ r.pivotIndex ∧ r.pivotIndex < (rowAt m.rows j).pivotIndex))
    m.rows m.firstNonZeroRow (j - 1) (fun idx hidx hP => by
      simp only [decide_eq_true_eq] at hP
      rw [hg.len] at hidx
      constructor
      · by_contra hlt
        have := (hg.fresh idx hidx).pivot_of_zero (hg.below hz idx (by omega))
        omega
      · by_contra hge
        have hge' : j - 1 ≤ idx := by omega
        rcases Nat.eq_or_lt_of_le hge' with h | h
        · rw [← h] at hP; omega
        · have := hg.sorted (j - 1) idx h hidx
          omega)
  omega

/-! ## Row space -/

theorem rowSpace_perm {L1 L2 : List (List ℚ)} (h : L1.Perm L2) : rowSpace L1 = rowSpace L2 := by
  unfold rowSpace
  congr 1
  ext v
  constructor
  · rintro ⟨d, hd, rfl⟩; exact ⟨d, h.subset hd, rfl⟩
  · rintro ⟨d, hd, rfl⟩; exact ⟨d, h.symm.subset hd, rfl⟩

theorem rowVec_mem_rowsSpace (s : List RowData) (i : Nat) (hi : i < s.length) :
    rowVec (rowAt s i).data ∈ rowsSpace s :=
  Submodule.subset_span ⟨(rowAt s i).data, List.mem_map_of_mem _ (rowAt_mem s i hi), rfl⟩

theorem rowsSpace_le {s : List RowData} {p : Submodule ℚ (ℕ → ℚ)}
    (h : ∀ i, i < s.length → rowVec (rowAt s i).data ∈ p) : rowsSpace s ≤ p := by
  apply Submodule.span_le.mpr
  rintro v ⟨d, hd, rfl⟩
  obtain ⟨r, hr, rfl⟩ := List.mem_map.mp hd
  exact forall_mem_of_rowAt s (P := fun r => rowVec r.data ∈ p) h r hr

theorem rowsSpace_set (s : List RowData) (j : Nat) (r : RowData)
    (h1 : rowVec r.data ∈ rowsSpace s)
    (h2 : rowVec (rowAt s j).data ∈ rowsSpace (s.set j r)) :
    rowsSpace (s.set j r) = rowsSpace s := by
  apply le_antisymm
  · apply rowsSpace_le
    intro i hi
    rw [rowAt_set]
    split_ifs with hc
    · exact h1
    · exact rowVec_mem_rowsSpace s i (by simpa using hi)
  · apply rowsSpace_le
    intro i hi
    by_cases hij : j = i
    · subst hij; exact h2
    · have := rowVec_mem_rowsSpace (s.set j r) i (by simpa using hi)
      rwa [rowAt_set, if_neg (by omega)] at this

/-- Replacing row `j` by `k * row j + row i` with `k ≠ 0`, `i ≠ j` keeps the row space. -/
theorem rowsSpace_set_comb (s : List RowData) (i j : Nat) (r : RowData) (k : ℚ)
    (hi : i < s.length) (hj : j < s.length) (hij : i ≠ j) (hk : k ≠ 0)
    (hr : ∀ c, r.data.getD c 0 = (rowAt s j).data.getD c 0 * k + (rowAt s i).data.getD c 0) :
    rowsSpace (s.set j r) = rowsSpace s := by
  have e1 : rowVec r.data = k • rowVec (rowAt s j).data + rowVec (rowAt s i).data := by
    funext c
    simp only [rowVec, Pi.add_apply, Pi.smul_apply, smul_eq_mul, hr c]
    ring
  apply rowsSpace_set
  · rw [e1]
    exact Submodule.add_mem _ (Submodule.smul_mem _ _ (rowVec_mem_rowsSpace s j hj))
      (rowVec_mem_rowsSpace s i hi)
  · have e2 : rowVec (rowAt s j).data
        = k⁻¹ • (rowVec r.data - rowVec (rowAt s i).data) := by
      rw [e1, add_sub_cancel_right, smul_smul, inv_mul_cancel₀ hk, one_smul]
    rw [e2]
    apply Submodule.smul_mem
    apply Submodule.sub_mem
    · have := rowVec_mem_rowsSpace (s.set j r) j (by simpa using hj)
      rwa [rowAt_set, if_pos ⟨rfl, hj⟩] at this
    · have := rowVec_mem_rowsSpace (s.set j r) i (by simpa using hi)
      rwa [rowAt_set, if_neg (by omega)] at this

/-- Scaling row `j` by `k ≠ 0` keeps the row space. -/
theorem rowsSpace_set_scale (s : List RowData) (j : Nat) (r : RowData) (k : ℚ)
    (hj : j < s.length) (hk : k ≠ 0)
    (hr : ∀ c, r.data.getD c 0 = (rowAt s j).data.getD c 0 * k) :
    rowsSpace (s.set j r) = rowsSpace s := by
  have e1 : rowVec r.data = k • rowVec (rowAt s j).data := by
    funext c
    simp only [rowVec, Pi.smul_apply, smul_eq_mul, hr c]
    ring
  apply rowsSpace_set
  · rw [e1]
    exact Submodule.smul_mem _ _ (rowVec_mem_rowsSpace s j hj)
  · have e2 : rowVec (rowAt s j).data = k⁻¹ • rowVec r.data := by
      rw [e1, smul_smul, inv_mul_cancel₀ hk, one_smul]
    rw [e2]
    apply Submodule.smul_mem
    have := rowVec_mem_rowsSpace (s.set j r) j (by simpa using hj)
    rwa [rowAt_set, if_pos ⟨rfl, hj⟩] at this

/-- The scalar `-r2[index] / r1[index]` of `elementaryAdd` is nonzero when both entries
are. -/
theorem elementaryAdd_scalar_ne (a b : ℚ) (ha : a ≠ 0) (hb : b ≠ 0) : (b * -1) / a ≠ 0 := by
  apply div_ne_zero _ ha
  simpa using hb

/-- The entry of `k * r1 + r2` in the column `index` is `0`. -/
theorem cancel_entry (a b : ℚ) (ha : a ≠ 0) : a * ((b * -1) / a) + b = 0 := by
  field_simp
  ring

/-- One `elementaryAdd` inside a vector keeps the row space. -/
theorem rowsSpace_elementaryAdd (s : List RowData) (i j : Nat) (idx : Int)
    (hi : i < s.length) (hj : j < s.length) (hij : i ≠ j)
    (hlen : (rowAt s i).data.length = (rowAt s j).data.length)
    (h1 : (rowAt s j).elem idx ≠ 0) (h2 : (rowAt s i).elem idx ≠ 0) :
    rowsSpace (s.set j ((rowAt s j).elementaryAdd (rowAt s i) idx)) = rowsSpace s :=
  rowsSpace_set_comb s i j _ _ hi hj hij (elementaryAdd_scalar_ne _ _ h1 h2)
    (fun c => elementaryAdd_getD _ _ idx c hlen)

/-! ## One elimination pass -/

theorem doAnRefPassLoop_rowsSpace (fnz : Nat) :
    ∀ i rows,
      (∀ j, fnz < j → j ≤ i → j < rows.length →
        (rowAt rows j).pivotIndex = (rowAt rows (j - 1)).pivotIndex →
          (rowAt rows j).elem (rowAt rows j).pivotIndex ≠ 0 ∧
          (rowAt rows (j - 1)).elem (rowAt rows j).pivotIndex ≠ 0 ∧
          (rowAt rows (j - 1)).data.length = (rowAt rows j).data.length) →
      rowsSpace (Rref.doAnRefPassLoop fnz i rows) = rowsSpace rows := by
  intro i
  induction i with
  | zero => intro rows _; rfl
  | succ i ih =>
    intro rows h
    unfold Rref.doAnRefPassLoop
    by_cases hf : fnz < i + 1
    · rw [if_pos hf]
      by_cases hp : (rowAt rows (i + 1)).pivotIndex = (rowAt rows i).pivotIndex
      · simp only [hp, if_true]
        by_cases hlen : i + 1 < rows.length
        · have hh := h (i + 1) hf (le_refl _) hlen (by simpa using hp)
          simp only [Nat.add_sub_cancel, hp] at hh
          rw [ih]
          · exact rowsSpace_elementaryAdd rows i (i + 1) _ (by omega) hlen (by omega)
              hh.2.2 hh.1 hh.2.1
          · intro j hj1 hj2 hj3 hj4
            simp only [List.length_set] at hj3
            have e1 : ∀ X, rowAt (rows.set (i + 1) X) j = rowAt rows j := fun X => by
              rw [rowAt_set, if_neg (by omega)]
            have e2 : ∀ X, rowAt (rows.set (i + 1) X) (j - 1) = rowAt rows (j - 1) := fun X => by
              rw [rowAt_set, if_neg (by omega)]
            rw [e1, e2] at hj4 ⊢
            exact h j hj1 (by omega) hj3 hj4
        · rw [List.set_eq_of_length_le (by omega)]
          exact ih rows (fun j a b c d => h j a (by omega) c d)
      · simp only [hp, if_false]
        exact ih rows (fun j a b c d => h j a (by omega) c d)
    · rw [if_neg hf]

theorem doAnRefPass_rowAt {W H : Nat} {m : Rref} (hg : m.Good W H) (j : Nat) (hj : j < H) :
    (m.Hit j → rowAt m.doAnRefPass.rows j =
      (rowAt m.rows j).elementaryAdd (rowAt m.rows (j - 1)) (rowAt m.rows j).pivotIndex) ∧
    (¬ m.Hit j → rowAt m.doAnRefPass.rows j = rowAt m.rows j) := by
  have hpt := (doAnRefPassLoop_spec m.firstNonZeroRow (m.H - 1) m.rows).2 j
  have e1 := hg.eqH
  have e2 := hg.len
  constructor
  · intro hh
    rw [Rref.doAnRefPass, hpt, if_pos ⟨hh.1, by omega, by omega, hh.2⟩]
  · intro hh
    rw [Rref.doAnRefPass, hpt, if_neg]
    rintro ⟨a, _, _, d⟩
    exact hh ⟨a, d⟩

/-- A rewritten row: both rows involved are nonzero with the same pivot column `p`. -/
theorem Hit.lead {W H : Nat} {m : Rref} (hg : m.Good W H) (hz : m.zeroMatrix = false)
    {j : Nat} (hj : j < H) (hh : m.Hit j) :
    ∃ p : Nat, (rowAt m.rows j).pivotIndex = p ∧ IsLead (rowAt m.rows j).data p ∧
      IsLead (rowAt m.rows (j - 1)).data p := by
  obtain ⟨p, hp, hl⟩ := (hg.fresh j hj).lead (hg.above hz j (by have := hh.1; omega) hj)
  obtain ⟨q, hq, hl2⟩ := (hg.fresh (j - 1) (by omega)).lead
    (hg.above hz (j - 1) (by have := hh.1; omega) (by omega))
  have : p = q := by have := hh.2; omega
  subst this
  exact ⟨p, hp, hl, hl2⟩

theorem doAnRefPass_rowsSpace {W H : Nat} {m : Rref} (hg : m.Good W H)
    (hz : m.zeroMatrix = false) : rowsSpace m.doAnRefPass.rows = rowsSpace m.rows := by
  apply doAnRefPassLoop_rowsSpace
  intro j hj1 hj2 hj3 hj4
  rw [hg.len] at hj3
  obtain ⟨p, hp, hl, hl2⟩ := Hit.lead hg hz hj3 ⟨hj1, hj4⟩
  rw [hp, elem_natCast, elem_natCast]
  exact ⟨hl.1, hl2.1, by rw [(hg.fresh _ (by omega)).len, (hg.fresh _ hj3).len]⟩

/-- A rewritten row is zero up to and including the shared pivot column. -/
theorem doAnRefPass_cleared {W H : Nat} {m : Rref} (hg : m.Good W H)
    (hz : m.zeroMatrix = false) {j : Nat} (hj : j < H) (hh : m.Hit j) (p : Nat)
    (hp : (rowAt m.rows j).pivotIndex = p) :
    ∀ c, c ≤ p → (rowAt m.doAnRefPass.rows j).data.getD c 0 = 0 := by
  obtain ⟨q, hq, hl, hl2⟩ := Hit.lead hg hz hj hh
  have : q = p := by omega
  subst this
  intro c hc
  rw [(doAnRefPass_rowAt hg j hj).1 hh, elementaryAdd_getD _ _ _ _
    (by rw [(hg.fresh _ (by omega)).len, (hg.fresh _ hj).len]), hq, elem_natCast, elem_natCast]
  rcases Nat.eq_or_lt_of_le hc with h | h
  · subst h
    exact cancel_entry _ _ hl.1
  · rw [hl.2 c h, hl2.2 c h]; simp

theorem doAnRefPass_pre {W H : Nat} {m : Rref} (hg : m.Good W H)
    (hz : m.zeroMatrix = false) : m.doAnRefPass.Pre W H := by
  have hlen : m.doAnRefPass.rows.length = H := by
    rw [Rref.doAnRefPass, (doAnRefPassLoop_spec _ _ _).1, hg.len]
  refine ⟨hg.hW, hg.eqW, hg.eqH, hlen, fun i hi => ?_, fun i hi hiH => ?_⟩
  · by_cases hh : m.Hit i
    · rw [(doAnRefPass_rowAt hg i hi).1 hh]
      have hf := hg.fresh i hi
      refine ⟨hf.width, by simpa using hf.len, fun hc => ?_⟩
      have := hg.above hz i (by have := hh.1; omega) hi
      simp only [elementaryAdd_zeroRow] at hc
      rw [this] at hc; cases hc
    · rw [(doAnRefPass_rowAt hg i hi).2 hh]
      exact (hg.fresh i hi).semi
  · have hh : ¬ m.Hit i := by
      rintro ⟨a, _⟩
      have : m.doAnRefPass.firstNonZeroRow = m.firstNonZeroRow := rfl
      omega
    rw [(doAnRefPass_rowAt hg i hiH).2 hh]
    exact hg.fresh i hiH

/-- The rows after the pass and the rescan of the metadata: a row the pass left alone is
unchanged, a rewritten row is zero or has its pivot strictly to the right. -/
theorem pass_refreshed {W H : Nat} {m : Rref} (hg : m.Good W H)
    (hz : m.zeroMatrix = false) (j : Nat) (hj : j < H) :
    (¬ m.Hit j → rowAt m.doAnRefPass.refreshed j = rowAt m.rows j) ∧
    (m.Hit j → (rowAt m.doAnRefPass.refreshed j).pivotIndex = -1 ∨
      (rowAt m.rows j).pivotIndex < (rowAt m.doAnRefPass.refreshed j).pivotIndex) := by
  have hpre := doAnRefPass_pre hg hz
  obtain ⟨hlen, hpt⟩ := refreshed_spec hpre
  obtain ⟨hF, hD⟩ := hpt j hj
  constructor
  · intro hh
    have hpass := (doAnRefPass_rowAt hg j hj).2 hh
    obtain ⟨_, hpt2⟩ := forUp_set RowData.setRowInfo m.doAnRefPass.rows
      (m.doAnRefPass.H - m.doAnRefPass.firstNonZeroRow) m.doAnRefPass.firstNonZeroRow
    rw [Rref.refreshed, hpt2 j]
    split_ifs
    · rw [hpass]; exact setRowInfo_of_fresh hg.hW _ (hg.fresh j hj)
    · exact hpass
  · intro hh
    obtain ⟨p, hp, _, _⟩ := Hit.lead hg hz hj hh
    have hcl := doAnRefPass_cleared hg hz hj hh p hp
    cases hzr : (rowAt m.doAnRefPass.refreshed j).zeroRow with
    | true => left; exact hF.pivot_of_zero hzr
    | false =>
      right
      obtain ⟨q, hq, hl⟩ := hF.lead hzr
      rw [hq, hp]
      have : ¬ q ≤ p := by
        intro hle
        apply hl.1
        rw [hD]; exact hcl q hle
      omega

/-- Progress of one pass: if the first `k` nonzero rows were settled and the matrix is not in
echelon form, then after the pass the first `k + 1` are. -/
theorem settled_step {W H : Nat} {m : Rref} (hg : m.Good W H) (hz : m.zeroMatrix = false)
    (href : m.isRef = false) {k : Nat} (hs : Settled m.rows k) :
    Settled m.doAnRefPass.refreshed (k + 1) := by
  have hstrict := Settled.strict hg hz hs
  have hfnz : m.firstNonZeroRow < m.H := by rw [hg.eqH]; exact hg.fnz_lt hz
  have hk : m.firstNonZeroRow + k + 1 < H := by
    by_contra hcon
    have : m.isRef = true := by
      rw [isRef_iff m hfnz]
      intro j hj1 hj2
      rw [hg.eqH] at hj2
      exact hstrict j hj1 hj2 (by omega)
    rw [this] at href; cases href
  have hlenR : m.doAnRefPass.refreshed.length = H := (refreshed_spec (doAnRefPass_pre hg hz)).1
  -- strict order of the pivots on the settled block
  have hmono : ∀ a b, m.firstNonZeroRow ≤ a → a < b → b ≤ m.firstNonZeroRow + k →
      (rowAt m.rows a).pivotIndex < (rowAt m.rows b).pivotIndex := by
    intro a b ha hab hb
    have h1 := hstrict b (by omega) (by omega) hb
    rcases Nat.eq_or_lt_of_le (Nat.le_sub_one_of_lt hab) with h | h
    · rw [h]; exact h1
    · have := hg.sorted a (b - 1) h (by omega); omega
  have hnohit : ∀ j, j ≤ m.firstNonZeroRow + k → ¬ m.Hit j := by
    rintro j hj ⟨h1, h2⟩
    have := hstrict j h1 (by omega) hj
    omega
  have hsame : ∀ j, j ≤ m.firstNonZeroRow + k →
      rowAt m.doAnRefPass.refreshed j = rowAt m.rows j :=
    fun j hj => (pass_refreshed hg hz j (by omega)).1 (hnohit j hj)
  have hlow : ∀ j, j < m.firstNonZeroRow →
      (rowAt m.doAnRefPass.refreshed j).pivotIndex = -1 := by
    intro j hj
    rw [hsame j (by omega)]
    exact (hg.fresh j (by omega)).pivot_of_zero (hg.below hz j hj)
  have hnn : ∀ j, m.firstNonZeroRow ≤ j → j < H → 0 ≤ (rowAt m.rows j).pivotIndex :=
    fun j h1 h2 => (hg.fresh j h2).pivot_nonneg (hg.above hz j h1 h2)
  have hhigh : ∀ j, m.firstNonZeroRow + k < j → j < H →
      (rowAt m.doAnRefPass.refreshed j).pivotIndex = -1 ∨
        (rowAt m.rows (m.firstNonZeroRow + k)).pivotIndex
          < (rowAt m.doAnRefPass.refreshed j).pivotIndex := by
    intro j hj1 hj2
    have hq := hg.sorted (m.firstNonZeroRow + k) j hj1 hj2
    by_cases hh : m.Hit j
    · rcases (pass_refreshed hg hz j hj2).2 hh with h | h
      · left; exact h
      · right; omega
    · right
      rw [(pass_refreshed hg hz j hj2).1 hh]
      have hne : (rowAt m.rows j).pivotIndex ≠ (rowAt m.rows (j - 1)).pivotIndex :=
        fun e => hh ⟨by omega, e⟩
      have h1 : (rowAt m.rows (m.firstNonZeroRow + k)).pivotIndex
          ≤ (rowAt m.rows (j - 1)).pivotIndex := by
        rcases Nat.eq_or_lt_of_le (Nat.le_sub_one_of_lt hj1) with h | h
        · rw [h]
        · exact hg.sorted _ _ h (by omega)
      have h2 := hg.sorted (j - 1) j (by omega) hj2
      omega
  intro x hx hc
  have hqx : (rowAt m.rows (m.firstNonZeroRow + k)).pivotIndex < x := by
    by_contra hcon
    -- every row with pivot index `x` lies in the settled block
    have hin : ∀ idx, idx < H → (rowAt m.doAnRefPass.refreshed idx).pivotIndex = x →
        m.firstNonZeroRow ≤ idx ∧ idx ≤ m.firstNonZeroRow + k := by
      intro idx hidx he
      constructor
      · by_contra hlt
        have := hlow idx (by omega); omega
      · by_contra hgt
        rcases hhigh idx (by omega) hidx with h | h <;> omega
    have hle1 : m.doAnRefPass.refreshed.countP (fun r => decide (r.pivotIndex = x)) ≤ 1 := by
      by_cases hex : ∃ idx0, idx0 < H ∧ (rowAt m.doAnRefPass.refreshed idx0).pivotIndex = x
      · obtain ⟨idx0, h0, h0x⟩ := hex
        have := countP_le_of_range (fun r => decide (r.pivotIndex = x))
          m.doAnRefPass.refreshed idx0 (idx0 + 1) (fun idx hidx hP => by
            simp only [decide_eq_true_eq] at hP
            rw [hlenR] at hidx
            obtain ⟨a1, a2⟩ := hin idx hidx hP
            obtain ⟨b1, b2⟩ := hin idx0 h0 h0x
            rw [hsame idx a2] at hP
            rw [hsame idx0 b2] at h0x
            rcases Nat.lt_trichotomy idx idx0 with h | h | h
            · have := hmono idx idx0 a1 h b2; omega
            · omega
            · have := hmono idx0 idx b1 h a2; omega)
        omega
      · have := countP_le_of_range (fun r => decide (r.pivotIndex = x))
          m.doAnRefPass.refreshed 0 0 (fun idx hidx hP => by
            simp only [decide_eq_true_eq] at hP
            rw [hlenR] at hidx
            exact absurd ⟨idx, hidx, hP⟩ hex)
        omega
    omega
  have := le_countP_of_range (fun r => decide (0 ≤ r.pivotIndex ∧ r.pivotIndex < x))
    m.doAnRefPass.refreshed m.firstNonZeroRow (m.firstNonZeroRow + k + 1)
    (by rw [hlenR]; omega) (fun idx h1 h2 => by
      simp only [decide_eq_true_eq]
      rw [hsame idx (by omega)]
      refine ⟨hnn idx h1 (by omega), ?_⟩
      rcases Nat.eq_or_lt_of_le (Nat.le_of_lt_succ h2) with h | h
      · rw [h]; exact hqx
      · have := hg.sorted idx (m.firstNonZeroRow + k) h (by omega); omega)
  omega

/-! ## `Rref::toRref` -/

theorem clearAbove_step {W H fnz : Nat} {p : Nat → Nat} {i j : Nat} {t : List RowData}
    (h : ClearInv W H fnz p i j t) (hj1 : fnz ≤ j) (hj2 : j < i) (hi : i < H) :
    ClearInv W H fnz p i (j + 1) (Rref.clearAbove i (p i) j t) ∧
    rowsSpace (Rref.clearAbove i (p i) j t) = rowsSpace t := by
  unfold Rref.clearAbove
  by_cases hc : (rowAt t j).elem (p i) ≠ 0
  · rw [if_pos hc]
    have hli := h.ech.lead i (by omega) hi
    have hlj := h.ech.lead j hj1 (by omega)
    have hpji : p j < p i := h.ech.mono j i hj1 hj2 hi
    have hlen : (rowAt t i).data.length = (rowAt t j).data.length := by
      rw [h.ech.dlen i hi, h.ech.dlen j (by omega)]
    have hie : (rowAt t i).elem (p i) ≠ 0 := by rw [elem_natCast]; exact hli.1
    have hk := elementaryAdd_scalar_ne _ _ hc hie
    have hnew : ∀ c, ((rowAt t j).elementaryAdd (rowAt t i) (p i)).data.getD c 0
        = (rowAt t j).data.getD c 0 * (((rowAt t i).elem (p i) * -1) / (rowAt t j).elem (p i))
          + (rowAt t i).data.getD c 0 := fun c => elementaryAdd_getD _ _ _ c hlen
    have hrow : ∀ a, rowAt (t.set j ((rowAt t j).elementaryAdd (rowAt t i) (p i))) a
        = if j = a then (rowAt t j).elementaryAdd (rowAt t i) (p i) else rowAt t a := by
      intro a
      rw [rowAt_set]
      by_cases hja : j = a
      · rw [if_pos ⟨hja, by rw [h.ech.len]; omega⟩, if_pos hja]
      · rw [if_neg (fun hh => hja hh.1), if_neg hja]
    refine ⟨⟨⟨by simpa using h.ech.len, ?_, ?_, ?_, ?_, h.ech.mono⟩, ?_, ?_⟩, ?_⟩
    · intro a ha
      rw [hrow]
      split_ifs with hja
      · rw [elementaryAdd_length]; exact h.ech.dlen j (by omega)
      · exact h.ech.dlen a ha
    · intro a ha1 ha2
      rw [hrow]
      split_ifs with hja
      · rw [elementaryAdd_pivotIndex, ← hja]; exact h.ech.piv j hj1 (by omega)
      · exact h.ech.piv a ha1 ha2
    · intro a ha1 ha2
      rw [hrow]
      split_ifs with hja
      · subst hja
        constructor
        · rw [hnew, hli.2 _ hpji, add_zero]
          exact mul_ne_zero hlj.1 hk
        · intro c hc2
          rw [hnew, hlj.2 c hc2, hli.2 c (by omega)]; simp
      · exact h.ech.lead a ha1 ha2
    · intro a ha
      rw [hrow, if_neg (by omega)]
      exact h.ech.zero a ha
    · intro a b ha hab hb
      rw [hrow]
      split_ifs with hja
      · subst hja
        rw [hnew, h.cleared j b hj1 hab hb, hli.2 _ (h.ech.mono b i (by omega) hb hi)]; simp
      · exact h.cleared a b ha hab hb
    · intro a ha1 ha2
      rw [hrow]
      split_ifs with hja
      · rw [hnew, elem_natCast, elem_natCast]
        exact cancel_entry _ _ (by rw [← elem_natCast]; exact hc)
      · exact h.col a ha1 (by omega)
    · exact rowsSpace_elementaryAdd t i j (p i) (by rw [h.ech.len]; exact hi)
        (by rw [h.ech.len]; omega) (by omega) hlen hc hie
  · rw [if_neg hc]
    refine ⟨⟨h.ech, h.cleared, fun a ha1 ha2 => ?_⟩, rfl⟩
    rcases Nat.eq_or_lt_of_le (Nat.le_of_lt_succ ha2) with e | e
    · subst e
      rw [← elem_natCast]
      exact not_not.mp hc
    · exact h.col a ha1 e

theorem clearColumn_step {W H fnz : Nat} {p : Nat → Nat} {i : Nat} {t : List RowData}
    (h : ClearInv W H fnz p i fnz t) (hi1 : fnz ≤ i) (hi : i < H) :
    ClearInv W H fnz p (i + 1) fnz (Rref.clearColumn fnz i t) ∧
    rowsSpace (Rref.clearColumn fnz i t) = rowsSpace t := by
  unfold Rref.clearColumn
  rw [h.ech.piv i hi1 hi]
  have := forUp_inv (Rref.clearAbove i (p i))
    (fun j s => ClearInv W H fnz p i j s ∧ rowsSpace s = rowsSpace t) (i - fnz) fnz t
    ⟨h, rfl⟩ (fun j s hj1 hj2 hP => by
      obtain ⟨h1, h2⟩ := clearAbove_step hP.1 hj1 (by omega) hi
      exact ⟨h1, h2.trans hP.2⟩)
  have e : fnz + (i - fnz) = i := by omega
  rw [e] at this
  obtain ⟨h1, h2⟩ := this
  refine ⟨⟨h1.ech, fun a b ha hab hb => ?_, fun a _ ha2 => by omega⟩, h2⟩
  rcases Nat.eq_or_lt_of_le (Nat.le_of_lt_succ hb) with e | e
  · subst e; exact h1.col a ha hab
  · exact h1.cleared a b ha hab e

theorem clearLoop_spec {W H fnz : Nat} {p : Nat → Nat} {s : List RowData}
    (h : Ech W H fnz p s) (hf : fnz ≤ H) :
    ClearInv W H fnz p H fnz (forUp (Rref.clearColumn fnz) (H - fnz) fnz s) ∧
    rowsSpace (forUp (Rref.clearColumn fnz) (H - fnz) fnz s) = rowsSpace s := by
  have := forUp_inv (Rref.clearColumn fnz)
    (fun i t => ClearInv W H fnz p i fnz t ∧ rowsSpace t = rowsSpace s) (H - fnz) fnz s
    ⟨⟨h, fun a b ha hab hb => by omega, fun a h1 h2 => by omega⟩, rfl⟩
    (fun i t hi1 hi2 hP => by
      obtain ⟨h1, h2⟩ := clearColumn_step hP.1 hi1 (by omega)
      exact ⟨h1, h2.trans hP.2⟩)
  have e : fnz + (H - fnz) = H := by omega
  rw [e] at this
  exact this

theorem normalise_eq : Rref.normalise = fun i rows =>
    rows.set i ((fun r : RowData => r.divAssign (r.elem r.pivotIndex)) (rowAt rows i)) := rfl

theorem normaliseLoop_rowsSpace {W H fnz : Nat} {p : Nat → Nat} {t : List RowData}
    (h : Ech W H fnz p t) (hf : fnz ≤ H) :
    rowsSpace (forUp Rref.normalise (H - fnz) fnz t) = rowsSpace t := by
  have := forUp_inv Rref.normalise
    (fun i u => u.length = t.length ∧ (∀ j, i ≤ j → rowAt u j = rowAt t j) ∧
      rowsSpace u = rowsSpace t) (H - fnz) fnz t ⟨rfl, fun _ _ => rfl, rfl⟩
    (fun i u hi1 hi2 hP => by
      obtain ⟨hl, hsame, hsp⟩ := hP
      have hiH : i < H := by omega
      refine ⟨by simp [Rref.normalise, hl], fun j hj => ?_, ?_⟩
      · rw [Rref.normalise, rowAt_set, if_neg (by omega)]
        exact hsame j (by omega)
      · rw [← hsp, Rref.normalise]
        have hne : (rowAt u i).elem (rowAt u i).pivotIndex ≠ 0 := by
          rw [hsame i (le_refl _), h.piv i hi1 hiH, elem_natCast]
          exact (h.lead i hi1 hiH).1
        exact rowsSpace_set_scale u i _ (1 / (rowAt u i).elem (rowAt u i).pivotIndex)
          (by rw [hl, h.len]; exact hiH) (one_div_ne_zero hne)
          (fun c => divAssign_getD _ _ c))
  exact this.2.2

theorem normaliseLoop_spec {W H fnz : Nat} {p : Nat → Nat} {t : List RowData}
    (h : ClearInv W H fnz p H fnz t) (hf : fnz ≤ H) :
    Reduced W H fnz p (forUp Rref.normalise (H - fnz) fnz t) := by
  rw [normalise_eq]
  obtain ⟨hlen, hpt⟩ := forUp_set (fun r : RowData => r.divAssign (r.elem r.pivotIndex)) t
    (H - fnz) fnz
  have hrow : ∀ j, j < H →
      rowAt (forUp (fun i rows => rows.set i
        ((fun r : RowData => r.divAssign (r.elem r.pivotIndex)) (rowAt rows i))) (H - fnz) fnz t) j
      = if fnz ≤ j then (rowAt t j).divAssign ((rowAt t j).data.getD (p j) 0)
        else rowAt t j := by
    intro j hj
    rw [hpt j]
    by_cases hc : fnz ≤ j
    · rw [if_pos ⟨hc, by omega, by rw [h.ech.len]; exact hj⟩, if_pos hc,
        h.ech.piv j hc hj, elem_natCast]
    · rw [if_neg (fun hh => hc hh.1), if_neg hc]
  have hech : Ech W H fnz p (forUp (fun i rows => rows.set i
      ((fun r : RowData => r.divAssign (r.elem r.pivotIndex)) (rowAt rows i))) (H - fnz) fnz t) := by
    refine ⟨by rw [hlen, h.ech.len], ?_, ?_, ?_, ?_, h.ech.mono⟩
    · intro j hj
      rw [hrow j hj]
      split_ifs
      · rw [divAssign_length]; exact h.ech.dlen j hj
      · exact h.ech.dlen j hj
    · intro j hj1 hj2
      rw [hrow j hj2, if_pos hj1, divAssign_pivotIndex]
      exact h.ech.piv j hj1 hj2
    · intro j hj1 hj2
      rw [hrow j hj2, if_pos hj1]
      have hl := h.ech.lead j hj1 hj2
      constructor
      · rw [divAssign_getD]
        exact mul_ne_zero hl.1 (one_div_ne_zero hl.1)
      · intro c hc
        rw [divAssign_getD, hl.2 c hc, zero_mul]
    · intro j hj
      rw [hrow j (by omega), if_neg (by omega)]
      exact h.ech.zero j hj
  refine ⟨hech, ?_, ?_⟩
  · intro j hj1 hj2
    rw [hrow j hj2, if_pos hj1, divAssign_getD]
    exact mul_one_div_cancel (h.ech.lead j hj1 hj2).1
  · intro i j hi hj1 hj2 hij
    have hz : (rowAt t i).data.getD (p j) 0 = 0 := by
      by_cases hif : i < fnz
      · exact h.ech.zero i hif (p j)
      · rcases Nat.lt_or_gt_of_ne hij with hlt | hgt
        · exact h.cleared i j (by omega) hlt hj2
        · exact (h.ech.lead i (by omega) hi).2 _ (h.ech.mono j i hj1 hgt hi)
    rw [hrow i hi]
    split_ifs
    · rw [divAssign_getD, hz, zero_mul]
    · exact hz

/-- The echelon shape of a sorted state on which `isRef` holds. -/
theorem ech_of_isRef {W H : Nat} {m : Rref} (hg : m.Good W H) (hz : m.zeroMatrix = false)
    (href : m.isRef = true) :
    Ech W H m.firstNonZeroRow (fun j => (rowAt m.rows j).pivotIndex.toNat) m.rows := by
  have hfnz : m.firstNonZeroRow < m.H := by rw [hg.eqH]; exact hg.fnz_lt hz
  have hadj := (isRef_iff m hfnz).mp href
  have hnn : ∀ j, m.firstNonZeroRow ≤ j → j < H → 0 ≤ (rowAt m.rows j).pivotIndex :=
    fun j h1 h2 => (hg.fresh j h2).pivot_nonneg (hg.above hz j h1 h2)
  refine ⟨hg.len, fun j hj => (hg.fresh j hj).len, ?_, ?_, ?_, ?_⟩
  · intro j hj1 hj2
    have := hnn j hj1 hj2
    simp only [Int.toNat_of_nonneg this]
  · intro j hj1 hj2
    obtain ⟨q, hq, hl⟩ := (hg.fresh j hj2).lead (hg.above hz j hj1 hj2)
    simp only [hq, Int.toNat_ofNat]
    exact hl
  · intro j hj
    exact ((hg.fresh j (by have := hg.fnz_lt hz; omega)).zero (hg.below hz j hj)).2
  · intro a b ha hab hb
    have h1 := hadj b (by omega) (by rw [hg.eqH]; exact hb)
    have h2 : (rowAt m.rows a).pivotIndex ≤ (rowAt m.rows (b - 1)).pivotIndex := by
      rcases Nat.eq_or_lt_of_le (Nat.le_sub_one_of_lt hab) with h | h
      · rw [h]
      · exact hg.sorted a (b - 1) h (by omega)
    have h3 := hnn a ha (by omega)
    have h4 := hnn b (by omega) hb
    omega

theorem toRref_spec {W H : Nat} {m : Rref} (hg : m.Good W H) (hz : m.zeroMatrix = false)
    (href : m.isRef = true) :
    Reduced W H m.firstNonZeroRow (fun j => (rowAt m.rows j).pivotIndex.toNat) m.toRref.rows ∧
    rowsSpace m.toRref.rows = rowsSpace m.rows := by
  have hech := ech_of_isRef hg hz href
  have hf : m.firstNonZeroRow ≤ H := Nat.le_of_lt (hg.fnz_lt hz)
  obtain ⟨h1, h2⟩ := clearLoop_spec hech hf
  unfold Rref.toRref
  simp only [hg.eqH]
  exact ⟨normaliseLoop_spec h1 hf, (normaliseLoop_rowsSpace h1.ech hf).trans h2⟩

/-! ## `Rref::solve` -/

theorem solveCount_fst (srt : List RowData → List RowData) :
    ∀ fuel m, (Rref.solveCount srt fuel m).map (fun x => x.1) = Rref.solve srt fuel m := by
  intro fuel
  induction fuel with
  | zero => intro m; rfl
  | succ fuel ih =>
    intro m
    unfold Rref.solveCount Rref.solve
    split_ifs
    · rfl
    · rw [← ih, Option.map_map]; rfl
    · rfl

theorem not_isRef_bound {W H : Nat} {m : Rref} (hg : m.Good W H) (hz : m.zeroMatrix = false)
    (href : m.isRef = false) {k : Nat} (hs : Settled m.rows k) : k + 1 < H := by
  have hfnz : m.firstNonZeroRow < m.H := by rw [hg.eqH]; exact hg.fnz_lt hz
  by_contra hcon
  have : m.isRef = true := by
    rw [isRef_iff m hfnz]
    intro j hj1 hj2
    rw [hg.eqH] at hj2
    exact Settled.strict hg hz hs j hj1 hj2 (by omega)
  rw [this] at href; cases href

theorem solveCount_spec {srt : List RowData → List RowData} (hs : IsSort srt) {W H : Nat} :
    ∀ fuel m k, m.Good W H → Settled m.rows k → H ≤ k + fuel → 1 ≤ fuel →
      ∃ r a b, Rref.solveCount srt fuel m = some (r, a, b) ∧ a ≤ H - k ∧ b ≤ 1 ∧
        Solved W H m r := by
  intro fuel
  induction fuel with
  | zero => intro m k _ _ _ h; omega
  | succ fuel ih =>
    intro m k hg hk hfuel _
    unfold Rref.solveCount
    cases hz : m.zeroMatrix with
    | true =>
      exact ⟨m, 0, 0, by simp, Nat.zero_le _, Nat.zero_le _, hg.eqW, hg.eqH, rfl,
        Or.inl ⟨hz, hg⟩⟩
    | false =>
      cases href : m.isRef with
      | true =>
        obtain ⟨h1, h2⟩ := toRref_spec hg hz href
        exact ⟨m.toRref, 0, 1, by simp, Nat.zero_le _, le_refl _, hg.eqW, hg.eqH, h2,
          Or.inr ⟨hz, hg.fnz_lt hz, _, h1⟩⟩
      | false =>
        have hb := not_isRef_bound hg hz href hk
        obtain ⟨hg2, hperm⟩ := setRowInfo_good hs (doAnRefPass_pre hg hz)
        have hk2 : Settled (Rref.setRowInfo srt m.doAnRefPass).rows (k + 1) := by
          rw [setRowInfo_eq]
          exact Settled.perm (hs.perm _) (settled_step hg hz href hk)
        obtain ⟨r, a, b, e, ha, hb2, hsol⟩ := ih _ (k + 1) hg2 hk2 (by omega) (by omega)
        refine ⟨r, a + 1, b, by simp [e], by omega, hb2, hsol.eqW, hsol.eqH, ?_, hsol.shape⟩
        rw [hsol.space]
        exact (rowSpace_perm hperm).trans (doAnRefPass_rowsSpace hg hz)

/-! ## The constructor on a valid buffer -/

theorem freshRow_spec {W : Nat} (hW : 0 < W) (d : List ℚ) (hd : d.length = W) :
    (freshRow W d).Fresh W ∧ (freshRow W d).data = d := by
  have := setRowInfo_fresh hW { W := W, data := d.take W, pivotIndex := 0, zeroRow := false }
    ⟨rfl, by simp [hd], fun h => by simp at h⟩
  refine ⟨this.1, ?_⟩
  rw [freshRow, this.2]
  exact List.take_of_length_le (by omega)

theorem ofBuffer_row {W : Nat} (hW : 0 < W) (d : List ℚ) :
    RowData.ofBuffer (some d) (W : Int) = .ok (freshRow W d) := by
  unfold RowData.ofBuffer freshRow
  have : ¬ (W : Int) = 0 := by omega
  have hneg : ¬ (W : Int) < 0 := by omega
  simp [this, hneg]

theorem pushRows_valid {W : Nat} (hW : 0 < W) (M : List (List ℚ)) :
    ∀ n i acc, i + n = M.length →
      Rref.pushRows (M.map some) (W : Int) n i acc
        = .ok (acc ++ (M.drop i).map (freshRow W)) := by
  intro n
  induction n with
  | zero =>
    intro i acc h
    simp [Rref.pushRows, List.drop_eq_nil_of_le (by omega : M.length ≤ i)]
  | succ n ih =>
    intro i acc h
    have hi : i < M.length := by omega
    unfold Rref.pushRows
    have e : (M.map some).getD i none = some M[i] := by
      rw [List.getD_eq_getElem?_getD, List.getElem?_map, List.getElem?_eq_getElem hi]; rfl
    rw [e, ofBuffer_row hW]
    simp only
    rw [ih (i + 1) _ (by omega), List.drop_eq_getElem_cons hi]
    simp only [List.map_cons, List.append_assoc, List.singleton_append]

theorem load_valid (srt : List RowData → List RowData) (fnz0 : Nat) {M : List (List ℚ)}
    {W H : Nat} (hv : ValidMatrix M W H) :
    Rref.load srt fnz0 (bufferOf M) (W : Int) (H : Int)
      = .ok (Rref.setRowInfo srt ⟨W, H, fnz0, false, M.map (freshRow W)⟩) := by
  obtain ⟨hW, hH, hlen, _⟩ := hv
  unfold Rref.load bufferOf
  have h1 : ¬ ((W : Int) ≤ 0 ∨ (H : Int) ≤ 0) := by omega
  simp only [h1, if_false, Int.toNat_ofNat]
  rw [pushRows_valid hW M H 0 [] (by omega)]
  simp

theorem rowAt_map_freshRow {W : Nat} (M : List (List ℚ)) (i : Nat) (hi : i < M.length) :
    rowAt (M.map (freshRow W)) i = freshRow W (M.getD i []) := by
  rw [rowAt_eq_getElem _ _ (by simpa using hi), List.getElem_map,
    List.getD_eq_getElem _ _ hi]

theorem initial_pre (fnz0 : Nat) {M : List (List ℚ)} {W H : Nat} (hv : ValidMatrix M W H) :
    Rref.Pre W H ⟨W, H, fnz0, false, M.map (freshRow W)⟩ ∧
    (M.map (freshRow W)).map RowData.data = M := by
  obtain ⟨hW, hH, hlen, hrows⟩ := hv
  have hf : ∀ i, i < H → (rowAt (M.map (freshRow W)) i).Fresh W := by
    intro i hi
    rw [rowAt_map_freshRow M i (by omega)]
    refine (freshRow_spec hW _ (hrows _ ?_)).1
    rw [List.getD_eq_getElem _ _ (by omega)]
    exact List.getElem_mem _
  refine ⟨⟨hW, rfl, rfl, by simpa using hlen, fun i hi => (hf i hi).semi,
    fun i _ hi => hf i hi⟩, ?_⟩
  rw [List.map_map]
  conv_rhs => rw [← List.map_id M]
  apply List.map_congr_left
  intro d hd
  exact (freshRow_spec hW d (hrows d hd)).2

theorem getMatrix_eq {W H : Nat} {m : Rref} (eqW : m.W = W) (eqH : m.H = H)
    (hlen : m.rows.length = H) (hd : ∀ j, j < H → (rowAt m.rows j).data.length = W) :
    m.getMatrix = m.rows.map RowData.data := by
  unfold Rref.getMatrix
  apply List.ext_getElem (by simp [eqH, hlen])
  intro j h1 h2
  simp only [List.length_map, List.length_range] at h1 h2
  simp only [List.getElem_map, List.getElem_range]
  rw [← rowAt_eq_getElem _ _ h2, eqW]
  exact List.take_of_length_le (by rw [hd j (by omega)])

theorem getD_map_data (rows : List RowData) (j : Nat) (hj : j < rows.length) :
    (rows.map RowData.data).getD j [] = (rowAt rows j).data := by
  rw [List.getD_eq_getElem _ _ (by simpa using hj), List.getElem_map, rowAt_eq_getElem _ _ hj]

theorem Reduced.canon {W H f : Nat} {p : Nat → Nat} {s : List RowData}
    (h : Reduced W H f p s) : Canon W H f p (s.map RowData.data) := by
  have e : ∀ j, j < H → (s.map RowData.data).getD j [] = (rowAt s j).data :=
    fun j hj => getD_map_data s j (by rw [h.ech.len]; exact hj)
  refine ⟨by simpa using h.ech.len, ?_, ?_, ?_, ?_, ?_, h.ech.mono⟩
  · intro j hj; rw [e j hj]; exact h.ech.dlen j hj
  · intro j hj
    by_cases hjH : j < H
    · rw [e j hjH]; exact h.ech.zero j hj
    · intro c
      have e0 : (s.map RowData.data).getD j [] = [] := by
        rw [List.getD_eq_getElem?_getD,
          List.getElem?_eq_none (by rw [List.length_map, h.ech.len]; omega)]
        rfl
      rw [e0]
      rfl
  · intro j h1 h2; rw [e j h2]; exact h.ech.lead j h1 h2
  · intro j h1 h2; rw [e j h2]; exact h.one j h1 h2
  · intro i j hi h1 h2 hij; rw [e i hi]; exact h.col i j hi h1 h2 hij

/-- An all-zero matrix has the reduced echelon shape with every row below the index `H`. -/
theorem Good.canon_zero {W H : Nat} {m : Rref} (hg : m.Good W H) (hz : m.zeroMatrix = true) :
    Canon W H H (fun _ => 0) (m.rows.map RowData.data) := by
  have e : ∀ j, j < H → (m.rows.map RowData.data).getD j [] = (rowAt m.rows j).data :=
    fun j hj => getD_map_data m.rows j (by rw [hg.len]; exact hj)
  refine ⟨by simpa using hg.len, ?_, ?_, ?_, ?_, ?_, ?_⟩
  · intro j hj; rw [e j hj]; exact (hg.fresh j hj).len
  · intro j hj; rw [e j hj]; exact ((hg.fresh j hj).zero (hg.zeroM hz j hj)).2
  · intro j h1 h2; omega
  · intro j h1 h2; omega
  · intro i j _ h1 h2; omega
  · intro a b h1 h2 h3; omega

/-- The constructor on a valid buffer: it returns an object, after at most `H` passes and
at most one call of `toRref`, whose matrix has the reduced echelon shape and the row space
of the input. -/
theorem construct_spec {srt : List RowData → List RowData} (hs : IsSort srt)
    {M : List (List ℚ)} {W H : Nat} (hv : ValidMatrix M W H) (fuel fnz0 : Nat)
    (hfuel : H ≤ fuel) :
    ∃ m0 m a b, Rref.load srt fnz0 (bufferOf M) W H = .ok m0 ∧
      Rref.solveCount srt fuel m0 = some (m, a, b) ∧ a ≤ H ∧ b ≤ 1 ∧
      Rref.ofBuffer srt fuel fnz0 (bufferOf M) W H = some (.ok m) ∧
      (m.W = W ∧ m.H = H) ∧
      m.getMatrix = m.rows.map RowData.data ∧
      rowSpace m.getMatrix = rowSpace M ∧
      ∃ f p, Canon W H f p m.getMatrix ∧ f ≤ H ∧
        (m.zeroMatrix = false → f = m.firstNonZeroRow ∧ f < H) ∧
        (m.zeroMatrix = true → f = H) := by
  obtain ⟨hpre, hdata⟩ := initial_pre fnz0 hv
  obtain ⟨hg, hperm⟩ := setRowInfo_good hs hpre
  obtain ⟨r, a, b, e, ha, hb, hsol⟩ := solveCount_spec hs fuel _ 0 hg (Settled.zero _)
    (by omega) (by have := hv.2.1; omega)
  have hsolve : Rref.solve srt fuel (Rref.setRowInfo srt ⟨W, H, fnz0, false, M.map (freshRow W)⟩)
      = some r := by
    rw [← solveCount_fst, e]; rfl
  have hspace : rowsSpace r.rows = rowSpace M := by
    rw [hsol.space]
    have := rowSpace_perm hperm
    simp only [hdata] at this
    exact this
  refine ⟨_, r, a, b, load_valid srt fnz0 hv, e, by omega, hb, ?_, ⟨hsol.eqW, hsol.eqH⟩, ?_⟩
  · rw [Rref.ofBuffer, load_valid srt fnz0 hv]
    simp only [hsolve, Option.map_some']
  · rcases hsol.shape with ⟨hz, hgr⟩ | ⟨hz, hlt, p, hred⟩
    · have hgm := getMatrix_eq hsol.eqW hsol.eqH hgr.len (fun j hj => (hgr.fresh j hj).len)
      refine ⟨hgm, by rw [hgm]; exact hspace, H, fun _ => 0, ?_, le_refl _, ?_, ?_⟩
      · rw [hgm]; exact Good.canon_zero hgr hz
      · intro h; rw [hz] at h; cases h
      · intro _; rfl
    · have hgm := getMatrix_eq hsol.eqW hsol.eqH hred.ech.len hred.ech.dlen
      refine ⟨hgm, by rw [hgm]; exact hspace, r.firstNonZeroRow, p, ?_, Nat.le_of_lt hlt, ?_, ?_⟩
      · rw [hgm]; exact hred.canon
      · intro _; exact ⟨rfl, hlt⟩
      · intro h; rw [hz] at h; cases h

/-! ## Insertion sort is a `std::sort` -/

theorem lt_total (a b : RowData) : RowData.lt b a = false ∨ RowData.lt a b = false := by
  unfold RowData.lt RowData.toBool
  cases a.zeroRow <;> cases b.zeroRow <;> simp
  omega

theorem lt_trans_false (a b c : RowData) (h1 : RowData.lt b a = false)
    (h2 : RowData.lt c b = false) : RowData.lt c a = false := by
  unfold RowData.lt RowData.toBool at *
  cases ha : a.zeroRow <;> cases hb : b.zeroRow <;> cases hc : c.zeroRow <;>
    simp [ha, hb, hc] at h1 h2 ⊢
  omega

theorem insertionSortRows_isSort : IsSort insertionSortRows := by
  haveI : IsTotal RowData (fun a b => RowData.lt b a = false) := ⟨lt_total⟩
  haveI : IsTrans RowData (fun a b => RowData.lt b a = false) := ⟨lt_trans_false⟩
  exact ⟨fun l => List.perm_insertionSort _ l, fun l => List.sorted_insertionSort _ l⟩

theorem validMatrix_example : ValidMatrix [[2, 4], [1, 1]] 2 2 := by
  refine ⟨by decide, by decide, rfl, ?_⟩
  intro r hr
  simp only [List.mem_cons, List.mem_singleton, List.not_mem_nil, or_false] at hr
  rcases hr with rfl | rfl <;> rfl

theorem allZero_singleton_zero : AllZero [(0 : ℚ)] := by
  intro c
  cases c with
  | zero => rfl
  | succ c => rfl

/-! ## Validation of the rows of a text file -/

theorem ofTokens_error_iff (atof : String → ℚ) (numbers : List String) (W : Int) :
    (∃ e, RowData.ofTokens atof numbers W = .error e) ↔
      (numbers.length = 0 ∨ (numbers.length : Int) ≠ W) := by
  unfold RowData.ofTokens
  by_cases h0 : (numbers.length : Int) = 0
  · rw [if_pos h0]
    exact ⟨fun _ => Or.inl (by omega), fun _ => ⟨_, rfl⟩⟩
  · rw [if_neg h0]
    by_cases h1 : (numbers.length : Int) ≠ W
    · rw [if_pos h1]
      exact ⟨fun _ => Or.inr h1, fun _ => ⟨_, rfl⟩⟩
    · rw [if_neg h1]
      constructor
      · rintro ⟨e, he⟩; cases he
      · rintro (h | h)
        · omega
        · exact absurd h h1

theorem ofTokens_error_invalid (atof : String → ℚ) (numbers : List String) (W : Int)
    (e : Error) (h : RowData.ofTokens atof numbers W = .error e) :
    e.isInvalidArgument = true := by
  unfold RowData.ofTokens at h
  split_ifs at h
  · cases h; rfl
  · cases h; rfl

theorem readLines_mismatch (atof : String → ℚ) :
    ∀ (lines : List (List String)) (W : Int) (rows : List RowData), W ≠ -1 →
      (∃ l ∈ lines, (l.length : Int) ≠ W) →
      ∃ e, Rref.readLines atof lines W rows = .error e ∧ e.isInvalidArgument = true := by
  intro lines
  induction lines with
  | nil => intro W rows _ h; obtain ⟨l, hl, _⟩ := h; cases hl
  | cons tokens rest ih =>
    intro W rows hW h
    unfold Rref.readLines
    simp only [if_neg hW]
    cases hr : RowData.ofTokens atof tokens W with
    | error e => exact ⟨e, rfl, ofTokens_error_invalid atof tokens W e hr⟩
    | ok r =>
      simp only
      apply ih W _ hW
      obtain ⟨l, hl, hne⟩ := h
      rcases List.mem_cons.mp hl with rfl | hl2
      · have := (ofTokens_error_iff atof l W).mpr (Or.inr hne)
        obtain ⟨e, he⟩ := this
        rw [hr] at he; cases he
      · exact ⟨l, hl2, hne⟩

/-! ## All behaviours of `std::sort` on a concrete input -/

theorem mem_sortOutcomes {srt : List RowData → List RowData} (hs : IsSort srt)
    (l : List RowData) : srt l ∈ sortOutcomes l := by
  unfold sortOutcomes sortedRows
  rw [List.mem_filter]
  exact ⟨List.mem_permutations'.mpr (hs.perm l), by simpa using hs.sorted l⟩

theorem solve_mem_solveAll {srt : List RowData → List RowData} (hs : IsSort srt) :
    ∀ fuel m, Rref.solve srt fuel m ∈ Rref.solveAll fuel m := by
  intro fuel
  induction fuel with
  | zero => intro m; simp [Rref.solve, Rref.solveAll]
  | succ fuel ih =>
    intro m
    unfold Rref.solve Rref.solveAll
    split_ifs
    · simp
    · rw [List.mem_flatMap]
      exact ⟨srt m.doAnRefPass.refreshed, mem_sortOutcomes hs _, by
        rw [setRowInfo_eq]; exact ih _⟩
    · simp

theorem solve_fuel_succ (srt : List RowData → List RowData) :
    ∀ fuel m r, Rref.solve srt fuel m = some r → Rref.solve srt (fuel + 1) m = some r := by
  intro fuel
  induction fuel with
  | zero => intro m r h; simp [Rref.solve] at h
  | succ fuel ih =>
    intro m r h
    unfold Rref.solve at h ⊢
    split_ifs at h ⊢
    · exact h
    · exact ih _ _ h
    · exact h

theorem solve_fuel_mono (srt : List RowData → List RowData) (f0 : Nat) (m r : Rref)
    (h : Rref.solve srt f0 m = some r) : ∀ fuel, f0 ≤ fuel → Rref.solve srt fuel m = some r := by
  intro fuel hle
  induction fuel with
  | zero =>
    have : f0 = 0 := by omega
    subst this; exact h
  | succ fuel ih =>
    rcases Nat.eq_or_lt_of_le hle with e | e
    · subst e; exact h
    · exact solve_fuel_succ srt fuel m r (ih (by omega))

theorem ofBuffer_of_outcomes {srt : List RowData → List RowData} (hs : IsSort srt)
    {M : List (List ℚ)} {W H : Nat} (hv : ValidMatrix M W H) (f0 : Nat)
    (target : List (List ℚ)) (hall : ∀ o ∈ outcomes f0 W H M, o = some target)
    (fuel fnz0 : Nat) (hfuel : f0 ≤ fuel) :
    ∃ m, Rref.ofBuffer srt fuel fnz0 (bufferOf M) W H = some (.ok m) ∧
      m.getMatrix = target := by
  have hfresh : ∀ i, i < (M.map (freshRow W)).length → (rowAt (M.map (freshRow W)) i).Fresh W := by
    intro i hi
    have hi2 : i < M.length := by simpa using hi
    rw [rowAt_map_freshRow M i hi2]
    refine (freshRow_spec hv.1 _ (hv.2.2.2 _ ?_)).1
    rw [List.getD_eq_getElem _ _ hi2]
    exact List.getElem_mem _
  have href : (⟨W, H, fnz0, false, M.map (freshRow W)⟩ : Rref).refreshed
      = M.map (freshRow W) := refreshed_of_fresh hv.1 hfresh
  have hmem := mem_sortOutcomes hs (M.map (freshRow W))
  have hscan : Rref.scanLoop (srt (M.map (freshRow W))) H 0 < H := by
    by_contra hcon
    have := hall none (by
      unfold outcomes
      rw [List.mem_flatMap]
      exact ⟨_, hmem, by rw [if_neg hcon]; simp⟩)
    cases this
  have hm0 : Rref.setRowInfo srt ⟨W, H, fnz0, false, M.map (freshRow W)⟩
      = (⟨W, H, 0, false, M.map (freshRow W)⟩ : Rref).afterSort (srt (M.map (freshRow W))) := by
    rw [setRowInfo_eq, href]
    simp only [Rref.afterSort, if_pos hscan]
  have hsol := solve_mem_solveAll hs f0
    ((⟨W, H, 0, false, M.map (freshRow W)⟩ : Rref).afterSort (srt (M.map (freshRow W))))
  have := hall ((Rref.solve srt f0 ((⟨W, H, 0, false, M.map (freshRow W)⟩ : Rref).afterSort
      (srt (M.map (freshRow W))))).map Rref.getMatrix) (by
    unfold outcomes
    rw [List.mem_flatMap]
    exact ⟨_, hmem, by rw [if_pos hscan]; exact List.mem_map_of_mem _ hsol⟩)
  cases hr : Rref.solve srt f0 ((⟨W, H, 0, false, M.map (freshRow W)⟩ : Rref).afterSort
      (srt (M.map (freshRow W)))) with
  | none => rw [hr] at this; cases this
  | some r =>
    rw [hr] at this
    refine ⟨r, ?_, by simpa using this⟩
    rw [Rref.ofBuffer, load_valid srt fnz0 hv]
    simp only [hm0, solve_fuel_mono srt f0 _ r hr fuel hfuel, Option.map_some']

theorem outcomes_scenarioB :
    ∀ o ∈ outcomes 2 2 2 [[2, 4], [1, 1]], o = some [[1, 0], [0, 1]] := by
  with_unfolding_all decide

theorem outcomes_scenarioD :
    ∀ o ∈ outcomes 3 3 3 [[1, 2, 3], [4, 5, 6], [7, 8, 9]],
      o = some [[0, 0, 0], [1, 0, -1], [0, 1, 2]] := by
  with_unfolding_all decide

theorem validMatrix_scenarioB : ValidMatrix [[2, 4], [1, 1]] 2 2 := validMatrix_example

theorem validMatrix_scenarioD : ValidMatrix [[1, 2, 3], [4, 5, 6], [7, 8, 9]] 3 3 := by
  refine ⟨by decide, by decide, rfl, ?_⟩
  intro r hr
  simp only [List.mem_cons, List.mem_singleton, List.not_mem_nil, or_false] at hr
  rcases hr with rfl | rfl | rfl <;> rfl

/-! ## The output is a fixed point -/

theorem sort_fixed {srt : List RowData → List RowData} (hs : IsSort srt) (l : List RowData)
    (hsorted : l.Pairwise (fun a b => RowData.lt b a = false))
    (heq : ∀ a ∈ l, ∀ b ∈ l, RowData.lt b a = false → RowData.lt a b = false → a = b) :
    srt l = l := by
  haveI : IsAntisymm RowData (fun a b => a ∈ l ∧ b ∈ l ∧ RowData.lt b a = false) :=
    ⟨fun a b h1 h2 => heq a h1.1 b h1.2.1 h1.2.2 h2.2.2⟩
  apply List.eq_of_perm_of_sorted (r := fun a b => a ∈ l ∧ b ∈ l ∧ RowData.lt b a = false)
    (hs.perm l)
  · exact (hs.sorted l).imp_of_mem
      (fun ha hb h => ⟨(hs.perm l).subset ha, (hs.perm l).subset hb, h⟩)
  · exact hsorted.imp_of_mem (fun ha hb h => ⟨ha, hb, h⟩)

theorem allZero_eq_replicate (d : List ℚ) (h : AllZero d) : d = List.replicate d.length 0 := by
  apply List.ext_getElem (by simp)
  intro i h1 h2
  rw [List.getElem_replicate, ← List.getD_eq_getElem d 0 h1]
  exact h i

theorem forUp_const {σ : Type} (body : Nat → σ → σ) (n lo : Nat) (s : σ)
    (h : ∀ i, lo ≤ i → i < lo + n → body i s = s) : forUp body n lo s = s :=
  forUp_inv body (fun _ t => t = s) n lo s rfl (fun i t h1 h2 ht => by rw [ht]; exact h i h1 h2)

theorem divAssign_one (r : RowData) : r.divAssign 1 = r := by
  cases r
  simp [RowData.divAssign, RowData.mulAssign]

theorem set_rowAt_self (rows : List RowData) (i : Nat) :
    rows.set i (rowAt rows i) = rows := by
  apply List.ext_getElem (by simp)
  intro j h1 h2
  rw [← rowAt_eq_getElem _ _ h1, ← rowAt_eq_getElem _ _ h2, rowAt_set]
  split_ifs with h
  · rw [h.1]
  · rfl

/-- The rows built from a matrix in reduced echelon shape. -/
theorem canon_rows {W H f : Nat} {p : Nat → Nat} {O : List (List ℚ)} (hW : 0 < W)
    (hc : Canon W H f p O) (j : Nat) (hj : j < H) :
    (rowAt (O.map (freshRow W)) j).Fresh W ∧
    (rowAt (O.map (freshRow W)) j).data = O.getD j [] ∧
    (j < f → rowAt (O.map (freshRow W)) j = freshRow W (List.replicate W 0) ∧
      (rowAt (O.map (freshRow W)) j).zeroRow = true ∧
      (rowAt (O.map (freshRow W)) j).pivotIndex = -1) ∧
    (f ≤ j → (rowAt (O.map (freshRow W)) j).zeroRow = false ∧
      (rowAt (O.map (freshRow W)) j).pivotIndex = p j) := by
  have hrow := rowAt_map_freshRow (W := W) O j (by rw [hc.len]; exact hj)
  obtain ⟨hF, hD⟩ := freshRow_spec hW (O.getD j []) (hc.width j hj)
  rw [← hrow] at hF hD
  refine ⟨hF, hD, fun hjf => ?_, fun hjf => ?_⟩
  · have hz := hc.zero j hjf
    have hzr : (rowAt (O.map (freshRow W)) j).zeroRow = true := by
      cases hzz : (rowAt (O.map (freshRow W)) j).zeroRow with
      | true => rfl
      | false =>
        obtain ⟨q, _, hl⟩ := hF.lead hzz
        rw [hD] at hl
        exact absurd hz hl.not_allZero
    refine ⟨?_, hzr, hF.pivot_of_zero hzr⟩
    rw [hrow]
    congr 1
    have := allZero_eq_replicate _ hz
    rwa [hc.width j hj] at this
  · have hl := hc.lead j hjf hj
    have hzr : (rowAt (O.map (freshRow W)) j).zeroRow = false := by
      cases hzz : (rowAt (O.map (freshRow W)) j).zeroRow with
      | false => rfl
      | true =>
        have := (hF.zero hzz).2
        rw [hD] at this
        exact absurd this hl.not_allZero
    obtain ⟨q, hq, hl2⟩ := hF.lead hzr
    rw [hD] at hl2
    rw [hq, hl2.unique hl]
    exact ⟨hzr, rfl⟩

theorem canon_sort_fixed {srt : List RowData → List RowData} (hs : IsSort srt)
    {W H f : Nat} {p : Nat → Nat} {O : List (List ℚ)} (hW : 0 < W)
    (hc : Canon W H f p O) : srt (O.map (freshRow W)) = O.map (freshRow W) := by
  have hlen : (O.map (freshRow W)).length = H := by simpa using hc.len
  have hkey : ∀ i j, i < j → j < H →
      (rowAt (O.map (freshRow W)) i).pivotIndex ≤ (rowAt (O.map (freshRow W)) j).pivotIndex := by
    intro i j hij hj
    obtain ⟨_, _, hi1, hi2⟩ := canon_rows hW hc i (by omega)
    obtain ⟨_, _, hj1, hj2⟩ := canon_rows hW hc j hj
    by_cases hif : i < f
    · rw [(hi1 hif).2.2]
      by_cases hjf : j < f
      · rw [(hj1 hjf).2.2]
      · rw [(hj2 (by omega)).2]; omega
    · rw [(hi2 (by omega)).2, (hj2 (by omega)).2]
      have := hc.mono i j (by omega) hij hj
      omega
  apply sort_fixed hs
  · rw [List.pairwise_iff_getElem]
    intro i j hi hj hij
    rw [← rowAt_eq_getElem, ← rowAt_eq_getElem]
    rw [hlen] at hi hj
    exact (lt_false_iff (canon_rows hW hc i hi).1 (canon_rows hW hc j hj).1).mpr
      (hkey i j hij hj)
  · intro a ha b hb h1 h2
    obtain ⟨i, hi, rfl⟩ := List.mem_iff_getElem.mp ha
    obtain ⟨j, hj, rfl⟩ := List.mem_iff_getElem.mp hb
    rw [← rowAt_eq_getElem _ _ hi, ← rowAt_eq_getElem _ _ hj] at h1 h2 ⊢
    rw [hlen] at hi hj
    obtain ⟨hFi, _, hi1, hi2⟩ := canon_rows hW hc i hi
    obtain ⟨hFj, _, hj1, hj2⟩ := canon_rows hW hc j hj
    have e1 := (lt_false_iff hFi hFj).mp h1
    have e2 := (lt_false_iff hFj hFi).mp h2
    by_cases hif : i < f
    · by_cases hjf : j < f
      · rw [(hi1 hif).1, (hj1 hjf).1]
      · rw [(hi1 hif).2.2, (hj2 (by omega)).2] at e2; omega
    · by_cases hjf : j < f
      · rw [(hj1 hjf).2.2, (hi2 (by omega)).2] at e1; omega
      · rw [(hi2 (by omega)).2, (hj2 (by omega)).2] at e1 e2
        have hpe : p i = p j := by omega
        rcases Nat.lt_trichotomy i j with h | h | h
        · have := hc.mono i j (by omega) h hj; omega
        · subst h; rfl
        · have := hc.mono j i (by omega) h hi; omega

theorem canon_valid {W H f : Nat} {p : Nat → Nat} {O : List (List ℚ)} (hW : 0 < W)
    (hH : 0 < H) (hc : Canon W H f p O) : ValidMatrix O W H := by
  refine ⟨hW, hH, hc.len, fun r hr => ?_⟩
  obtain ⟨i, hi, rfl⟩ := List.mem_iff_getElem.mp hr
  rw [← List.getD_eq_getElem _ [] hi]
  exact hc.width i (by rw [← hc.len]; exact hi)

theorem canon_scan {W H f : Nat} {p : Nat → Nat} {O : List (List ℚ)} (hW : 0 < W)
    (hc : Canon W H f p O) (hf : f ≤ H) : Rref.scanLoop (O.map (freshRow W)) H 0 = f := by
  obtain ⟨_, h2, h3, h4⟩ := scanLoop_spec (O.map (freshRow W)) H 0
  simp only [Nat.zero_add] at h2 h3 h4
  rcases Nat.lt_trichotomy (Rref.scanLoop (O.map (freshRow W)) H 0) f with h | h | h
  · have h5 := h4 (by omega)
    have h6 := ((canon_rows hW hc _ (by omega)).2.2.1 h).2.1
    rw [h5] at h6; cases h6
  · exact h
  · have h5 := h3 f (Nat.zero_le _) h
    have h6 := ((canon_rows hW hc f (by omega)).2.2.2 (le_refl _)).1
    rw [h5] at h6; cases h6

theorem canon_toRref {W H f : Nat} {p : Nat → Nat} {O : List (List ℚ)} (hW : 0 < W)
    (hc : Canon W H f p O) (hf : f < H) (z : Bool) :
    (⟨W, H, f, z, O.map (freshRow W)⟩ : Rref).toRref = ⟨W, H, f, z, O.map (freshRow W)⟩ := by
  have hclear : forUp (Rref.clearColumn f) (H - f) f (O.map (freshRow W))
      = O.map (freshRow W) := by
    apply forUp_const
    intro i hi1 hi2
    unfold Rref.clearColumn
    apply forUp_const
    intro j hj1 hj2
    unfold Rref.clearAbove
    rw [if_neg]
    rw [not_not, ((canon_rows hW hc i (by omega)).2.2.2 hi1).2, elem_natCast,
      (canon_rows hW hc j (by omega)).2.1]
    exact hc.col j i (by omega) hi1 (by omega) (by omega)
  have hnorm : forUp Rref.normalise (H - f) f (O.map (freshRow W)) = O.map (freshRow W) := by
    apply forUp_const
    intro i hi1 hi2
    unfold Rref.normalise
    rw [((canon_rows hW hc i (by omega)).2.2.2 hi1).2, elem_natCast,
      (canon_rows hW hc i (by omega)).2.1, hc.one i hi1 (by omega), divAssign_one,
      set_rowAt_self]
  unfold Rref.toRref
  simp only [hclear, hnorm]

/-- The constructor returns a matrix in reduced echelon shape unchanged. -/
theorem canon_fixed {srt : List RowData → List RowData} (hs : IsSort srt)
    {W H f : Nat} {p : Nat → Nat} {O : List (List ℚ)} (hW : 0 < W) (hH : 0 < H)
    (hc : Canon W H f p O) (hf : f ≤ H) (fuel fnz0 : Nat) (hfuel : 1 ≤ fuel) :
    ∃ m2, Rref.ofBuffer srt fuel fnz0 (bufferOf O) W H = some (.ok m2) ∧ m2.getMatrix = O := by
  have hv := canon_valid hW hH hc
  have hlen : (O.map (freshRow W)).length = H := by simpa using hc.len
  have href : (⟨W, H, fnz0, false, O.map (freshRow W)⟩ : Rref).refreshed
      = O.map (freshRow W) :=
    refreshed_of_fresh hW (fun i hi => (canon_rows hW hc i (by rw [← hlen]; exact hi)).1)
  have hdata : (O.map (freshRow W)).map RowData.data = O := (initial_pre fnz0 hv).2
  have hgm : ∀ a z, (⟨W, H, a, z, O.map (freshRow W)⟩ : Rref).getMatrix = O := by
    intro a z
    rw [getMatrix_eq (W := W) (H := H) rfl rfl hlen
      (fun j hj => (canon_rows hW hc j hj).1.len)]
    exact hdata
  obtain ⟨n, rfl⟩ : ∃ n, fuel = n + 1 := ⟨fuel - 1, by omega⟩
  rw [Rref.ofBuffer, load_valid srt fnz0 hv, setRowInfo_eq, href, canon_sort_fixed hs hW hc]
  simp only [Rref.afterSort, canon_scan hW hc hf]
  by_cases hfH : f = H
  · subst hfH
    refine ⟨⟨W, f, fnz0, true, O.map (freshRow W)⟩, ?_, hgm _ _⟩
    simp [Rref.solve]
  · have hlt : f < H := by omega
    refine ⟨⟨W, H, f, false, O.map (freshRow W)⟩, ?_, hgm _ _⟩
    have hisRef : (⟨W, H, f, false, O.map (freshRow W)⟩ : Rref).isRef = true := by
      rw [isRef_iff _ (by simpa using hlt)]
      intro j hj1 hj2
      simp only at hj1 hj2 ⊢
      rw [((canon_rows hW hc j hj2).2.2.2 (by omega)).2,
        ((canon_rows hW hc (j - 1) (by omega)).2.2.2 (by omega)).2]
      have := hc.mono (j - 1) j (by omega) (by omega) hj2
      omega
    simp only [if_pos hlt, hfH, decide_False]
    unfold Rref.solve
    simp only [Bool.false_eq_true, if_false, hisRef, Bool.not_true, canon_toRref hW hc hlt,
      Option.map_some']

/-! ## The all-zero matrix -/

theorem rowSpace_allZero {L : List (List ℚ)} (h : ∀ d ∈ L, AllZero d) : rowSpace L = ⊥ := by
  rw [eq_bot_iff]
  apply Submodule.span_le.mpr
  rintro v ⟨d, hd, rfl⟩
  have : rowVec d = 0 := by
    funext c
    exact h d hd c
  rw [this]
  exact Submodule.zero_mem _

theorem allZero_of_rowSpace_bot {L : List (List ℚ)} (h : rowSpace L = ⊥) :
    ∀ d ∈ L, AllZero d := by
  intro d hd c
  have hm : rowVec d ∈ rowSpace L := Submodule.subset_span ⟨d, hd, rfl⟩
  rw [h, Submodule.mem_bot] at hm
  exact congrFun hm c

theorem canon_allZero {W H : Nat} {p : Nat → Nat} {O : List (List ℚ)}
    (hc : Canon W H H p O) : ∀ d ∈ O, AllZero d := by
  intro d hd
  obtain ⟨i, hi, rfl⟩ := List.mem_iff_getElem.mp hd
  rw [← List.getD_eq_getElem _ [] hi]
  exact hc.zero i (by rw [← hc.len]; exact hi)

theorem canon_of_allZero {M : List (List ℚ)} {W H : Nat} (hv : ValidMatrix M W H)
    (hz : ∀ d ∈ M, AllZero d) : Canon W H H (fun _ => 0) M := by
  have hmem : ∀ j, j < H → M.getD j [] ∈ M := by
    intro j hj
    rw [List.getD_eq_getElem _ _ (by rw [hv.2.2.1]; exact hj)]
    exact List.getElem_mem _
  refine ⟨hv.2.2.1, fun j hj => hv.2.2.2 _ (hmem j hj), fun j hj => hz _ (hmem j hj), ?_, ?_, ?_, ?_⟩
  · intro j h1 h2; omega
  · intro j h1 h2; omega
  · intro i j _ h1 h2; omega
  · intro a b h1 h2 h3; omega

/-- The object on which `solve` is called for an all-zero matrix. -/
theorem load_allZero {srt : List RowData → List RowData} (hs : IsSort srt)
    {M : List (List ℚ)} {W H : Nat} (hv : ValidMatrix M W H) (hz : ∀ d ∈ M, AllZero d)
    (fnz0 : Nat) :
    Rref.load srt fnz0 (bufferOf M) W H = .ok ⟨W, H, fnz0, true, M.map (freshRow W)⟩ ∧
    (⟨W, H, fnz0, true, M.map (freshRow W)⟩ : Rref).getMatrix = M := by
  have hc := canon_of_allZero hv hz
  have hlen : (M.map (freshRow W)).length = H := by simpa using hc.len
  have href : (⟨W, H, fnz0, false, M.map (freshRow W)⟩ : Rref).refreshed
      = M.map (freshRow W) :=
    refreshed_of_fresh hv.1 (fun i hi => (canon_rows hv.1 hc i (by rw [← hlen]; exact hi)).1)
  constructor
  · rw [load_valid srt fnz0 hv, setRowInfo_eq, href, canon_sort_fixed hs hv.1 hc]
    simp [Rref.afterSort, canon_scan hv.1 hc (le_refl _)]
  · rw [getMatrix_eq (W := W) (H := H) rfl rfl hlen
      (fun j hj => (canon_rows hv.1 hc j hj).1.len)]
    exact (initial_pre fnz0 hv).2

/-! ## The comparison operators -/

theorem RowData.Fresh.zeroRow_iff_allZero {W : Nat} {r : RowData} (h : r.Fresh W) :
    r.zeroRow = true ↔ AllZero r.data := by
  constructor
  · exact fun hz => (h.zero hz).2
  · intro ha
    cases hz : r.zeroRow with
    | true => rfl
    | false =>
      obtain ⟨p, _, hl⟩ := h.lead hz
      exact absurd ha hl.not_allZero

theorem RowData.Fresh.lead_iff {W : Nat} {r : RowData} (h : r.Fresh W) (p : Nat) :
    IsLead r.data p ↔ r.zeroRow = false ∧ r.pivotIndex = p := by
  constructor
  · intro hl
    cases hz : r.zeroRow with
    | true => exact absurd (h.zero hz).2 hl.not_allZero
    | false =>
      obtain ⟨q, hq, hl2⟩ := h.lead hz
      rw [hq, hl2.unique hl]
      exact ⟨rfl, rfl⟩
  · rintro ⟨hz, hp⟩
    obtain ⟨q, hq, hl2⟩ := h.lead hz
    have : q = p := by omega
    rw [← this]; exact hl2

theorem lt_iff_flags (a b : RowData) :
    a.lt b = true ↔ (a.zeroRow = true ∧ b.zeroRow = false) ∨
      (a.zeroRow = false ∧ b.zeroRow = false ∧ a.pivotIndex < b.pivotIndex) := by
  unfold RowData.lt RowData.toBool
  cases a.zeroRow <;> cases b.zeroRow <;> simp

theorem eq_iff_flags (a b : RowData) :
    a.eq b = true ↔ (a.zeroRow = true ∧ b.zeroRow = true) ∨
      (a.zeroRow = false ∧ b.zeroRow = false ∧ a.pivotIndex = b.pivotIndex) := by
  unfold RowData.eq RowData.toBool
  cases a.zeroRow <;> cases b.zeroRow <;> simp

theorem gt_eq_lt (a b : RowData) : a.gt b = b.lt a := by
  unfold RowData.gt RowData.lt RowData.toBool
  cases a.zeroRow <;> cases b.zeroRow <;> simp

theorem lt_trans_true (a b c : RowData) (h1 : a.lt b = true) (h2 : b.lt c = true) :
    a.lt c = true := by
  rw [lt_iff_flags] at h1 h2 ⊢
  rcases h1 with ⟨h1, h1'⟩ | ⟨h1, h1', h1''⟩ <;> rcases h2 with ⟨h2, h2'⟩ | ⟨h2, h2', h2''⟩
  · rw [h1'] at h2; cases h2
  · exact Or.inl ⟨h1, h2'⟩
  · rw [h1'] at h2; cases h2
  · exact Or.inr ⟨h1, h2', by omega⟩

theorem trichotomy_flags (a b : RowData) :
    (a.lt b = true ∧ a.eq b = false ∧ a.gt b = false) ∨
    (a.lt b = false ∧ a.eq b = true ∧ a.gt b = false) ∨
    (a.lt b = false ∧ a.eq b = false ∧ a.gt b = true) := by
  unfold RowData.gt RowData.lt RowData.eq RowData.toBool
  cases a.zeroRow <;> cases b.zeroRow <;> simp
  rcases Int.lt_trichotomy a.pivotIndex b.pivotIndex with h | h | h
  · left; exact ⟨h, by omega, by omega⟩
  · right; left; exact ⟨by omega, h, by omega⟩
  · right; right; exact ⟨by omega, by omega, h⟩

/-! ## The checked operations never fail inside `solve` -/

theorem elemChecked_eq (r : RowData) (c : Nat) (hc : c < r.W) :
    r.elemChecked c = some (r.elem c) := by
  unfold RowData.elemChecked
  rw [if_pos ⟨by omega, by omega⟩]

theorem elementaryAddChecked_eq (r r2 : RowData) (c : Nat) (h1 : c < r.W) (h2 : c < r2.W)
    (hne : r.elem c ≠ 0) : r.elementaryAddChecked r2 c = some (r.elementaryAdd r2 c) := by
  unfold RowData.elementaryAddChecked
  rw [elemChecked_eq r2 c h2, elemChecked_eq r c h1]
  simp only [hne, ne_eq, not_false_eq_true, if_true]

theorem forUpChecked_eq {σ : Type} (body : Nat → σ → σ) (bodyC : Nat → σ → Option σ)
    (P : Nat → σ → Prop) :
    ∀ (n lo : Nat) (s : σ), P lo s →
      (∀ i s, lo ≤ i → i < lo + n → P i s → bodyC i s = some (body i s) ∧ P (i + 1) (body i s)) →
      forUpChecked bodyC n lo s = some (forUp body n lo s) := by
  intro n
  induction n with
  | zero => intro lo s _ _; rfl
  | succ n ih =>
    intro lo s h hstep
    obtain ⟨h1, h2⟩ := hstep lo s (le_refl _) (by omega) h
    unfold forUpChecked forUp
    rw [h1]
    exact ih (lo + 1) (body lo s) h2 (fun i s hi hlt hp => hstep i s (by omega) (by omega) hp)

theorem doAnRefPassLoopChecked_eq (fnz : Nat) :
    ∀ i rows,
      (∀ j, fnz < j → j ≤ i →
        (rowAt rows j).pivotIndex = (rowAt rows (j - 1)).pivotIndex →
          ∃ p : Nat, (rowAt rows j).pivotIndex = p ∧ p < (rowAt rows j).W ∧
            p < (rowAt rows (j - 1)).W ∧ (rowAt rows j).elem p ≠ 0) →
      Rref.doAnRefPassLoopChecked fnz i rows = some (Rref.doAnRefPassLoop fnz i rows) := by
  intro i
  induction i with
  | zero => intro rows _; rfl
  | succ i ih =>
    intro rows h
    unfold Rref.doAnRefPassLoopChecked Rref.doAnRefPassLoop
    by_cases hf : fnz < i + 1
    · rw [if_pos hf, if_pos hf]
      by_cases hp : (rowAt rows (i + 1)).pivotIndex = (rowAt rows i).pivotIndex
      · obtain ⟨p, hp1, hp2, hp3, hp4⟩ := h (i + 1) hf (le_refl _) (by simpa using hp)
        simp only [Nat.add_sub_cancel] at hp3
        rw [if_pos hp]
        simp only [hp, if_true]
        rw [← hp, hp1, elementaryAddChecked_eq _ _ p hp2 hp3 hp4]
        simp only
        apply ih
        intro j hj1 hj2 hj4
        have e1 : ∀ X, rowAt (rows.set (i + 1) X) j = rowAt rows j := fun X => by
          rw [rowAt_set, if_neg (by omega)]
        have e2 : ∀ X, rowAt (rows.set (i + 1) X) (j - 1) = rowAt rows (j - 1) := fun X => by
          rw [rowAt_set, if_neg (by omega)]
        rw [e1, e2] at hj4 ⊢
        exact h j hj1 (by omega) hj4
      · rw [if_neg hp]
        simp only [hp, if_false]
        exact ih rows (fun j a b c => h j a (by omega) c)
    · rw [if_neg hf, if_neg hf]

theorem doAnRefPassChecked_eq {W H : Nat} {m : Rref} (hg : m.Good W H)
    (hz : m.zeroMatrix = false) : m.doAnRefPassChecked = some m.doAnRefPass := by
  unfold Rref.doAnRefPassChecked
  rw [doAnRefPassLoopChecked_eq]
  · rfl
  · intro j hj1 hj2 hj4
    have hjH : j < H := by have := hg.eqH; have := hg.fnz_lt hz; omega
    obtain ⟨p, hp, hl, hl2⟩ := Hit.lead hg hz hjH ⟨hj1, hj4⟩
    refine ⟨p, hp, ?_, ?_, ?_⟩
    · rw [(hg.fresh j hjH).width, ← (hg.fresh j hjH).len]; exact hl.lt_length
    · rw [(hg.fresh (j - 1) (by omega)).width, ← (hg.fresh (j - 1) (by omega)).len]
      exact hl2.lt_length
    · rw [elem_natCast]; exact hl.1

theorem clearAbove_W (i : Nat) (idx : Int) (j : Nat) (t : List RowData) (a : Nat) :
    (rowAt (Rref.clearAbove i idx j t) a).W = (rowAt t a).W := by
  unfold Rref.clearAbove
  split_ifs
  · rw [rowAt_set]
    split_ifs with h
    · rw [elementaryAdd_W, h.1]
    · rfl
  · rfl

theorem clearColumn_W (fnz i : Nat) (t : List RowData) (a : Nat) :
    (rowAt (Rref.clearColumn fnz i t) a).W = (rowAt t a).W := by
  unfold Rref.clearColumn
  exact forUp_inv (Rref.clearAbove i (rowAt t i).pivotIndex)
    (fun _ s => (rowAt s a).W = (rowAt t a).W) (i - fnz) fnz t rfl
    (fun j s _ _ hs => (clearAbove_W _ _ _ _ _).trans hs)

theorem clearAboveChecked_eq {W H fnz : Nat} {p : Nat → Nat} {i j : Nat} {t : List RowData}
    (h : ClearInv W H fnz p i j t) (hw : ∀ a, a < H → (rowAt t a).W = W)
    (hj1 : fnz ≤ j) (hj2 : j < i) (hi : i < H) :
    Rref.clearAboveChecked i (p i) j t = some (Rref.clearAbove i (p i) j t) := by
  have hpi : p i < W := by
    rw [← h.ech.dlen i hi]
    exact (h.ech.lead i (by omega) hi).lt_length
  unfold Rref.clearAboveChecked Rref.clearAbove
  rw [elemChecked_eq _ _ (by rw [hw j (by omega)]; exact hpi)]
  simp only
  by_cases hc : (rowAt t j).elem (p i) ≠ 0
  · rw [if_pos hc, if_pos hc, elementaryAddChecked_eq _ _ _
      (by rw [hw j (by omega)]; exact hpi) (by rw [hw i hi]; exact hpi) hc]
    rfl
  · rw [if_neg hc, if_neg hc]

theorem clearColumnChecked_eq {W H fnz : Nat} {p : Nat → Nat} {i : Nat} {t : List RowData}
    (h : ClearInv W H fnz p i fnz t) (hw : ∀ a, a < H → (rowAt t a).W = W)
    (hi1 : fnz ≤ i) (hi : i < H) :
    Rref.clearColumnChecked fnz i t = some (Rref.clearColumn fnz i t) := by
  unfold Rref.clearColumnChecked Rref.clearColumn
  rw [h.ech.piv i hi1 hi]
  exact forUpChecked_eq (Rref.clearAbove i (p i)) (Rref.clearAboveChecked i (p i))
    (fun j s => ClearInv W H fnz p i j s ∧ ∀ a, a < H → (rowAt s a).W = W) (i - fnz) fnz t
    ⟨h, hw⟩ (fun j s hj1 hj2 hP =>
      ⟨clearAboveChecked_eq hP.1 hP.2 hj1 (by omega) hi,
        (clearAbove_step hP.1 hj1 (by omega) hi).1,
        fun a ha => by rw [clearAbove_W]; exact hP.2 a ha⟩)

theorem clearLoopChecked_eq {W H fnz : Nat} {p : Nat → Nat} {s : List RowData}
    (h : Ech W H fnz p s) (hw : ∀ a, a < H → (rowAt s a).W = W) :
    forUpChecked (Rref.clearColumnChecked fnz) (H - fnz) fnz s
      = some (forUp (Rref.clearColumn fnz) (H - fnz) fnz s) :=
  forUpChecked_eq (Rref.clearColumn fnz) (Rref.clearColumnChecked fnz)
    (fun i t => ClearInv W H fnz p i fnz t ∧ ∀ a, a < H → (rowAt t a).W = W) (H - fnz) fnz s
    ⟨⟨h, fun a b ha hab hb => by omega, fun a h1 h2 => by omega⟩, hw⟩
    (fun i t hi1 hi2 hP =>
      ⟨clearColumnChecked_eq hP.1 hP.2 hi1 (by omega),
        (clearColumn_step hP.1 hi1 (by omega)).1,
        fun a ha => by rw [clearColumn_W]; exact hP.2 a ha⟩)

theorem clearLoop_W (fnz n : Nat) (s : List RowData) (a : Nat) :
    (rowAt (forUp (Rref.clearColumn fnz) n fnz s) a).W = (rowAt s a).W :=
  forUp_inv (Rref.clearColumn fnz) (fun _ t => (rowAt t a).W = (rowAt s a).W) n fnz s rfl
    (fun _ _ _ _ ht => (clearColumn_W _ _ _ _).trans ht)

theorem normaliseLoopChecked_eq {W H fnz : Nat} {p : Nat → Nat} {t : List RowData}
    (h : Ech W H fnz p t) (hw : ∀ a, a < H → (rowAt t a).W = W) :
    forUpChecked Rref.normaliseChecked (H - fnz) fnz t
      = some (forUp Rref.normalise (H - fnz) fnz t) :=
  forUpChecked_eq Rref.normalise Rref.normaliseChecked
    (fun i u => ∀ j, i ≤ j → rowAt u j = rowAt t j) (H - fnz) fnz t (fun _ _ => rfl)
    (fun i u hi1 hi2 hP => by
      have hiH : i < H := by omega
      have hpi : p i < W := by
        rw [← h.dlen i hiH]
        exact (h.lead i hi1 hiH).lt_length
      constructor
      · unfold Rref.normaliseChecked Rref.normalise
        rw [hP i (le_refl _), h.piv i hi1 hiH,
          elemChecked_eq _ _ (by rw [hw i hiH]; exact hpi)]
        simp only
        unfold RowData.divAssignChecked
        rw [if_pos (by rw [elem_natCast]; exact (h.lead i hi1 hiH).1)]
        rfl
      · intro j hj
        rw [Rref.normalise, rowAt_set, if_neg (by omega)]
        exact hP j (by omega))

theorem toRrefChecked_eq {W H : Nat} {m : Rref} (hg : m.Good W H)
    (hz : m.zeroMatrix = false) (href : m.isRef = true) :
    m.toRrefChecked = some m.toRref := by
  have hech := ech_of_isRef hg hz href
  have hf : m.firstNonZeroRow ≤ H := Nat.le_of_lt (hg.fnz_lt hz)
  have hw : ∀ a, a < H → (rowAt m.rows a).W = W := fun a ha => (hg.fresh a ha).width
  obtain ⟨h1, _⟩ := clearLoop_spec hech hf
  unfold Rref.toRrefChecked Rref.toRref
  simp only [hg.eqH]
  rw [clearLoopChecked_eq hech hw]
  simp only
  rw [normaliseLoopChecked_eq h1.ech (fun a ha => by rw [clearLoop_W]; exact hw a ha)]
  rfl

theorem solveChecked_eq {srt : List RowData → List RowData} (hs : IsSort srt) {W H : Nat} :
    ∀ fuel m, m.Good W H →
      Rref.solveChecked srt fuel m = (Rref.solve srt fuel m).map some := by
  intro fuel
  induction fuel with
  | zero => intro m _; rfl
  | succ fuel ih =>
    intro m hg
    unfold Rref.solveChecked Rref.solve
    cases hz : m.zeroMatrix with
    | true => simp
    | false =>
      cases href : m.isRef with
      | true => simp [toRrefChecked_eq hg hz href]
      | false =>
        simp only [Bool.false_eq_true, if_false, Bool.not_false, if_true,
          doAnRefPassChecked_eq hg hz]
        exact ih _ (setRowInfo_good hs (doAnRefPass_pre hg hz)).1

theorem load_good {srt : List RowData → List RowData} (hs : IsSort srt)
    {M : List (List ℚ)} {W H : Nat} (hv : ValidMatrix M W H) (fnz0 : Nat) :
    (Rref.setRowInfo srt ⟨W, H, fnz0, false, M.map (freshRow W)⟩).Good W H :=
  (setRowInfo_good hs (initial_pre fnz0 hv).1).1

/-! ## Progress of the passes, and the states in which `setRowInfo` is called -/

/-- In a sorted state whose first `k` adjacent pairs of nonzero rows are strictly ordered,
the first `k` nonzero rows are settled. -/
theorem settled_of_strict {W H : Nat} {m : Rref} (hg : m.Good W H) (hz : m.zeroMatrix = false)
    {k : Nat}
    (hk : ∀ j, m.firstNonZeroRow < j → j < H → j ≤ m.firstNonZeroRow + k →
      (rowAt m.rows (j - 1)).pivotIndex < (rowAt m.rows j).pivotIndex) :
    Settled m.rows k := by
  have hnn : ∀ j, m.firstNonZeroRow ≤ j → j < H → 0 ≤ (rowAt m.rows j).pivotIndex :=
    fun j h1 h2 => (hg.fresh j h2).pivot_nonneg (hg.above hz j h1 h2)
  have hmono : ∀ a b, m.firstNonZeroRow ≤ a → a < b → b ≤ m.firstNonZeroRow + k → b < H →
      (rowAt m.rows a).pivotIndex < (rowAt m.rows b).pivotIndex := by
    intro a b ha hab hb hbH
    have h1 := hk b (by omega) hbH hb
    rcases Nat.eq_or_lt_of_le (Nat.le_sub_one_of_lt hab) with h | h
    · rw [h]; exact h1
    · have := hg.sorted a (b - 1) h (by omega); omega
  intro x hx hc
  by_cases hex : ∃ idx1, m.firstNonZeroRow + k < idx1 ∧ idx1 < H ∧
      (rowAt m.rows idx1).pivotIndex = x
  · obtain ⟨idx1, h1, h2, h3⟩ := hex
    have := le_countP_of_range (fun r => decide (0 ≤ r.pivotIndex ∧ r.pivotIndex < x))
      m.rows m.firstNonZeroRow (m.firstNonZeroRow + k) (by rw [hg.len]; omega)
      (fun idx ha hb => by
        simp only [decide_eq_true_eq]
        refine ⟨hnn idx ha (by omega), ?_⟩
        have e1 := hmono idx (m.firstNonZeroRow + k) ha hb (le_refl _) (by omega)
        have e2 := hg.sorted (m.firstNonZeroRow + k) idx1 h1 h2
        omega)
    omega
  · have hin : ∀ idx, idx < H → (rowAt m.rows idx).pivotIndex = x →
        m.firstNonZeroRow ≤ idx ∧ idx ≤ m.firstNonZeroRow + k := by
      intro idx hidx he
      constructor
      · by_contra hlt
        have := (hg.fresh idx hidx).pivot_of_zero (hg.below hz idx (by omega))
        omega
      · by_contra hgt
        exact hex ⟨idx, by omega, hidx, he⟩
    have hle1 : m.rows.countP (fun r => decide (r.pivotIndex = x)) ≤ 1 := by
      by_cases hex2 : ∃ idx0, idx0 < H ∧ (rowAt m.rows idx0).pivotIndex = x
      · obtain ⟨idx0, h0, h0x⟩ := hex2
        have := countP_le_of_range (fun r => decide (r.pivotIndex = x))
          m.rows idx0 (idx0 + 1) (fun idx hidx hP => by
            simp only [decide_eq_true_eq] at hP
            rw [hg.len] at hidx
            obtain ⟨a1, a2⟩ := hin idx hidx hP
            obtain ⟨b1, b2⟩ := hin idx0 h0 h0x
            rcases Nat.lt_trichotomy idx idx0 with h | h | h
            · have := hmono idx idx0 a1 h b2 h0; omega
            · omega
            · have := hmono idx0 idx b1 h a2 hidx; omega)
        omega
      · have := countP_le_of_range (fun r => decide (r.pivotIndex = x))
          m.rows 0 0 (fun idx hidx hP => by
            simp only [decide_eq_true_eq] at hP
            rw [hg.len] at hidx
            exact absurd ⟨idx, hidx, hP⟩ hex2)
        omega
    omega

/-- A state that is not all zero is not all zero after a pass and `setRowInfo`. -/
theorem pass_not_zero {srt : List RowData → List RowData} (hs : IsSort srt) {W H : Nat}
    {m : Rref} (hg : m.Good W H) (hz : m.zeroMatrix = false) :
    (Rref.setRowInfo srt m.doAnRefPass).Good W H ∧
    (Rref.setRowInfo srt m.doAnRefPass).zeroMatrix = false := by
  obtain ⟨hg2, hperm⟩ := setRowInfo_good hs (doAnRefPass_pre hg hz)
  refine ⟨hg2, ?_⟩
  cases hz2 : (Rref.setRowInfo srt m.doAnRefPass).zeroMatrix with
  | false => rfl
  | true =>
    exfalso
    have hsp : rowsSpace (Rref.setRowInfo srt m.doAnRefPass).rows = rowsSpace m.rows :=
      (rowSpace_perm hperm).trans (doAnRefPass_rowsSpace hg hz)
    have hbot : rowsSpace (Rref.setRowInfo srt m.doAnRefPass).rows = ⊥ := by
      apply rowSpace_allZero
      intro d hd
      obtain ⟨r, hr, rfl⟩ := List.mem_map.mp hd
      exact forall_mem_of_rowAt _ (P := fun r => AllZero r.data)
        (fun i hi => ((hg2.fresh i (by rw [← hg2.len]; exact hi)).zero
          (hg2.zeroM hz2 i (by rw [← hg2.len]; exact hi))).2) r hr
    have hlt := hg.fnz_lt hz
    have hmem := rowVec_mem_rowsSpace m.rows m.firstNonZeroRow (by rw [hg.len]; exact hlt)
    rw [← hsp, hbot, Submodule.mem_bot] at hmem
    obtain ⟨p, _, hl⟩ := (hg.fresh _ hlt).lead (hg.above hz _ (le_refl _) hlt)
    exact hl.1 (congrFun hmem p)

theorem validMatrix_progress : ValidMatrix [[1, 1, 1], [1, 2, 3], [0, 1, 5]] 3 3 := by
  refine ⟨by decide, by decide, rfl, ?_⟩
  intro r hr
  simp only [List.mem_cons, List.mem_singleton, List.not_mem_nil, or_false] at hr
  rcases hr with rfl | rfl | rfl <;> rfl

theorem stateOf_good {M : List (List ℚ)} {W H : Nat} (hv : ValidMatrix M W H) :
    (stateOf M W H).Good W H := load_good insertionSortRows_isSort hv 0

theorem validMatrix_scenarioC : ValidMatrix [[0, 0, 0]] 3 1 := by
  refine ⟨by decide, by decide, rfl, ?_⟩
  intro r hr
  simp only [List.mem_singleton] at hr
  subst hr; rfl

/-! ## Uniqueness of the reduced echelon shape -/

/-- A vector of the row space of a matrix in reduced echelon shape is the combination of the
nonzero rows whose coefficients are its own entries in the pivot columns. -/
theorem canon_recon {W H f : Nat} {p : Nat → Nat} {O : List (List ℚ)} (hc : Canon W H f p O)
    {v : ℕ → ℚ} (hv : v ∈ rowSpace O) :
    v = ∑ j ∈ Finset.Ico f H, v (p j) • rowVec (O.getD j []) := by
  unfold rowSpace at hv
  induction hv using Submodule.span_induction with
  | mem x hx =>
    obtain ⟨d, hd, rfl⟩ := hx
    obtain ⟨i, hi, rfl⟩ := List.mem_iff_getElem.mp hd
    rw [← List.getD_eq_getElem _ [] hi]
    have hiH : i < H := by rw [← hc.len]; exact hi
    by_cases hif : i < f
    · have : rowVec (O.getD i []) = 0 := funext (hc.zero i hif)
      rw [this]
      simp
    · rw [Finset.sum_eq_single i]
      · have : rowVec (O.getD i []) (p i) = 1 := hc.one i (by omega) hiH
        rw [this, one_smul]
      · intro j hj hji
        rw [Finset.mem_Ico] at hj
        have : rowVec (O.getD i []) (p j) = 0 := hc.col i j hiH hj.1 hj.2 (Ne.symm hji)
        rw [this, zero_smul]
      · intro hni
        rw [Finset.mem_Ico] at hni
        omega
  | zero => simp
  | add x y _ _ hx hy =>
    conv_lhs => rw [hx, hy]
    rw [← Finset.sum_add_distrib]
    apply Finset.sum_congr rfl
    intro j _
    rw [Pi.add_apply, add_smul]
  | smul a x _ hx =>
    conv_lhs => rw [hx]
    rw [Finset.smul_sum]
    apply Finset.sum_congr rfl
    intro j _
    rw [Pi.smul_apply, smul_eq_mul, mul_smul]

/-- The first nonzero entry of a vector of the row space sits in a pivot column. -/
theorem canon_lead_mem {W H f : Nat} {p : Nat → Nat} {O : List (List ℚ)}
    (hc : Canon W H f p O) {v : ℕ → ℚ} (hv : v ∈ rowSpace O) {q : Nat} (hq : v q ≠ 0)
    (hz : ∀ c, c < q → v c = 0) : ∃ i, f ≤ i ∧ i < H ∧ p i = q := by
  have e := congrFun (canon_recon hc hv) q
  rw [Finset.sum_apply] at e
  have hne : ∑ j ∈ Finset.Ico f H, (v (p j) • rowVec (O.getD j [])) q ≠ 0 := by
    rw [← e]; exact hq
  obtain ⟨j, hj, hterm⟩ := Finset.exists_ne_zero_of_sum_ne_zero hne
  rw [Finset.mem_Ico] at hj
  rw [Pi.smul_apply, smul_eq_mul] at hterm
  have h1 : v (p j) ≠ 0 := left_ne_zero_of_mul hterm
  have h2 : rowVec (O.getD j []) q ≠ 0 := right_ne_zero_of_mul hterm
  refine ⟨j, hj.1, hj.2, ?_⟩
  rcases Nat.lt_trichotomy (p j) q with h | h | h
  · exact absurd (hz _ h) h1
  · exact h
  · exact absurd ((hc.lead j hj.1 hj.2).2 q h) h2

/-- Two strictly increasing enumerations of the same set of columns, both ending at the
index `H - 1`, start at the same index and agree. -/
theorem strictMono_enum_eq (H f1 f2 : Nat) (p1 p2 : Nat → Nat)
    (m1 : ∀ a b, f1 ≤ a → a < b → b < H → p1 a < p1 b)
    (m2 : ∀ a b, f2 ≤ a → a < b → b < H → p2 a < p2 b)
    (h12 : ∀ j, f1 ≤ j → j < H → ∃ i, f2 ≤ i ∧ i < H ∧ p2 i = p1 j)
    (h21 : ∀ j, f2 ≤ j → j < H → ∃ i, f1 ≤ i ∧ i < H ∧ p1 i = p2 j)
    (hf1 : f1 ≤ H) (hf2 : f2 ≤ H) :
    f1 = f2 ∧ ∀ j, f1 ≤ j → j < H → p1 j = p2 j := by
  have le1 : ∀ a b, f1 ≤ a → a ≤ b → b < H → p1 a ≤ p1 b := by
    intro a b ha hab hb
    rcases Nat.eq_or_lt_of_le hab with h | h
    · rw [h]
    · exact Nat.le_of_lt (m1 a b ha h hb)
  have le2 : ∀ a b, f2 ≤ a → a ≤ b → b < H → p2 a ≤ p2 b := by
    intro a b ha hab hb
    rcases Nat.eq_or_lt_of_le hab with h | h
    · rw [h]
    · exact Nat.le_of_lt (m2 a b ha h hb)
  have key : ∀ t, f1 + t < H → f2 + t < H → p1 (f1 + t) = p2 (f2 + t) := by
    intro t
    induction t using Nat.strong_induction_on with
    | _ t ih =>
      intro h1 h2
      apply le_antisymm
      · obtain ⟨i, hi1, hi2, hi3⟩ := h21 (f2 + t) (by omega) h2
        have hge : f1 + t ≤ i := by
          by_contra hlt
          have hk := ih (i - f1) (by omega) (by omega) (by omega)
          have e1 : f1 + (i - f1) = i := by omega
          rw [e1, hi3] at hk
          have := m2 (f2 + (i - f1)) (f2 + t) (by omega) (by omega) h2
          omega
        have := le1 (f1 + t) i (by omega) hge hi2
        omega
      · obtain ⟨i, hi1, hi2, hi3⟩ := h12 (f1 + t) (by omega) h1
        have hge : f2 + t ≤ i := by
          by_contra hlt
          have hk := ih (i - f2) (by omega) (by omega) (by omega)
          have e1 : f2 + (i - f2) = i := by omega
          rw [e1, hi3] at hk
          have := m1 (f1 + (i - f2)) (f1 + t) (by omega) (by omega) h1
          omega
        have := le2 (f2 + t) i (by omega) hge hi2
        omega
  have hf : f1 = f2 := by
    rcases Nat.lt_trichotomy f1 f2 with h | h | h
    · exfalso
      obtain ⟨i, hi1, hi2, hi3⟩ := h12 (f1 + (H - f2)) (by omega) (by omega)
      have hk := key (i - f2) (by omega) (by omega)
      have e1 : f2 + (i - f2) = i := by omega
      rw [e1, hi3] at hk
      have := m1 (f1 + (i - f2)) (f1 + (H - f2)) (by omega) (by omega) (by omega)
      omega
    · exact h
    · exfalso
      obtain ⟨i, hi1, hi2, hi3⟩ := h21 (f2 + (H - f1)) (by omega) (by omega)
      have hk := key (i - f1) (by omega) (by omega)
      have e1 : f1 + (i - f1) = i := by omega
      rw [e1, hi3] at hk
      have := m2 (f2 + (i - f1)) (f2 + (H - f1)) (by omega) (by omega) (by omega)
      omega
  refine ⟨hf, fun j hj1 hj2 => ?_⟩
  have := key (j - f1) (by omega) (by omega)
  have e1 : f1 + (j - f1) = j := by omega
  have e2 : f2 + (j - f1) = j := by omega
  rwa [e1, e2] at this

theorem list_eq_of_rowVec {d1 d2 : List ℚ} (hlen : d1.length = d2.length)
    (h : rowVec d1 = rowVec d2) : d1 = d2 := by
  apply List.ext_getElem hlen
  intro i h1 h2
  have := congrFun h i
  simp only [rowVec] at this
  rwa [List.getD_eq_getElem d1 0 h1, List.getD_eq_getElem d2 0 h2] at this

theorem getD_mem_rowSpace (O : List (List ℚ)) (j : Nat) (hj : j < O.length) :
    rowVec (O.getD j []) ∈ rowSpace O := by
  apply Submodule.subset_span
  refine ⟨O.getD j [], ?_, rfl⟩
  rw [List.getD_eq_getElem _ _ hj]
  exact List.getElem_mem _

theorem canon_pivots_subset {W H f1 f2 : Nat} {p1 p2 : Nat → Nat} {O1 O2 : List (List ℚ)}
    (hc1 : Canon W H f1 p1 O1) (hc2 : Canon W H f2 p2 O2)
    (hsp : rowSpace O1 = rowSpace O2) :
    ∀ j, f1 ≤ j → j < H → ∃ i, f2 ≤ i ∧ i < H ∧ p2 i = p1 j := by
  intro j hj1 hj2
  have hmem : rowVec (O1.getD j []) ∈ rowSpace O2 := by
    rw [← hsp]
    exact getD_mem_rowSpace O1 j (by rw [hc1.len]; exact hj2)
  have hl := hc1.lead j hj1 hj2
  exact canon_lead_mem hc2 hmem hl.1 hl.2

/-- A row space has one matrix in reduced echelon shape of given dimensions. -/
theorem canon_unique {W H f1 f2 : Nat} {p1 p2 : Nat → Nat} {O1 O2 : List (List ℚ)}
    (hc1 : Canon W H f1 p1 O1) (hc2 : Canon W H f2 p2 O2) (hf1 : f1 ≤ H) (hf2 : f2 ≤ H)
    (hsp : rowSpace O1 = rowSpace O2) : O1 = O2 := by
  obtain ⟨hf, hp⟩ := strictMono_enum_eq H f1 f2 p1 p2 hc1.mono hc2.mono
    (canon_pivots_subset hc1 hc2 hsp) (canon_pivots_subset hc2 hc1 hsp.symm) hf1 hf2
  subst hf
  apply List.ext_getElem (by rw [hc1.len, hc2.len])
  intro j h1 h2
  have hjH : j < H := by rw [← hc1.len]; exact h1
  rw [← List.getD_eq_getElem O1 [] h1, ← List.getD_eq_getElem O2 [] h2]
  by_cases hjf : j < f1
  · rw [allZero_eq_replicate _ (hc1.zero j hjf), allZero_eq_replicate _ (hc2.zero j hjf),
      hc1.width j hjH, hc2.width j hjH]
  · apply list_eq_of_rowVec (by rw [hc1.width j hjH, hc2.width j hjH])
    have hmem : rowVec (O1.getD j []) ∈ rowSpace O2 := by
      rw [← hsp]
      exact getD_mem_rowSpace O1 j h1
    rw [canon_recon hc2 hmem, Finset.sum_eq_single j]
    · rw [← hp j (by omega) hjH]
      have : rowVec (O1.getD j []) (p1 j) = 1 := hc1.one j (by omega) hjH
      rw [this, one_smul]
    · intro i hi hij
      rw [Finset.mem_Ico] at hi
      rw [← hp i hi.1 hi.2]
      have : rowVec (O1.getD j []) (p1 i) = 0 := hc1.col j i hjH hi.1 hi.2 (Ne.symm hij)
      rw [this, zero_smul]
    · intro hni
      rw [Finset.mem_Ico] at hni
      omega

theorem validMatrix_perm {M M2 : List (List ℚ)} {W H : Nat} (hv : ValidMatrix M W H)
    (hp : M2.Perm M) : ValidMatrix M2 W H :=
  ⟨hv.1, hv.2.1, by rw [hp.length_eq]; exact hv.2.2.1, fun r hr => hv.2.2.2 r (hp.subset hr)⟩

/-! ## Further inputs and the iteration bound of the constructor -/

theorem validMatrix_rankOne : ValidMatrix [[1, 2], [2, 4]] 2 2 := by
  refine ⟨by decide, by decide, rfl, ?_⟩
  intro r hr
  simp only [List.mem_cons, List.mem_singleton, List.not_mem_nil, or_false] at hr
  rcases hr with rfl | rfl <;> rfl

theorem validMatrix_wide : ValidMatrix [[1, 2, 3], [2, 4, 7]] 3 2 := by
  refine ⟨by decide, by decide, rfl, ?_⟩
  intro r hr
  simp only [List.mem_cons, List.mem_singleton, List.not_mem_nil, or_false] at hr
  rcases hr with rfl | rfl <;> rfl

/-- What the constructor returns within a bound it returns within every larger bound. -/
theorem ofBuffer_fuel_mono (srt : List RowData → List RowData) (f0 fnz0 : Nat)
    (matrix : Option (List (Option (List ℚ)))) (W H : Int) (m : Rref)
    (h : Rref.ofBuffer srt f0 fnz0 matrix W H = some (.ok m)) (fuel : Nat) (hle : f0 ≤ fuel) :
    Rref.ofBuffer srt fuel fnz0 matrix W H = some (.ok m) := by
  unfold Rref.ofBuffer at h ⊢
  cases hl : Rref.load srt fnz0 matrix W H with
  | error e => rw [hl] at h; exact h
  | ok m0 =>
    rw [hl] at h
    simp only at h ⊢
    cases hsol : Rref.solve srt f0 m0 with
    | none => rw [hsol] at h; simp at h
    | some r =>
      rw [hsol] at h
      rw [solve_fuel_mono srt f0 m0 r hsol fuel hle]
      exact h

/-! ## The claims -/

/-- C1 (reduced invariant).  For every valid `H × W` input matrix, every admissible
`std::sort` and every indeterminate initial `firstNonZeroRow`, the constructor returns (given
at least `H` loop iterations of `solve`) an object in whose matrix every row's first
nonzero entry equals `1` and is the only nonzero entry of its column. -/
theorem reduced_invariant (srt : List RowData → List RowData) (hs : IsSort srt)
    (M : List (List ℚ)) (W H : Nat) (hv : ValidMatrix M W H) (fuel fnz0 : Nat)
    (hfuel : H ≤ fuel) :
    ∃ m, Rref.ofBuffer srt fuel fnz0 (bufferOf M) W H = some (.ok m) ∧
      ∀ i p, i < H → IsLead (m.getMatrix.getD i []) p →
        (m.getMatrix.getD i []).getD p 0 = 1 ∧
        ∀ j, j < H → j ≠ i → (m.getMatrix.getD j []).getD p 0 = 0 := by
  obtain ⟨_, m, _, _, _, _, _, _, hm, _, _, _, f, p, hc, _, _, _⟩ :=
    construct_spec hs hv fuel fnz0 hfuel
  refine ⟨m, hm, fun i q hi hl => ?_⟩
  have hfi : f ≤ i := by
    by_contra hlt
    exact hl.not_allZero (hc.zero i (by omega))
  have hq : q = p i := hl.unique (hc.lead i hfi hi)
  subst hq
  exact ⟨hc.one i hfi hi, fun j hj hji => hc.col j i hj hfi hi hji⟩

/-- Instance of `reduced_invariant`: the matrix `[[2, 4], [1, 1]]` with insertion sort. -/
theorem reduced_invariant_witness :
    ∃ m, Rref.ofBuffer insertionSortRows 2 0 (bufferOf [[2, 4], [1, 1]]) (2 : Nat) (2 : Nat)
        = some (.ok m) ∧
      ∀ i p, i < 2 → IsLead (m.getMatrix.getD i []) p →
        (m.getMatrix.getD i []).getD p 0 = 1 ∧
        ∀ j, j < 2 → j ≠ i → (m.getMatrix.getD j []).getD p 0 = 0 :=
  reduced_invariant insertionSortRows insertionSortRows_isSort [[2, 4], [1, 1]] 2 2
    validMatrix_example 2 0 (le_refl _)

/-- C2 (echelon invariant).  In the matrix of the object returned for a valid input, for
rows at indices `i < j` that both have a first nonzero entry, the pivot column of row `i`
is strictly left of the pivot column of row `j`. -/
theorem echelon_invariant (srt : List RowData → List RowData) (hs : IsSort srt)
    (M : List (List ℚ)) (W H : Nat) (hv : ValidMatrix M W H) (fuel fnz0 : Nat)
    (hfuel : H ≤ fuel) :
    ∃ m, Rref.ofBuffer srt fuel fnz0 (bufferOf M) W H = some (.ok m) ∧
      ∀ i j p q, i < j → j < H → IsLead (m.getMatrix.getD i []) p →
        IsLead (m.getMatrix.getD j []) q → p < q := by
  obtain ⟨_, m, _, _, _, _, _, _, hm, _, _, _, f, p, hc, _, _, _⟩ :=
    construct_spec hs hv fuel fnz0 hfuel
  refine ⟨m, hm, fun i j a b hij hj hla hlb => ?_⟩
  have hfi : f ≤ i := by
    by_contra hlt
    exact hla.not_allZero (hc.zero i (by omega))
  rw [hla.unique (hc.lead i hfi (by omega)), hlb.unique (hc.lead j (by omega) hj)]
  exact hc.mono i j hfi hij hj

/-- Instance of `echelon_invariant`: the matrix `[[2, 4], [1, 1]]` with insertion sort. -/
theorem echelon_invariant_witness :
    ∃ m, Rref.ofBuffer insertionSortRows 2 0 (bufferOf [[2, 4], [1, 1]]) (2 : Nat) (2 : Nat)
        = some (.ok m) ∧
      ∀ i j p q, i < j → j < 2 → IsLead (m.getMatrix.getD i []) p →
        IsLead (m.getMatrix.getD j []) q → p < q :=
  echelon_invariant insertionSortRows insertionSortRows_isSort [[2, 4], [1, 1]] 2 2
    validMatrix_example 2 0 (le_refl _)

/-- C3 (row-equivalence preservation).  The matrix of the object returned for a valid input
has the row space of the input: the sort permutes the rows, and every scalar used by
`doAnRefPass` and `toRref` is nonzero. -/
theorem row_space_preserved (srt : List RowData → List RowData) (hs : IsSort srt)
    (M : List (List ℚ)) (W H : Nat) (hv : ValidMatrix M W H) (fuel fnz0 : Nat)
    (hfuel : H ≤ fuel) :
    ∃ m, Rref.ofBuffer srt fuel fnz0 (bufferOf M) W H = some (.ok m) ∧
      rowSpace m.getMatrix = rowSpace M := by
  obtain ⟨_, m, _, _, _, _, _, _, hm, _, _, hsp, _⟩ := construct_spec hs hv fuel fnz0 hfuel
  exact ⟨m, hm, hsp⟩

/-- Instance of `row_space_preserved`: the matrix `[[2, 4], [1, 1]]` with insertion sort. -/
theorem row_space_preserved_witness :
    ∃ m, Rref.ofBuffer insertionSortRows 2 0 (bufferOf [[2, 4], [1, 1]]) (2 : Nat) (2 : Nat)
        = some (.ok m) ∧
      rowSpace m.getMatrix = rowSpace [[2, 4], [1, 1]] :=
  row_space_preserved insertionSortRows insertionSortRows_isSort [[2, 4], [1, 1]] 2 2
    validMatrix_example 2 0 (le_refl _)

/-- C4 (idempotence).  The matrix exported by `getMatrix` from the object built for a valid
input `M` is a fixed point: the constructor run on it (same `std::sort`, any indeterminate
initial `firstNonZeroRow`, at least one iteration of `solve`) returns an object whose
`getMatrix` is the same list of rows in the same order. -/
theorem idempotent (srt : List RowData → List RowData) (hs : IsSort srt)
    (M : List (List ℚ)) (W H : Nat) (hv : ValidMatrix M W H) (fuel fnz0 : Nat)
    (hfuel : H ≤ fuel) :
    ∃ m, Rref.ofBuffer srt fuel fnz0 (bufferOf M) W H = some (.ok m) ∧
      ∀ fuel2 fnz2, 1 ≤ fuel2 →
        ∃ m2, Rref.ofBuffer srt fuel2 fnz2 (bufferOf m.getMatrix) W H = some (.ok m2) ∧
          m2.getMatrix = m.getMatrix := by
  obtain ⟨_, m, _, _, _, _, _, _, hm, _, _, _, f, p, hc, hf, _, _⟩ :=
    construct_spec hs hv fuel fnz0 hfuel
  exact ⟨m, hm, fun fuel2 fnz2 h2 => canon_fixed hs hv.1 hv.2.1 hc hf fuel2 fnz2 h2⟩

/-- Instance of `idempotent`: the matrix `[[2, 4], [1, 1]]` with insertion sort. -/
theorem idempotent_witness :
    ∃ m, Rref.ofBuffer insertionSortRows 2 0 (bufferOf [[2, 4], [1, 1]]) (2 : Nat) (2 : Nat)
        = some (.ok m) ∧
      ∀ fuel2 fnz2, 1 ≤ fuel2 →
        ∃ m2, Rref.ofBuffer insertionSortRows fuel2 fnz2 (bufferOf m.getMatrix)
            (2 : Nat) (2 : Nat) = some (.ok m2) ∧
          m2.getMatrix = m.getMatrix :=
  idempotent insertionSortRows insertionSortRows_isSort [[2, 4], [1, 1]] 2 2
    validMatrix_example 2 0 (le_refl _)

/-- C5, as amended (Scenario D).  Reducing `[[1,2,3],[4,5,6],[7,8,9]]` yields exactly
`[[0,0,0],[1,0,-1],[0,1,2]]`: the zero row is the first row, not the last.  The entries being
exact rationals, this holds for every admissible `std::sort`, whichever order it gives to rows
that compare equal. -/
theorem scenarioD (srt : List RowData → List RowData) (hs : IsSort srt) (fuel fnz0 : Nat)
    (hfuel : 3 ≤ fuel) :
    ∃ m, Rref.ofBuffer srt fuel fnz0 (bufferOf [[1, 2, 3], [4, 5, 6], [7, 8, 9]])
        (3 : Nat) (3 : Nat) = some (.ok m) ∧
      m.getMatrix = [[0, 0, 0], [1, 0, -1], [0, 1, 2]] :=
  ofBuffer_of_outcomes hs validMatrix_scenarioD 3 _ outcomes_scenarioD fuel fnz0 hfuel

/-- Instance of `scenarioD`: insertion sort, three iterations of `solve`. -/
theorem scenarioD_witness :
    ∃ m, Rref.ofBuffer insertionSortRows 3 0 (bufferOf [[1, 2, 3], [4, 5, 6], [7, 8, 9]])
        (3 : Nat) (3 : Nat) = some (.ok m) ∧
      m.getMatrix = [[0, 0, 0], [1, 0, -1], [0, 1, 2]] :=
  scenarioD insertionSortRows insertionSortRows_isSort 3 0 (le_refl _)

/-- C5 as stated fails: with insertion sort the matrix returned for
`[[1,2,3],[4,5,6],[7,8,9]]` is not `[[1,0,-1],[0,1,2],[0,0,0]]`. -/
theorem scenarioD_counterexample :
    ∃ m, Rref.ofBuffer insertionSortRows 3 0 (bufferOf [[1, 2, 3], [4, 5, 6], [7, 8, 9]])
        (3 : Nat) (3 : Nat) = some (.ok m) ∧
      m.getMatrix ≠ [[1, 0, -1], [0, 1, 2], [0, 0, 0]] :=
  ⟨⟨3, 3, 1, false, [⟨3, [0, 0, 0], -1, true⟩, ⟨3, [1, 0, -1], 0, false⟩,
      ⟨3, [0, 1, 2], 1, false⟩]⟩,
    by with_unfolding_all rfl, by with_unfolding_all decide⟩

/-- C6 (Scenario B).  For every admissible `std::sort`, whichever of the two rows of
`[[2,4],[1,1]]` it places first, the reduction yields exactly `[[1,0],[0,1]]`. -/
theorem scenarioB (srt : List RowData → List RowData) (hs : IsSort srt) (fuel fnz0 : Nat)
    (hfuel : 2 ≤ fuel) :
    ∃ m, Rref.ofBuffer srt fuel fnz0 (bufferOf [[2, 4], [1, 1]]) (2 : Nat) (2 : Nat)
        = some (.ok m) ∧
      m.getMatrix = [[1, 0], [0, 1]] :=
  ofBuffer_of_outcomes hs validMatrix_scenarioB 2 _ outcomes_scenarioB fuel fnz0 hfuel

/-- Instance of `scenarioB`: insertion sort, two iterations of `solve`. -/
theorem scenarioB_witness :
    ∃ m, Rref.ofBuffer insertionSortRows 2 0 (bufferOf [[2, 4], [1, 1]]) (2 : Nat) (2 : Nat)
        = some (.ok m) ∧
      m.getMatrix = [[1, 0], [0, 1]] :=
  scenarioB insertionSortRows insertionSortRows_isSort 2 0 (le_refl _)

/-- C7, as amended (zero-row placement).  In the matrix of the object returned for a valid
input no all-zero row comes after a row that is not all zero; and when the matrix is not the
zero matrix (`zeroMatrix` is false), the all-zero rows are exactly the rows at the indices
below `firstNonZeroRow`. -/
theorem zero_rows_first (srt : List RowData → List RowData) (hs : IsSort srt)
    (M : List (List ℚ)) (W H : Nat) (hv : ValidMatrix M W H) (fuel fnz0 : Nat)
    (hfuel : H ≤ fuel) :
    ∃ m, Rref.ofBuffer srt fuel fnz0 (bufferOf M) W H = some (.ok m) ∧
      (∀ i j, i < j → j < H → AllZero (m.getMatrix.getD j []) →
        AllZero (m.getMatrix.getD i [])) ∧
      (m.zeroMatrix = false → ∀ i, i < H →
        (AllZero (m.getMatrix.getD i []) ↔ i < m.firstNonZeroRow)) := by
  obtain ⟨_, m, _, _, _, _, _, _, hm, _, _, _, f, p, hc, _, hnz, _⟩ :=
    construct_spec hs hv fuel fnz0 hfuel
  have hiff : ∀ i, i < H → (AllZero (m.getMatrix.getD i []) ↔ i < f) := by
    intro i hi
    constructor
    · intro hz
      by_contra hge
      exact (hc.lead i (by omega) hi).not_allZero hz
    · exact hc.zero i
  refine ⟨m, hm, fun i j hij hj hz => ?_, fun hzm i hi => ?_⟩
  · exact (hiff i (by omega)).mpr (by have := (hiff j hj).mp hz; omega)
  · rw [← (hnz hzm).1]; exact hiff i hi

/-- Instance of `zero_rows_first` with an all-zero row to place: for `[[1, 2], [2, 4]]` and
insertion sort the returned rows are `[0, 0]`, `[1, 2]`, with `firstNonZeroRow = 1`. -/
theorem zero_rows_first_witness :
    Rref.ofBuffer insertionSortRows 2 0 (bufferOf [[1, 2], [2, 4]]) (2 : Nat) (2 : Nat)
        = some (.ok ⟨2, 2, 1, false, [⟨2, [0, 0], -1, true⟩, ⟨2, [1, 2], 0, false⟩]⟩) ∧
    ∃ m, Rref.ofBuffer insertionSortRows 2 0 (bufferOf [[1, 2], [2, 4]]) (2 : Nat) (2 : Nat)
        = some (.ok m) ∧
      (∀ i j, i < j → j < 2 → AllZero (m.getMatrix.getD j []) →
        AllZero (m.getMatrix.getD i [])) ∧
      (m.zeroMatrix = false → ∀ i, i < 2 →
        (AllZero (m.getMatrix.getD i []) ↔ i < m.firstNonZeroRow)) :=
  ⟨by with_unfolding_all rfl,
    zero_rows_first insertionSortRows insertionSortRows_isSort [[1, 2], [2, 4]] 2 2
      validMatrix_rankOne 2 0 (le_refl _)⟩

/-- C7 as stated fails on the `1 × 1` zero matrix: `Rref::setRowInfo` leaves
`firstNonZeroRow` unassigned when every row is zero, so with the indeterminate initial value
`0` the all-zero row at index `0` is not below `firstNonZeroRow`. -/
theorem zero_rows_first_counterexample :
    ∃ m, Rref.ofBuffer insertionSortRows 1 0 (bufferOf [[0]]) (1 : Nat) (1 : Nat)
        = some (.ok m) ∧
      AllZero (m.getMatrix.getD 0 []) ∧ ¬ 0 < m.firstNonZeroRow :=
  ⟨⟨1, 1, 0, true, [⟨1, [0], -1, true⟩]⟩, by with_unfolding_all rfl,
    allZero_singleton_zero, by decide⟩

/-- C8 (termination).  On a valid input of height `H`, `solve` returns within any bound of
at least `H` loop iterations, having called `doAnRefPass` at most `H` times and `toRref` at
most once. -/
theorem solve_terminates (srt : List RowData → List RowData) (hs : IsSort srt)
    (M : List (List ℚ)) (W H : Nat) (hv : ValidMatrix M W H) (fuel fnz0 : Nat)
    (hfuel : H ≤ fuel) :
    ∃ m0 m passes finishes, Rref.load srt fnz0 (bufferOf M) W H = .ok m0 ∧
      Rref.solve srt fuel m0 = some m ∧
      Rref.solveCount srt fuel m0 = some (m, passes, finishes) ∧
      passes ≤ H ∧ finishes ≤ 1 := by
  obtain ⟨m0, m, a, b, h0, hc, ha, hb, _⟩ := construct_spec hs hv fuel fnz0 hfuel
  refine ⟨m0, m, a, b, h0, ?_, hc, ha, hb⟩
  rw [← solveCount_fst, hc]; rfl

/-- Instance of `solve_terminates`: the matrix `[[2, 4], [1, 1]]` with insertion sort. -/
theorem solve_terminates_witness :
    ∃ m0 m passes finishes,
      Rref.load insertionSortRows 0 (bufferOf [[2, 4], [1, 1]]) (2 : Nat) (2 : Nat) = .ok m0 ∧
      Rref.solve insertionSortRows 2 m0 = some m ∧
      Rref.solveCount insertionSortRows 2 m0 = some (m, passes, finishes) ∧
      passes ≤ 2 ∧ finishes ≤ 1 :=
  solve_terminates insertionSortRows insertionSortRows_isSort [[2, 4], [1, 1]] 2 2
    validMatrix_example 2 0 (le_refl _)

/-- C9 (dimension preservation).  Every object the constructor returns for a valid `H × W`
input, within whatever number of iterations of `solve`, holds `H` rows of `W` entries each,
with `W` and `H` unchanged, and `getMatrix` exports exactly these `H` rows of `W` entries. -/
theorem dimensions_preserved (srt : List RowData → List RowData) (hs : IsSort srt)
    (M : List (List ℚ)) (W H : Nat) (hv : ValidMatrix M W H) (fuel fnz0 : Nat) (m : Rref)
    (hret : Rref.ofBuffer srt fuel fnz0 (bufferOf M) W H = some (.ok m)) :
    m.W = W ∧ m.H = H ∧
      m.rows.length = H ∧ (∀ r ∈ m.rows, r.data.length = W) ∧
      m.getMatrix = m.rows.map RowData.data ∧
      m.getMatrix.length = H ∧ (∀ d ∈ m.getMatrix, d.length = W) := by
  obtain ⟨_, m2, _, _, _, _, _, _, hm2, hWH, hgm, _, f, p, hc, _, _, _⟩ :=
    construct_spec hs hv (max fuel H) fnz0 (le_max_right _ _)
  have e : m2 = m := by
    have := ofBuffer_fuel_mono srt fuel fnz0 (bufferOf M) W H m hret (max fuel H)
      (le_max_left _ _)
    rw [hm2] at this
    injection this with this
    injection this
  subst e
  have hall : ∀ d ∈ m2.getMatrix, d.length = W := by
    intro d hd
    obtain ⟨i, hi, rfl⟩ := List.mem_iff_getElem.mp hd
    rw [← List.getD_eq_getElem _ [] hi]
    exact hc.width i (by rw [← hc.len]; exact hi)
  have hlen : m2.rows.length = H := by
    have := hc.len
    rw [hgm, List.length_map] at this
    exact this
  refine ⟨hWH.1, hWH.2, hlen, fun r hr => ?_, hgm, hc.len, hall⟩
  exact hall _ (by rw [hgm]; exact List.mem_map_of_mem _ hr)

/-- Instance of `dimensions_preserved`: the `2 × 3` matrix `[[1, 2, 3], [2, 4, 7]]` with
insertion sort, for which the constructor returns the rows `[1, 2, 0]`, `[0, 0, 1]`. -/
theorem dimensions_preserved_witness :
    ∃ m, Rref.ofBuffer insertionSortRows 2 0 (bufferOf [[1, 2, 3], [2, 4, 7]])
        (3 : Nat) (2 : Nat) = some (.ok m) ∧
      m.rows.map RowData.data = [[1, 2, 0], [0, 0, 1]] ∧
      m.W = 3 ∧ m.H = 2 ∧
      m.rows.length = 2 ∧ (∀ r ∈ m.rows, r.data.length = 3) ∧
      m.getMatrix = m.rows.map RowData.data ∧
      m.getMatrix.length = 2 ∧ (∀ d ∈ m.getMatrix, d.length = 3) :=
  ⟨⟨3, 2, 0, false, [⟨3, [1, 2, 0], 0, false⟩, ⟨3, [0, 0, 1], 2, false⟩]⟩,
    by with_unfolding_all rfl, rfl,
    dimensions_preserved insertionSortRows insertionSortRows_isSort [[1, 2, 3], [2, 4, 7]] 3 2
      validMatrix_wide 2 0 _ (by with_unfolding_all rfl)⟩

/-- C10 (row-length validation).  `RowData(tokens, W)` throws exactly when the token count
is zero or differs from `W`, and what it throws is a `std::invalid_argument`; hence the
text constructor, on tokenised lines one of which has a token count other than that of
the first line, throws a `std::invalid_argument` and returns no object. -/
theorem row_length_validation (atof : String → ℚ) :
    (∀ (numbers : List String) (W : Int),
      ((∃ e, RowData.ofTokens atof numbers W = .error e) ↔
        (numbers.length = 0 ∨ (numbers.length : Int) ≠ W)) ∧
      (∀ e, RowData.ofTokens atof numbers W = .error e → e.isInvalidArgument = true)) ∧
    (∀ (srt : List RowData → List RowData) (fuel fnz0 : Nat) (first : List String)
      (rest : List (List String)), (∃ l ∈ rest, l.length ≠ first.length) →
      ∃ e, Rref.ofLines srt fuel fnz0 atof (first :: rest) = some (.error e) ∧
        e.isInvalidArgument = true) := by
  refine ⟨fun numbers W => ⟨ofTokens_error_iff atof numbers W,
    fun e => ofTokens_error_invalid atof numbers W e⟩, ?_⟩
  intro srt fuel fnz0 first rest h
  unfold Rref.ofLines Rref.readLines
  simp only [if_true]
  cases hr : RowData.ofTokens atof first (first.length : Int) with
  | error e => exact ⟨e, rfl, ofTokens_error_invalid atof first _ e hr⟩
  | ok r =>
    simp only
    obtain ⟨l, hl, hne⟩ := h
    obtain ⟨e, he, hinv⟩ := readLines_mismatch atof rest (first.length : Int) ([] ++ [r])
      (by omega) ⟨l, hl, by omega⟩
    rw [he]
    exact ⟨e, rfl, hinv⟩

/-- Instance of `row_length_validation`: a two-token line followed by a one-token line. -/
theorem row_length_validation_witness :
    ∃ e, Rref.ofLines insertionSortRows 2 0 (fun _ => 0) [["1", "2"], ["3"]]
        = some (.error e) ∧ e.isInvalidArgument = true :=
  (row_length_validation (fun _ => 0)).2 insertionSortRows 2 0 ["1", "2"] [["3"]]
    ⟨["3"], List.mem_singleton.mpr rfl, by decide⟩

/-- C11 (buffer construction validation).  When the buffer is absent, or `W ≤ 0`, or
`H ≤ 0`, the constructor throws a `std::invalid_argument` before any row is built: the
throw happens in the part that precedes `solve`, whatever the bound on iterations. -/
theorem buffer_validation (srt : List RowData → List RowData) (fuel fnz0 : Nat)
    (matrix : Option (List (Option (List ℚ)))) (W H : Int)
    (h : matrix = none ∨ W ≤ 0 ∨ H ≤ 0) :
    ∃ e, Rref.load srt fnz0 matrix W H = .error e ∧
      Rref.ofBuffer srt fuel fnz0 matrix W H = some (.error e) ∧
      e.isInvalidArgument = true ∧ (e = .nullMatrix ∨ e = .invalidSize) := by
  cases matrix with
  | none => exact ⟨.nullMatrix, rfl, rfl, rfl, Or.inl rfl⟩
  | some mat =>
    have h2 : W ≤ 0 ∨ H ≤ 0 := by
      rcases h with h | h
      · cases h
      · exact h
    refine ⟨.invalidSize, ?_, ?_, rfl, Or.inr rfl⟩
    · simp [Rref.load, h2]
    · simp [Rref.ofBuffer, Rref.load, h2]

/-- Instance of `buffer_validation`: an absent buffer. -/
theorem buffer_validation_witness :
    ∃ e, Rref.load insertionSortRows 0 none 2 2 = .error e ∧
      Rref.ofBuffer insertionSortRows 5 0 none 2 2 = some (.error e) ∧
      e.isInvalidArgument = true ∧ (e = .nullMatrix ∨ e = .invalidSize) :=
  buffer_validation insertionSortRows 5 0 none 2 2 (Or.inl rfl)

/-- C12 (all-zero case).  On a valid input whose entries are all zero, `solve` returns at
once, with no call of `doAnRefPass` and none of `toRref`; the matrix returned is the input
and `zeroMatrix` is true.  Conversely, if the object returned for a valid input has
`zeroMatrix` true, every entry of the input is zero. -/
theorem all_zero_case (srt : List RowData → List RowData) (hs : IsSort srt)
    (M : List (List ℚ)) (W H : Nat) (hv : ValidMatrix M W H) (fuel fnz0 : Nat)
    (hfuel : H ≤ fuel) :
    ((∀ d ∈ M, AllZero d) →
      ∃ m0 m, Rref.load srt fnz0 (bufferOf M) W H = .ok m0 ∧
        Rref.solveCount srt fuel m0 = some (m, 0, 0) ∧
        Rref.ofBuffer srt fuel fnz0 (bufferOf M) W H = some (.ok m) ∧
        m.getMatrix = M ∧ m.zeroMatrix = true) ∧
    (∀ m, Rref.ofBuffer srt fuel fnz0 (bufferOf M) W H = some (.ok m) →
      m.zeroMatrix = true → ∀ d ∈ M, AllZero d) := by
  constructor
  · intro hz
    obtain ⟨hl, hg⟩ := load_allZero hs hv hz fnz0
    obtain ⟨n, rfl⟩ : ∃ n, fuel = n + 1 := ⟨fuel - 1, by have := hv.2.1; omega⟩
    refine ⟨_, ⟨W, H, fnz0, true, M.map (freshRow W)⟩, hl, ?_, ?_, hg, rfl⟩
    · simp [Rref.solveCount]
    · rw [Rref.ofBuffer, hl]
      simp [Rref.solve]
  · intro m hm hzm
    obtain ⟨_, m', _, _, _, _, _, _, hm', _, _, hsp, f, p, hc, _, _, hfH⟩ :=
      construct_spec hs hv fuel fnz0 hfuel
    rw [hm] at hm'
    have e : m = m' := by
      have := Option.some.inj hm'
      exact Except.ok.inj this
    subst e
    have hf := hfH hzm
    subst hf
    apply allZero_of_rowSpace_bot
    rw [← hsp]
    exact rowSpace_allZero (canon_allZero hc)

/-- Instance of `all_zero_case` (Scenario C): the matrix `[[0, 0, 0]]` with insertion
sort. -/
theorem all_zero_case_witness :
    ((∀ d ∈ [[(0 : ℚ), 0, 0]], AllZero d) →
      ∃ m0 m, Rref.load insertionSortRows 0 (bufferOf [[0, 0, 0]]) (3 : Nat) (1 : Nat) = .ok m0 ∧
        Rref.solveCount insertionSortRows 1 m0 = some (m, 0, 0) ∧
        Rref.ofBuffer insertionSortRows 1 0 (bufferOf [[0, 0, 0]]) (3 : Nat) (1 : Nat)
          = some (.ok m) ∧
        m.getMatrix = [[0, 0, 0]] ∧ m.zeroMatrix = true) ∧
    (∀ m, Rref.ofBuffer insertionSortRows 1 0 (bufferOf [[0, 0, 0]]) (3 : Nat) (1 : Nat)
        = some (.ok m) →
      m.zeroMatrix = true → ∀ d ∈ [[(0 : ℚ), 0, 0]], AllZero d) :=
  all_zero_case insertionSortRows insertionSortRows_isSort [[0, 0, 0]] 3 1
    validMatrix_scenarioC 1 0 (le_refl _)

/-- C13 (ordering relation).  For rows `a`, `b`, `c` of width `W` with fresh metadata:
`a < b` iff `a` is all zero and `b` is not, or both have a first nonzero entry and that of
`a` is in a column strictly left of that of `b`; `a == b` iff both are all zero or both have
their first nonzero entry in the same column; `a > b` is `b < a`; exactly one of `a < b`,
`a == b`, `a > b` holds; and `<` is transitive. -/
theorem ordering_relation (W : Nat) (a b c : RowData) (ha : a.Fresh W) (hb : b.Fresh W)
    (_hc : c.Fresh W) :
    (a.lt b = true ↔ (AllZero a.data ∧ ¬ AllZero b.data) ∨
      (∃ p q, IsLead a.data p ∧ IsLead b.data q ∧ p < q)) ∧
    (a.eq b = true ↔ (AllZero a.data ∧ AllZero b.data) ∨
      (∃ p, IsLead a.data p ∧ IsLead b.data p)) ∧
    (a.gt b = b.lt a) ∧
    ((a.lt b = true ∧ a.eq b = false ∧ a.gt b = false) ∨
      (a.lt b = false ∧ a.eq b = true ∧ a.gt b = false) ∨
      (a.lt b = false ∧ a.eq b = false ∧ a.gt b = true)) ∧
    (a.lt b = true → b.lt c = true → a.lt c = true) := by
  have hza := ha.zeroRow_iff_allZero
  have hzb := hb.zeroRow_iff_allZero
  have hna : a.zeroRow = false ↔ ¬ AllZero a.data := by
    rw [← hza]; cases a.zeroRow <;> simp
  have hnb : b.zeroRow = false ↔ ¬ AllZero b.data := by
    rw [← hzb]; cases b.zeroRow <;> simp
  refine ⟨?_, ?_, gt_eq_lt a b, trichotomy_flags a b, lt_trans_true a b c⟩
  · rw [lt_iff_flags]
    constructor
    · rintro (⟨h1, h2⟩ | ⟨h1, h2, h3⟩)
      · exact Or.inl ⟨hza.mp h1, hnb.mp h2⟩
      · obtain ⟨p, hp, hlp⟩ := ha.lead h1
        obtain ⟨q, hq, hlq⟩ := hb.lead h2
        exact Or.inr ⟨p, q, hlp, hlq, by omega⟩
    · rintro (⟨h1, h2⟩ | ⟨p, q, hlp, hlq, hpq⟩)
      · exact Or.inl ⟨hza.mpr h1, hnb.mpr h2⟩
      · obtain ⟨h1, h1'⟩ := (ha.lead_iff p).mp hlp
        obtain ⟨h2, h2'⟩ := (hb.lead_iff q).mp hlq
        exact Or.inr ⟨h1, h2, by omega⟩
  · rw [eq_iff_flags]
    constructor
    · rintro (⟨h1, h2⟩ | ⟨h1, h2, h3⟩)
      · exact Or.inl ⟨hza.mp h1, hzb.mp h2⟩
      · obtain ⟨p, hp, hlp⟩ := ha.lead h1
        obtain ⟨q, hq, hlq⟩ := hb.lead h2
        have : p = q := by omega
        subst this
        exact Or.inr ⟨p, hlp, hlq⟩
    · rintro (⟨h1, h2⟩ | ⟨p, hlp, hlq⟩)
      · exact Or.inl ⟨hza.mpr h1, hzb.mpr h2⟩
      · obtain ⟨h1, h1'⟩ := (ha.lead_iff p).mp hlp
        obtain ⟨h2, h2'⟩ := (hb.lead_iff p).mp hlq
        exact Or.inr ⟨h1, h2, by omega⟩

/-- Instance of `ordering_relation`: the rows built from `[0, 0]`, `[1, 0]` and `[0, 1]`. -/
theorem ordering_relation_witness :
    ((freshRow 2 [0, 0]).lt (freshRow 2 [1, 0]) = true ↔
      (AllZero (freshRow 2 [0, 0]).data ∧ ¬ AllZero (freshRow 2 [1, 0]).data) ∨
      (∃ p q, IsLead (freshRow 2 [0, 0]).data p ∧ IsLead (freshRow 2 [1, 0]).data q ∧ p < q)) ∧
    ((freshRow 2 [0, 0]).eq (freshRow 2 [1, 0]) = true ↔
      (AllZero (freshRow 2 [0, 0]).data ∧ AllZero (freshRow 2 [1, 0]).data) ∨
      (∃ p, IsLead (freshRow 2 [0, 0]).data p ∧ IsLead (freshRow 2 [1, 0]).data p)) ∧
    ((freshRow 2 [0, 0]).gt (freshRow 2 [1, 0]) = (freshRow 2 [1, 0]).lt (freshRow 2 [0, 0])) ∧
    (((freshRow 2 [0, 0]).lt (freshRow 2 [1, 0]) = true ∧
        (freshRow 2 [0, 0]).eq (freshRow 2 [1, 0]) = false ∧
        (freshRow 2 [0, 0]).gt (freshRow 2 [1, 0]) = false) ∨
      ((freshRow 2 [0, 0]).lt (freshRow 2 [1, 0]) = false ∧
        (freshRow 2 [0, 0]).eq (freshRow 2 [1, 0]) = true ∧
        (freshRow 2 [0, 0]).gt (freshRow 2 [1, 0]) = false) ∨
      ((freshRow 2 [0, 0]).lt (freshRow 2 [1, 0]) = false ∧
        (freshRow 2 [0, 0]).eq (freshRow 2 [1, 0]) = false ∧
        (freshRow 2 [0, 0]).gt (freshRow 2 [1, 0]) = true)) ∧
    ((freshRow 2 [0, 0]).lt (freshRow 2 [1, 0]) = true →
      (freshRow 2 [1, 0]).lt (freshRow 2 [0, 1]) = true →
      (freshRow 2 [0, 0]).lt (freshRow 2 [0, 1]) = true) :=
  ordering_relation 2 (freshRow 2 [0, 0]) (freshRow 2 [1, 0]) (freshRow 2 [0, 1])
    (freshRow_spec (W := 2) (by decide) [0, 0] rfl).1
    (freshRow_spec (W := 2) (by decide) [1, 0] rfl).1
    (freshRow_spec (W := 2) (by decide) [0, 1] rfl).1

/-- C14 fails on a row that was all zero and has been changed: `RowData::setRowInfo` sets
`zeroRow` to true on an all-zero row but never back to false.  The row built from `[0, 0]`
has `zeroRow` true; after `+=` with the row built from `[1, 0]` its entries are `[1, 0]`,
and `setRowInfo` then gives `pivotIndex = 0` with `zeroRow` still true, so that
`operator bool` is false on a row that is not all zero. -/
theorem setRowInfo_keeps_zeroRow :
    ∃ z o, RowData.ofBuffer (some [0, 0]) 2 = .ok z ∧
      RowData.ofBuffer (some [1, 0]) 2 = .ok o ∧
      z.zeroRow = true ∧
      (z.addAssign o).data = [1, 0] ∧
      (z.addAssign o).setRowInfo.pivotIndex = 0 ∧
      (z.addAssign o).setRowInfo.zeroRow = true ∧
      (z.addAssign o).setRowInfo.toBool = false :=
  ⟨⟨2, [0, 0], -1, true⟩, ⟨2, [1, 0], 0, false⟩, by with_unfolding_all rfl,
    by with_unfolding_all rfl, rfl, by with_unfolding_all decide,
    by with_unfolding_all decide, by with_unfolding_all decide,
    by with_unfolding_all decide⟩

/-- C15 (elementary combine).  For rows `this`, `other` of the same width `W` and a column
`c < W` with `this[c] ≠ 0`, `this.elementaryAdd(other, c)` leaves in `this` the entries
`k * this[j] + other[j]` with `k = -other[c] / this[c]`, so that `this[c]` is `0`; the width
and the metadata of `this` are unchanged (`other` is only read: the model returns the new
`this`). -/
theorem elementary_combine (r other : RowData) (W c : Nat) (hr : r.data.length = W)
    (ho : other.data.length = W) (hW : r.W = W) (_hc : c < W) (hne : r.elem c ≠ 0) :
    (∀ j : Nat, (r.elementaryAdd other c).elem j
      = (-(other.elem c) / r.elem c) * r.elem j + other.elem j) ∧
    (r.elementaryAdd other c).elem c = 0 ∧
    (r.elementaryAdd other c).W = W ∧ (r.elementaryAdd other c).data.length = W ∧
    (r.elementaryAdd other c).pivotIndex = r.pivotIndex ∧
    (r.elementaryAdd other c).zeroRow = r.zeroRow := by
  have hlen : other.data.length = r.data.length := by rw [hr, ho]
  have hj : ∀ j : Nat, (r.elementaryAdd other c).elem j
      = (-(other.elem c) / r.elem c) * r.elem j + other.elem j := by
    intro j
    rw [elem_natCast, elementaryAdd_getD _ _ _ _ hlen]
    simp only [elem_natCast]
    ring
  refine ⟨hj, ?_, hW, by rw [elementaryAdd_length, hr], rfl, rfl⟩
  rw [hj c]
  field_simp

/-- Instance of `elementary_combine`: `this = [2, 4]`, `other = [1, 1]`, column `0`. -/
theorem elementary_combine_witness :
    (∀ j : Nat, ((freshRow 2 [2, 4]).elementaryAdd (freshRow 2 [1, 1]) (0 : Nat)).elem j
      = (-((freshRow 2 [1, 1]).elem (0 : Nat)) / (freshRow 2 [2, 4]).elem (0 : Nat))
          * (freshRow 2 [2, 4]).elem j + (freshRow 2 [1, 1]).elem j) ∧
    ((freshRow 2 [2, 4]).elementaryAdd (freshRow 2 [1, 1]) (0 : Nat)).elem (0 : Nat) = 0 ∧
    ((freshRow 2 [2, 4]).elementaryAdd (freshRow 2 [1, 1]) (0 : Nat)).W = 2 ∧
    ((freshRow 2 [2, 4]).elementaryAdd (freshRow 2 [1, 1]) (0 : Nat)).data.length = 2 ∧
    ((freshRow 2 [2, 4]).elementaryAdd (freshRow 2 [1, 1]) (0 : Nat)).pivotIndex
      = (freshRow 2 [2, 4]).pivotIndex ∧
    ((freshRow 2 [2, 4]).elementaryAdd (freshRow 2 [1, 1]) (0 : Nat)).zeroRow
      = (freshRow 2 [2, 4]).zeroRow :=
  elementary_combine (freshRow 2 [2, 4]) (freshRow 2 [1, 1]) 2 0
    (by with_unfolding_all decide) (by with_unfolding_all decide)
    (by with_unfolding_all decide) (by decide) (by with_unfolding_all decide)

/-- C16 fails on negative entries: `RowData::print` tests `e < 1E-3`, not the magnitude of
`e`, so for the stored entry `-5` the value handed to `printf` is `0`; the row itself is
unchanged. -/
theorem print_negative_entry :
    RowData.print ⟨1, [-5], 0, false⟩ = (⟨1, [-5], 0, false⟩, [0]) ∧
      ¬ |(-5 : ℚ)| < 1 / 1000 := by
  refine ⟨by with_unfolding_all decide, ?_⟩
  norm_num

/-- C17, as amended (progress of one pass).  In a sorted state with fresh metadata that is
not all zero and not in echelon form, if the first `k` adjacent pairs of nonzero rows have
strictly increasing pivot columns, then after `doAnRefPass` and `setRowInfo` the matrix is
still not all zero and the first `k + 1` adjacent pairs of nonzero rows have strictly
increasing pivot columns. -/
theorem pass_progress (srt : List RowData → List RowData) (hs : IsSort srt) (W H : Nat)
    (m : Rref) (hg : m.Good W H) (hz : m.zeroMatrix = false) (href : m.isRef = false)
    (k : Nat)
    (hk : ∀ j, m.firstNonZeroRow < j → j < H → j ≤ m.firstNonZeroRow + k →
      (rowAt m.rows (j - 1)).pivotIndex < (rowAt m.rows j).pivotIndex) :
    (Rref.setRowInfo srt m.doAnRefPass).zeroMatrix = false ∧
    ∀ j, (Rref.setRowInfo srt m.doAnRefPass).firstNonZeroRow < j → j < H →
      j ≤ (Rref.setRowInfo srt m.doAnRefPass).firstNonZeroRow + (k + 1) →
      (rowAt (Rref.setRowInfo srt m.doAnRefPass).rows (j - 1)).pivotIndex
        < (rowAt (Rref.setRowInfo srt m.doAnRefPass).rows j).pivotIndex := by
  obtain ⟨hg2, hz2⟩ := pass_not_zero hs hg hz
  have hk2 : Settled (Rref.setRowInfo srt m.doAnRefPass).rows (k + 1) := by
    rw [setRowInfo_eq]
    exact Settled.perm (hs.perm _) (settled_step hg hz href (settled_of_strict hg hz hk))
  exact ⟨hz2, Settled.strict hg2 hz2 hk2⟩

/-- Instance of `pass_progress`: the state loaded from `[[1,1,1],[1,2,3],[0,1,5]]` with
insertion sort, `k = 0`. -/
theorem pass_progress_witness :
    (Rref.setRowInfo insertionSortRows
      (stateOf [[1, 1, 1], [1, 2, 3], [0, 1, 5]] 3 3).doAnRefPass).zeroMatrix = false ∧
    ∀ j, (Rref.setRowInfo insertionSortRows
        (stateOf [[1, 1, 1], [1, 2, 3], [0, 1, 5]] 3 3).doAnRefPass).firstNonZeroRow < j →
      j < 3 →
      j ≤ (Rref.setRowInfo insertionSortRows
        (stateOf [[1, 1, 1], [1, 2, 3], [0, 1, 5]] 3 3).doAnRefPass).firstNonZeroRow + (0 + 1) →
      (rowAt (Rref.setRowInfo insertionSortRows
          (stateOf [[1, 1, 1], [1, 2, 3], [0, 1, 5]] 3 3).doAnRefPass).rows (j - 1)).pivotIndex
        < (rowAt (Rref.setRowInfo insertionSortRows
          (stateOf [[1, 1, 1], [1, 2, 3], [0, 1, 5]] 3 3).doAnRefPass).rows j).pivotIndex :=
  pass_progress insertionSortRows insertionSortRows_isSort 3 3
    (stateOf [[1, 1, 1], [1, 2, 3], [0, 1, 5]] 3 3) (stateOf_good validMatrix_progress)
    (by with_unfolding_all decide) (by with_unfolding_all decide) 0
    (fun j h1 _ h3 => by omega)

/-- C17 as stated fails: for `[[1,1,1],[1,2,3],[0,1,5]]` the state on which `solve` is called
is not in echelon form and has one adjacent pair of rows sharing a pivot column (rows 0 and
1, column 0); after `doAnRefPass` and `setRowInfo` there is again one such pair (rows 1 and
2, column 1). -/
theorem pass_progress_counterexample :
    Rref.load insertionSortRows 0 (bufferOf [[1, 1, 1], [1, 2, 3], [0, 1, 5]]) (3 : Nat) (3 : Nat)
      = .ok (stateOf [[1, 1, 1], [1, 2, 3], [0, 1, 5]] 3 3) ∧
    (stateOf [[1, 1, 1], [1, 2, 3], [0, 1, 5]] 3 3).zeroMatrix = false ∧
    (stateOf [[1, 1, 1], [1, 2, 3], [0, 1, 5]] 3 3).isRef = false ∧
    dupPairs (stateOf [[1, 1, 1], [1, 2, 3], [0, 1, 5]] 3 3) = 1 ∧
    ¬ dupPairs (Rref.setRowInfo insertionSortRows
        (stateOf [[1, 1, 1], [1, 2, 3], [0, 1, 5]] 3 3).doAnRefPass)
      < dupPairs (stateOf [[1, 1, 1], [1, 2, 3], [0, 1, 5]] 3 3) :=
  ⟨load_valid insertionSortRows 0 validMatrix_progress, by with_unfolding_all decide,
    by with_unfolding_all decide, by with_unfolding_all decide, by with_unfolding_all decide⟩

/-- C18 (no division by zero, no column index out of range).  On a valid input, the run of
`solve` in which every read `row[index]` made by `doAnRefPass` and `toRref`, every
`elementaryAdd` and every normalising division is checked (index in `[0, W)`, divisor
nonzero) never fails a check and returns the same object as `solve`. -/
theorem solve_no_hazard (srt : List RowData → List RowData) (hs : IsSort srt)
    (M : List (List ℚ)) (W H : Nat) (hv : ValidMatrix M W H) (fuel fnz0 : Nat)
    (hfuel : H ≤ fuel) :
    ∃ m0 m, Rref.load srt fnz0 (bufferOf M) W H = .ok m0 ∧
      Rref.solve srt fuel m0 = some m ∧
      Rref.solveChecked srt fuel m0 = some (some m) := by
  obtain ⟨m0, m, a, b, h0, hc, _⟩ := construct_spec hs hv fuel fnz0 hfuel
  have hsolve : Rref.solve srt fuel m0 = some m := by
    rw [← solveCount_fst, hc]; rfl
  have e : m0 = Rref.setRowInfo srt ⟨W, H, fnz0, false, M.map (freshRow W)⟩ := by
    rw [load_valid srt fnz0 hv] at h0
    exact (Except.ok.inj h0).symm
  refine ⟨m0, m, h0, hsolve, ?_⟩
  rw [solveChecked_eq hs fuel m0 (e ▸ load_good hs hv fnz0), hsolve]
  rfl

/-- Instance of `solve_no_hazard`: the matrix `[[2, 4], [1, 1]]` with insertion sort. -/
theorem solve_no_hazard_witness :
    ∃ m0 m, Rref.load insertionSortRows 0 (bufferOf [[2, 4], [1, 1]]) (2 : Nat) (2 : Nat)
        = .ok m0 ∧
      Rref.solve insertionSortRows 2 m0 = some m ∧
      Rref.solveChecked insertionSortRows 2 m0 = some (some m) :=
  solve_no_hazard insertionSortRows insertionSortRows_isSort [[2, 4], [1, 1]] 2 2
    validMatrix_example 2 0 (le_refl _)

/-- C20 (one elimination pass).  In a sorted state with fresh metadata that is not all zero
(the states in which `solve` calls `doAnRefPass`), the pass keeps the number of rows and,
for every index `i < H`: if `i > firstNonZeroRow` and row `i` had the same pivot column `p`
as row `i - 1`, then row `i` becomes `k * row_i + row_(i-1)` of the rows before the pass,
with `k = -row_(i-1)[p] / row_i[p]`, and its entries in the columns `≤ p` are zero;
otherwise row `i` is unchanged. -/
theorem one_pass (W H : Nat) (m : Rref) (hg : m.Good W H) (hz : m.zeroMatrix = false) :
    m.doAnRefPass.rows.length = H ∧
    ∀ i, i < H →
      ((m.firstNonZeroRow < i ∧
          (rowAt m.rows i).pivotIndex = (rowAt m.rows (i - 1)).pivotIndex) →
        ∃ p : Nat, (rowAt m.rows i).pivotIndex = p ∧ IsLead (rowAt m.rows i).data p ∧
          IsLead (rowAt m.rows (i - 1)).data p ∧
          (∀ c : Nat, (rowAt m.doAnRefPass.rows i).elem c
            = (-(rowAt m.rows (i - 1)).elem p / (rowAt m.rows i).elem p)
                * (rowAt m.rows i).elem c + (rowAt m.rows (i - 1)).elem c) ∧
          (∀ c : Nat, c ≤ p → (rowAt m.doAnRefPass.rows i).elem c = 0)) ∧
      (¬ (m.firstNonZeroRow < i ∧
          (rowAt m.rows i).pivotIndex = (rowAt m.rows (i - 1)).pivotIndex) →
        rowAt m.doAnRefPass.rows i = rowAt m.rows i) := by
  refine ⟨(doAnRefPass_pre hg hz).len, fun i hi => ⟨fun hh => ?_, fun hh => ?_⟩⟩
  · obtain ⟨p, hp, hl, hl2⟩ := Hit.lead hg hz hi hh
    refine ⟨p, hp, hl, hl2, fun c => ?_, fun c hc => ?_⟩
    · rw [(doAnRefPass_rowAt hg i hi).1 hh, elem_natCast, elementaryAdd_getD _ _ _ _
        (by rw [(hg.fresh _ (by omega)).len, (hg.fresh _ hi).len]), hp]
      simp only [elem_natCast]
      ring
    · rw [elem_natCast]
      exact doAnRefPass_cleared hg hz hi hh p hp c hc
  · exact (doAnRefPass_rowAt hg i hi).2 hh

/-- Instance of `one_pass`: the state loaded from `[[2, 4], [1, 1]]` with insertion sort. -/
theorem one_pass_witness :
    (stateOf [[2, 4], [1, 1]] 2 2).doAnRefPass.rows.length = 2 ∧
    ∀ i, i < 2 →
      (((stateOf [[2, 4], [1, 1]] 2 2).firstNonZeroRow < i ∧
          (rowAt (stateOf [[2, 4], [1, 1]] 2 2).rows i).pivotIndex
            = (rowAt (stateOf [[2, 4], [1, 1]] 2 2).rows (i - 1)).pivotIndex) →
        ∃ p : Nat, (rowAt (stateOf [[2, 4], [1, 1]] 2 2).rows i).pivotIndex = p ∧
          IsLead (rowAt (stateOf [[2, 4], [1, 1]] 2 2).rows i).data p ∧
          IsLead (rowAt (stateOf [[2, 4], [1, 1]] 2 2).rows (i - 1)).data p ∧
          (∀ c : Nat, (rowAt (stateOf [[2, 4], [1, 1]] 2 2).doAnRefPass.rows i).elem c
            = (-(rowAt (stateOf [[2, 4], [1, 1]] 2 2).rows (i - 1)).elem p
                / (rowAt (stateOf [[2, 4], [1, 1]] 2 2).rows i).elem p)
                * (rowAt (stateOf [[2, 4], [1, 1]] 2 2).rows i).elem c
              + (rowAt (stateOf [[2, 4], [1, 1]] 2 2).rows (i - 1)).elem c) ∧
          (∀ c : Nat, c ≤ p →
            (rowAt (stateOf [[2, 4], [1, 1]] 2 2).doAnRefPass.rows i).elem c = 0)) ∧
      (¬ ((stateOf [[2, 4], [1, 1]] 2 2).firstNonZeroRow < i ∧
          (rowAt (stateOf [[2, 4], [1, 1]] 2 2).rows i).pivotIndex
            = (rowAt (stateOf [[2, 4], [1, 1]] 2 2).rows (i - 1)).pivotIndex) →
        rowAt (stateOf [[2, 4], [1, 1]] 2 2).doAnRefPass.rows i
          = rowAt (stateOf [[2, 4], [1, 1]] 2 2).rows i) :=
  one_pass 2 2 (stateOf [[2, 4], [1, 1]] 2 2) (stateOf_good validMatrix_example)
    (by with_unfolding_all decide)

/-- C21 (input-order independence).  For a valid input `M` and any permutation `M2` of its
rows, the constructor returns the same matrix for `M2` as for `M`, also when the two runs
use different admissible `std::sort` behaviours and different indeterminate initial values
of `firstNonZeroRow`. -/
theorem input_order_independent (srt1 srt2 : List RowData → List RowData)
    (hs1 : IsSort srt1) (hs2 : IsSort srt2) (M M2 : List (List ℚ)) (W H : Nat)
    (hv : ValidMatrix M W H) (hp : M2.Perm M) (fuel1 fuel2 fnz1 fnz2 : Nat)
    (h1 : H ≤ fuel1) (h2 : H ≤ fuel2) :
    ∃ m1 m2, Rref.ofBuffer srt1 fuel1 fnz1 (bufferOf M) W H = some (.ok m1) ∧
      Rref.ofBuffer srt2 fuel2 fnz2 (bufferOf M2) W H = some (.ok m2) ∧
      m1.getMatrix = m2.getMatrix := by
  obtain ⟨_, m1, _, _, _, _, _, _, hm1, _, _, hsp1, f1, p1, hc1, hf1, _, _⟩ :=
    construct_spec hs1 hv fuel1 fnz1 h1
  obtain ⟨_, m2, _, _, _, _, _, _, hm2, _, _, hsp2, f2, p2, hc2, hf2, _, _⟩ :=
    construct_spec hs2 (validMatrix_perm hv hp) fuel2 fnz2 h2
  refine ⟨m1, m2, hm1, hm2, canon_unique hc1 hc2 hf1 hf2 ?_⟩
  rw [hsp1, hsp2, rowSpace_perm hp]

/-- Instance of `input_order_independent`: `[[2, 4], [1, 1]]` and its rows swapped, with
insertion sort. -/
theorem input_order_independent_witness :
    ∃ m1 m2, Rref.ofBuffer insertionSortRows 2 0 (bufferOf [[2, 4], [1, 1]])
        (2 : Nat) (2 : Nat) = some (.ok m1) ∧
      Rref.ofBuffer insertionSortRows 2 0 (bufferOf [[1, 1], [2, 4]])
        (2 : Nat) (2 : Nat) = some (.ok m2) ∧
      m1.getMatrix = m2.getMatrix :=
  input_order_independent insertionSortRows insertionSortRows insertionSortRows_isSort
    insertionSortRows_isSort [[2, 4], [1, 1]] [[1, 1], [2, 4]] 2 2 validMatrix_example
    (List.Perm.swap _ _ _) 2 2 0 0 (le_refl _) (le_refl _)
